import Mathlib

/-!
A verification development for `List<T>` (src/main.cpp).

The container is a doubly linked list with two sentinel nodes, written with
raw `Node*` pointers.  The embedding keeps the pointer structure:

* the heap is an arena of node cells, a node address is an index into it,
  `nullptr` is `none`; `new Node` takes the next unused address (addresses are
  never handed out twice) and `delete` empties the cell;
* a dereference of a null or freed pointer, a read of storage that holds no
  constructed `T`, and a destructor call on such storage are undefined
  behaviour in C++ and end the run with `Err.undefined`;
* `size_t` is a natural number below `2 ^ 64`, `++` and `--` wrap;
* loops take a fuel argument; running out of fuel is `Err.out_of_fuel`.
-/

namespace StlList

/-- Ways a run of the embedded code can end without a value. -/
inductive Err where
  /-- the exception `std::out_of_range("The list is empty!")` -/
  | out_of_range
  /-- undefined behaviour: null or dangling dereference, read of raw storage -/
  | undefined
  /-- the fuel of a loop of the embedding was used up -/
  | out_of_fuel
deriving DecidableEq

/-- A `Node*`: `none` is `nullptr`, `some a` is the address `a`. -/
abbrev Ptr := Option Nat

/-- The type `struct List<T>::Node`.  The field `data` points to raw storage for one `T`
that the node owns alone; the storage and what it holds are kept in the node:
`none` is storage without a constructed value. -/
structure Node (T : Type) where
  data : Option T
  next : Ptr
  prev : Ptr
deriving DecidableEq

/-- The heap: cell `a` is `some n` while the node at address `a` is allocated. -/
abbrev Heap (T : Type) := List (Option (Node T))

/-- The three data members of `List<T>`. -/
structure LList where
  _front : Ptr
  _back : Ptr
  _size : Nat
deriving DecidableEq

/-- The modulus of `size_t`. -/
def SIZE_MOD : Nat := 2 ^ 64

variable {T : Type}

/-- The cell at an address. -/
def cellAt (h : Heap T) (a : Nat) : Option (Node T) := h.getD a none

/-- Read through a pointer (`p->...`). -/
def load (h : Heap T) (p : Ptr) : Except Err (Node T) :=
  match p with
  | none => .error .undefined
  | some a =>
    match cellAt h a with
    | none => .error .undefined
    | some n => .ok n

/-- Overwrite the node a pointer refers to. -/
def store (h : Heap T) (p : Ptr) (n : Node T) : Except Err (Heap T) :=
  match p with
  | none => .error .undefined
  | some a =>
    match cellAt h a with
    | none => .error .undefined
    | some _ => .ok (h.set a (some n))

/-- The assignment `p->next = q`. -/
def set_next (h : Heap T) (p q : Ptr) : Except Err (Heap T) := do
  let n ← load h p
  store h p { n with next := q }

/-- The assignment `p->prev = q`. -/
def set_prev (h : Heap T) (p q : Ptr) : Except Err (Heap T) := do
  let n ← load h p
  store h p { n with prev := q }

/-- The placement new `p->data = new (p->data) T(value)`. -/
def construct (h : Heap T) (p : Ptr) (value : T) : Except Err (Heap T) := do
  let n ← load h p
  store h p { n with data := some value }

/-- The expression `new Node(next, prev)`: the node gets the first unused address and
raw storage. -/
def new_Node (h : Heap T) (next prev : Ptr) : Heap T × Ptr :=
  (h ++ [some { data := none, next := next, prev := prev }], some h.length)

/-- The statements `p->data->~T(); ::operator delete(p->data); delete p;`. -/
def delete_Node (h : Heap T) (p : Ptr) : Except Err (Heap T) := do
  let n ← load h p
  match n.data, p with
  | some _, some a => pure (h.set a none)
  | _, _ => throw .undefined

/-- The default constructor `List<T>::List()`. -/
def List_ctor (h : Heap T) : Except Err (Heap T × LList) := do
  let (h, f) := new_Node h none none
  let (h, b) := new_Node h none none
  let h ← set_next h f b
  let h ← set_prev h b f
  pure (h, { _front := f, _back := b, _size := 0 })

/-- The method `List<T>::size`. -/
def size (l : LList) : Nat := l._size

/-- The method `List<T>::empty`: `!size()`. -/
def empty (l : LList) : Bool := size l == 0

/-- The method `List<T>::begin`: `iterator(_front->next)`. -/
def begin (h : Heap T) (l : LList) : Except Err Ptr := do
  let n ← load h l._front
  pure n.next

/-- The method `List<T>::end`: `iterator(_back)`. -/
def «end» (l : LList) : Ptr := l._back

/-- The operator `Iterator::operator++`. -/
def Iterator.inc (h : Heap T) (it : Ptr) : Except Err Ptr := do
  let n ← load h it
  pure n.next

/-- The operator `Iterator::operator--`. -/
def Iterator.dec (h : Heap T) (it : Ptr) : Except Err Ptr := do
  let n ← load h it
  pure n.prev

/-- The operator `Iterator::operator*`: `*(_current_node->data)`. -/
def Iterator.deref (h : Heap T) (it : Ptr) : Except Err T := do
  let n ← load h it
  match n.data with
  | none => throw .undefined
  | some v => pure v

/-- The method `List<T>::insert(const_iterator, T&&)`; the overload taking `const T&` copies the
value and calls this one. -/
def insert (h : Heap T) (l : LList) (it : Ptr) (value : T) :
    Except Err (Heap T × LList × Ptr) := do
  let prev := (← load h it).prev
  let next := it
  let (h, cur) := new_Node h next prev
  let h ← construct h cur value
  let h ← set_next h prev cur
  let h ← set_prev h next cur
  pure (h, { l with _size := (l._size + 1) % SIZE_MOD }, cur)

/-- The method `List<T>::push_back`. -/
def push_back (h : Heap T) (l : LList) (value : T) : Except Err (Heap T × LList) := do
  let (h, l, _) ← insert h l («end» l) value
  pure (h, l)

/-- The method `List<T>::push_front`. -/
def push_front (h : Heap T) (l : LList) (value : T) : Except Err (Heap T × LList) := do
  let (h, l, _) ← insert h l (← begin h l) value
  pure (h, l)

/-- The method `List<T>::front()`, the overload on a mutable list. -/
def front (h : Heap T) (l : LList) : Except Err T :=
  if empty l then throw .out_of_range
  else do
    let f ← load h l._front
    Iterator.deref h f.next

/-- The method `List<T>::back()`, the overload on a mutable list. -/
def back (h : Heap T) (l : LList) : Except Err T :=
  if empty l then throw .out_of_range
  else do
    let b ← load h l._back
    Iterator.deref h b.prev

/-- The method `List<T>::erase(const_iterator)`. -/
def erase (h : Heap T) (l : LList) (pos : Ptr) : Except Err (Heap T × LList × Ptr) :=
  if pos = «end» l then pure (h, l, «end» l)
  else do
    let prev := (← load h pos).prev
    let next := (← load h pos).next
    let h ← set_next h prev next
    let h ← set_prev h next prev
    let h ← delete_Node h pos
    pure (h, { l with _size := (l._size + SIZE_MOD - 1) % SIZE_MOD }, next)

/-- The loop of `List<T>::erase(const_iterator, const_iterator)`:
`for (; first != last; first = erase(first)) ;`. -/
def erase_loop (h : Heap T) (l : LList) (first last : Ptr) :
    Nat → Except Err (Heap T × LList)
  | 0 => throw .out_of_fuel
  | fuel + 1 =>
    if first = last then pure (h, l)
    else do
      let (h, l, first) ← erase h l first
      erase_loop h l first last fuel

/-- The method `List<T>::erase(const_iterator, const_iterator)`. -/
def erase_range (fuel : Nat) (h : Heap T) (l : LList) (first last : Ptr) :
    Except Err (Heap T × LList × Ptr) := do
  let (h, l) ← erase_loop h l first last fuel
  pure (h, l, last)

/-- The method `List<T>::pop_front`. -/
def pop_front (h : Heap T) (l : LList) : Except Err (Heap T × LList) := do
  let (h, l, _) ← erase h l (← begin h l)
  pure (h, l)

/-- The method `List<T>::pop_back`. -/
def pop_back (h : Heap T) (l : LList) : Except Err (Heap T × LList) := do
  if (← begin h l) ≠ «end» l then
    let (h, l, _) ← erase h l (← Iterator.dec h («end» l))
    pure (h, l)
  else pure (h, l)

/-- The method `List<T>::clear`. -/
def clear (fuel : Nat) (h : Heap T) (l : LList) : Except Err (Heap T × LList) := do
  let (h, l, _) ← erase_range fuel h l (← begin h l) («end» l)
  pure (h, l)

/-- A client loop `for (auto it = first; it != last; ++it) out.push_back(*it);`. -/
def collect (h : Heap T) (last : Ptr) : Ptr → Nat → Except Err (List T)
  | _, 0 => throw .out_of_fuel
  | it, fuel + 1 =>
    if it = last then pure []
    else do
      let v ← Iterator.deref h it
      let it ← Iterator.inc h it
      let rest ← collect h last it fuel
      pure (v :: rest)

/-- Forward iteration from `begin()` to `end()`. -/
def traverse (fuel : Nat) (h : Heap T) (l : LList) : Except Err (List T) := do
  collect h («end» l) (← begin h l) fuel

/-- The method `List<T>::front() const`.  Its body is `return front();`, written inside a const
member function: there `*this` is a `const List`, the overload `T& front()` cannot
be called on it, so the call resolves to `front() const`, the function itself.
Each unit of fuel pays for one such call. -/
def front_const (h : Heap T) (l : LList) : Nat → Except Err T
  | 0 => throw .out_of_fuel
  | fuel + 1 => front_const h l fuel

/-- The method `List<T>::back() const`.  Its body `return back();` resolves to `back() const`
in the same way. -/
def back_const (h : Heap T) (l : LList) : Nat → Except Err T
  | 0 => throw .out_of_fuel
  | fuel + 1 => back_const h l fuel

/-- The loop of `List<T>::reverse`:
`while (current) { temp = current->prev; current->prev = current->next;
current->next = temp; current = current->prev; }`. -/
def reverse_loop (h : Heap T) : Ptr → Nat → Except Err (Heap T)
  | _, 0 => throw .out_of_fuel
  | none, _ + 1 => pure h
  | some c, fuel + 1 => do
    let current : Ptr := some c
    let temp := (← load h current).prev
    let h ← set_prev h current (← load h current).next
    let h ← set_next h current temp
    let current := (← load h current).prev
    reverse_loop h current fuel

/-- The method `List<T>::reverse`. -/
def reverse (fuel : Nat) (h : Heap T) (l : LList) : Except Err (Heap T × LList) := do
  let h ← reverse_loop h l._front fuel
  pure (h, { l with _front := l._back, _back := l._front })

/-- The assignment `*j = value` through an iterator: copy assignment to the
constructed object in the node. -/
def Iterator.assign (h : Heap T) (j : Ptr) (value : T) : Except Err (Heap T) := do
  let n ← load h j
  match n.data with
  | none => throw .undefined
  | some _ => store h j { n with data := some value }

/-- The loop of `List<T>::unique`, entered after `++i`:
`for (; i != end(); ++i) { if (*j != *i) { ++j; *j = *i; } }`;
`ne` is the element type's `operator!=`.  The result is the heap and `j`. -/
def unique_loop (ne : T → T → Bool) (last : Ptr) (h : Heap T) :
    Ptr → Ptr → Nat → Except Err (Heap T × Ptr)
  | _, _, 0 => throw .out_of_fuel
  | j, i, fuel + 1 =>
    if i = last then pure (h, j)
    else do
      if ne (← Iterator.deref h j) (← Iterator.deref h i) then
        let j ← Iterator.inc h j
        let h ← Iterator.assign h j (← Iterator.deref h i)
        let i ← Iterator.inc h i
        unique_loop ne last h j i fuel
      else
        let i ← Iterator.inc h i
        unique_loop ne last h j i fuel

/-- The method `List<T>::unique`. -/
def unique (ne : T → T → Bool) (fuel : Nat) (h : Heap T) (l : LList) :
    Except Err (Heap T × LList) :=
  if size l ≥ 2 then do
    let j ← begin h l
    let i ← Iterator.inc h j
    let (h, j) ← unique_loop ne («end» l) h j i fuel
    let j ← Iterator.inc h j
    let (h, l, _) ← erase_range fuel h l j («end» l)
    pure (h, l)
  else pure (h, l)

/-- A client that calls `push_back` with each value of `vs`, in order. -/
def push_back_all (h : Heap T) (l : LList) : List T → Except Err (Heap T × LList)
  | [] => pure (h, l)
  | v :: vs => do
    let (h, l) ← push_back h l v
    push_back_all h l vs

/-- A client that default-constructs a list and then calls `push_back` with each value
of `vs`, in order. -/
def build (h : Heap T) (vs : List T) : Except Err (Heap T × LList) := do
  let (h, l) ← List_ctor h
  push_back_all h l vs

/-- A cell of a chain: the address of a node and what its storage holds. -/
abbrev Cell (T : Type) := Nat × Option T

/-- The addresses of the cells of a chain. -/
def addrs (cs : List (Cell T)) : List Nat := cs.map Prod.fst

/-- The address of the first cell of a chain, `q` for the chain without cells. -/
def hd (q : Ptr) : List (Cell T) → Ptr
  | [] => q
  | c :: _ => some c.1

/-- The address of the last cell of a chain, `p` for the chain without cells. -/
def lst (p : Ptr) : List (Cell T) → Ptr
  | [] => p
  | c :: cs => lst (some c.1) cs

/-- The predicate `Seg h p cs q`: the heap holds the cells `cs` as a doubly linked segment; each
node's `next` is the address of the cell after it (`q` for the last one), each
node's `prev` the address of the cell before it (`p` for the first one). -/
def Seg (h : Heap T) : Ptr → List (Cell T) → Ptr → Prop
  | _, [], _ => True
  | p, c :: cs, q =>
    cellAt h c.1 = some { data := c.2, next := hd q cs, prev := p } ∧ Seg h (some c.1) cs q

/-- The interior nodes as cells: each holds a constructed value. -/
def live (ns : List (Nat × T)) : List (Cell T) := ns.map fun n => (n.1, some n.2)

/-- The whole chain of a list: front sentinel, interior nodes, back sentinel. -/
def chain (f : Nat) (ns : List (Nat × T)) (b : Nat) : List (Cell T) :=
  (f, none) :: (live ns ++ [(b, none)])

/-- The position of the start of the interior nodes `ys` in a list whose back sentinel
is at `b`: the first node of `ys`, the back sentinel (`end()`) when `ys` is empty. -/
def posOf (ys : List (Nat × T)) (b : Nat) : Ptr := hd (some b) (live ys)

/-- The values of interior nodes, in order. -/
def vals (ns : List (Nat × T)) : List T := ns.map Prod.snd

/-- Whether a heap holds a segment can be checked by reading the cells. -/
instance Seg.dec [DecidableEq T] (h : Heap T) : ∀ p cs q, Decidable (Seg h p cs q)
  | _, [], _ => isTrue trivial
  | _, c :: cs, q =>
    have := Seg.dec h (some c.1) cs q
    inferInstanceAs (Decidable (_ ∧ _))

/-- A segment whose nodes have `next` and `prev` exchanged: each node's `prev` is the
address of the cell after it (`q` for the last one), each node's `next` the
address of the cell before it (`p` for the first one). -/
def RSeg (h : Heap T) : Ptr → List (Cell T) → Ptr → Prop
  | _, [], _ => True
  | p, c :: cs, q =>
    cellAt h c.1 = some { data := c.2, next := p, prev := hd q cs } ∧ RSeg h (some c.1) cs q

/-- What the loop of `unique` keeps after a kept value `prev`: each later value that
differs (by `ne`) from the value kept last. -/
def keep_from (ne : T → T → Bool) : T → List T → List T
  | _, [] => []
  | prev, x :: xs => if ne prev x then x :: keep_from ne x xs else keep_from ne prev xs

/-- The values `unique` leaves, computed on the sequence of values: the first value,
then what the loop keeps after it. -/
def unique_vals (ne : T → T → Bool) : List T → List T
  | [] => []
  | v :: vs => v :: keep_from ne v vs

/-- The maximal runs of consecutive equal elements of a sequence, as the
specification words them. -/
def runs [DecidableEq T] : List T → List (List T)
  | [] => []
  | a :: xs =>
    match runs xs with
    | (b :: r) :: rs => if a = b then (a :: b :: r) :: rs else [a] :: (b :: r) :: rs
    | _ => [[a]]

/-- The first element of each maximal run of consecutive equal elements. -/
def run_heads [DecidableEq T] (xs : List T) : List T := (runs xs).filterMap List.head?

/-- Well-formedness of the list `l` in the heap `h`, with front sentinel at `f`,
interior nodes `ns` (address and value, in order) and back sentinel at `b`:
`next` leads from the front sentinel through the interior nodes to the back
sentinel, `prev` leads back, the outer links are null, the sentinels hold no
value, the nodes are distinct and `_size` counts the interior nodes. -/
structure Wf (h : Heap T) (l : LList) (f : Nat) (ns : List (Nat × T)) (b : Nat) : Prop where
  front_eq : l._front = some f
  back_eq : l._back = some b
  size_eq : l._size = ns.length
  size_lt : ns.length < SIZE_MOD
  nodup : (addrs (chain f ns b)).Nodup
  seg : Seg h none (chain f ns b) none

/-- The heap after `List<int> l; l.push_back(1); l.push_back(2); l.push_back(3);` run on
the empty heap: sentinels at 0 and 1, interior nodes at 2, 3, 4. -/
def exHeap : Heap Nat :=
  [some ⟨none, some 2, none⟩, some ⟨none, none, some 4⟩, some ⟨some 1, some 3, some 0⟩,
   some ⟨some 2, some 4, some 2⟩, some ⟨some 3, some 1, some 3⟩]

/-- The list object of `exHeap`. -/
def exList : LList := ⟨some 0, some 1, 3⟩

/-- The heap after `push_back` of 1, 1, 2 on a default-constructed list, run on the
empty heap. -/
def exHeapDup : Heap Nat :=
  [some ⟨none, some 2, none⟩, some ⟨none, none, some 4⟩, some ⟨some 1, some 3, some 0⟩,
   some ⟨some 1, some 4, some 2⟩, some ⟨some 2, some 1, some 3⟩]

/-- The heap of a default-constructed list, run on the empty heap. -/
def exHeapEmpty : Heap Nat := [some ⟨none, some 1, none⟩, some ⟨none, none, some 0⟩]

/-- The list object of `exHeapEmpty`. -/
def exListEmpty : LList := ⟨some 0, some 1, 0⟩

/-- The loop of `List<T>::List(size_t count, const T& value)`:
`for (size_t i = 0; i < count; ++i) { tmp->next = new Node(nullptr, tmp);
tmp->next->data = new (tmp->next->data) T(value); tmp = tmp->next; }`.
The last argument is the number of rounds still to run, `count - i`; the result
is the heap and `tmp`. -/
def fill_loop (value : T) (h : Heap T) (tmp : Ptr) : Nat → Except Err (Heap T × Ptr)
  | 0 => pure (h, tmp)
  | n + 1 => do
    let (h, c) := new_Node h none tmp
    let h ← set_next h tmp c
    let h ← construct h (← load h tmp).next value
    let tmp := (← load h tmp).next
    fill_loop value h tmp n

/-- The constructor `List<T>::List(size_t count, const T& value)`; it delegates to
`List()` first. -/
def List_count (h : Heap T) (count : Nat) (value : T) : Except Err (Heap T × LList) := do
  let (h, l) ← List_ctor h
  let l := { l with _size := count }
  if count > 0 then
    let tmp := l._front
    let (h, tmp) ← fill_loop value h tmp count
    let h ← set_next h tmp l._back
    let h ← set_prev h l._back tmp
    pure (h, l)
  else pure (h, l)

/-- The loop shared by the copy constructor and copy assignment:
`for (auto other_tmp = other._front->next; other_tmp != other._back;
other_tmp = other_tmp->next) { tmp->next = new Node(nullptr, tmp);
tmp->next->data = new (tmp->next->data) T(*(other_tmp->data)); tmp = tmp->next; }`.
The result is the heap and `tmp`. -/
def copy_loop (other_back : Ptr) (h : Heap T) : Ptr → Ptr → Nat → Except Err (Heap T × Ptr)
  | _, _, 0 => throw .out_of_fuel
  | tmp, other_tmp, fuel + 1 =>
    if other_tmp = other_back then pure (h, tmp)
    else do
      let (h, c) := new_Node h none tmp
      let h ← set_next h tmp c
      let h ← construct h (← load h tmp).next (← Iterator.deref h other_tmp)
      let tmp := (← load h tmp).next
      let other_tmp := (← load h other_tmp).next
      copy_loop other_back h tmp other_tmp fuel

/-- The statements shared by the copy constructor and copy assignment, from
`Node* tmp = _front;` on: the loop, then `tmp->next = _back; _back->prev = tmp;`. -/
def copy_body (fuel : Nat) (h : Heap T) (l other : LList) : Except Err (Heap T) := do
  let tmp := l._front
  let (h, tmp) ← copy_loop other._back h tmp (← load h other._front).next fuel
  let h ← set_next h tmp l._back
  set_prev h l._back tmp

/-- The copy constructor `List<T>::List(const List<T>& other)`. -/
def List_copy (fuel : Nat) (h : Heap T) (other : LList) : Except Err (Heap T × LList) := do
  let (h, f) := new_Node h none none
  let (h, b) := new_Node h none none
  let l : LList := { _front := f, _back := b, _size := size other }
  let h ← copy_body fuel h l other
  pure (h, l)

/-- The copy assignment `List<T>::operator=(const List<T>& other)`.  The arguments
`this_addr` and `other_addr` are the addresses of the two `List` objects, which
the guard `this != &other` compares. -/
def copy_assign (fuel : Nat) (h : Heap T) (this_addr other_addr : Nat) (l other : LList) :
    Except Err (Heap T × LList) :=
  if this_addr ≠ other_addr then do
    let (h, l) ← clear fuel h l
    let l := { l with _size := size other }
    let h ← copy_body fuel h l other
    pure (h, l)
  else pure (h, l)

/-- The statements shared by the move constructor and move assignment:
`_front->next = other._front->next; _front->next->prev = _front;
_back->prev = other._back->prev; _back->prev->next = _back;
other._front->next = other._back; other._back->prev = other._front;`. -/
def move_body (h : Heap T) (l other : LList) : Except Err (Heap T) := do
  let h ← set_next h l._front (← load h other._front).next
  let h ← set_prev h (← load h l._front).next l._front
  let h ← set_prev h l._back (← load h other._back).prev
  let h ← set_next h (← load h l._back).prev l._back
  let h ← set_next h other._front other._back
  set_prev h other._back other._front

/-- The move constructor `List<T>::List(List<T>&& other)`; the result is the heap, the
new list and the source with `other._size = 0`. -/
def List_move (h : Heap T) (other : LList) : Except Err (Heap T × LList × LList) := do
  let (h, f) := new_Node h none none
  let (h, b) := new_Node h none none
  let l : LList := { _front := f, _back := b, _size := other._size }
  let h ← move_body h l other
  pure (h, l, { other with _size := 0 })

/-- The move assignment `List<T>::operator=(List<T>&& other)`; `this_addr` and
`other_addr` are the addresses of the two `List` objects.  The result is the
heap, this list and the source. -/
def move_assign (fuel : Nat) (h : Heap T) (this_addr other_addr : Nat) (l other : LList) :
    Except Err (Heap T × LList × LList) :=
  if this_addr ≠ other_addr then do
    let (h, l) ← clear fuel h l
    let l := { l with _size := other._size }
    let h ← move_body h l other
    pure (h, l, { other with _size := 0 })
  else pure (h, l, other)

/-- The loop of the range `insert`: `for (++first; first != last; ++first)
insert(pos, *first);`, over the values the source range still yields. -/
def insert_rest (h : Heap T) (l : LList) (pos : Ptr) : List T → Except Err (Heap T × LList)
  | [] => pure (h, l)
  | v :: vs => do
    let (h, l, _) ← insert h l pos v
    insert_rest h l pos vs

/-- The method `List<T>::insert(const_iterator pos, InputIt first, InputIt last)`; the
source range, which lies outside this list, is given by the values it yields. -/
def insert_range (h : Heap T) (l : LList) (pos : Ptr) (src : List T) :
    Except Err (Heap T × LList × Ptr) :=
  match src with
  | [] => pure (h, l, pos)
  | v :: vs => do
    let (h, l, returnedIter) ← insert h l pos v
    let (h, l) ← insert_rest h l pos vs
    pure (h, l, returnedIter)

/-- The method `List<T>::rbegin`: `reverse_iterator(end())`.  A reverse iterator is
given by its underlying (base) iterator. -/
def rbegin (l : LList) : Ptr := «end» l

/-- The method `List<T>::rend`: `reverse_iterator(begin())`. -/
def rend (h : Heap T) (l : LList) : Except Err Ptr := begin h l

/-- Modelled from the spec: the dereference of the standard adaptor
`std::reverse_iterator`, which the source only names; it reads the node before
the base position, `Iterator tmp = base; return *--tmp;`. -/
def reverse_iterator.deref (h : Heap T) (base : Ptr) : Except Err T := do
  let tmp ← Iterator.dec h base
  Iterator.deref h tmp

/-- Modelled from the spec: the increment of the standard adaptor
`std::reverse_iterator`, `--base`. -/
def reverse_iterator.inc (h : Heap T) (base : Ptr) : Except Err Ptr := Iterator.dec h base

/-- A client loop `for (auto r = first; r != last; ++r) out.push_back(*r);` over reverse
iterators. -/
def rcollect (h : Heap T) (last : Ptr) : Ptr → Nat → Except Err (List T)
  | _, 0 => throw .out_of_fuel
  | r, fuel + 1 =>
    if r = last then pure []
    else do
      let v ← reverse_iterator.deref h r
      let r ← reverse_iterator.inc h r
      let rest ← rcollect h last r fuel
      pure (v :: rest)

/-- Reverse iteration from `rbegin()` to `rend()`. -/
def rtraverse (fuel : Nat) (h : Heap T) (l : LList) : Except Err (List T) := do
  rcollect h (← rend h l) (rbegin l) fuel

/-- The node reached from `p` by following `next` a number of times. -/
def walk (h : Heap T) : Ptr → Nat → Except Err Ptr
  | p, 0 => pure p
  | p, k + 1 => do
    let q ← Iterator.inc h p
    walk h q k

/-- The invariant in the words of the specification: following `next` from the front
sentinel reaches the back sentinel after exactly `_size` interior nodes, every
node `m` on that chain other than the back sentinel has `m.next.prev == m`, the
front sentinel's `prev` and the back sentinel's `next` are null. -/
def Inv (h : Heap T) (l : LList) : Prop :=
  walk h l._front (l._size + 1) = .ok l._back ∧
  (∀ j, j ≤ l._size → walk h l._front j ≠ .ok l._back) ∧
  (∀ j m, j ≤ l._size → walk h l._front j = .ok m →
    (do let n ← Iterator.inc h m; Iterator.dec h n) = .ok m) ∧
  (∃ n, load h l._front = .ok n ∧ n.prev = none) ∧
  (∃ n, load h l._back = .ok n ∧ n.next = none)

/-- Two lists share no node: no sentinel or interior node of one is a sentinel or
interior node of the other. -/
def Apart (f1 : Nat) (ns1 : List (Nat × T)) (b1 : Nat) (f2 : Nat) (ns2 : List (Nat × T))
    (b2 : Nat) : Prop :=
  (addrs (chain f1 ns1 b1)).Disjoint (addrs (chain f2 ns2 b2))

/-- Two well-formed lists in one heap that share no node. -/
def Pair (h : Heap T) (l1 : LList) (f1 : Nat) (ns1 : List (Nat × T)) (b1 : Nat)
    (l2 : LList) (f2 : Nat) (ns2 : List (Nat × T)) (b2 : Nat) : Prop :=
  Wf h l1 f1 ns1 b1 ∧ Wf h l2 f2 ns2 b2 ∧ Apart f1 ns1 b1 f2 ns2 b2

/-- A list that is well-formed for some sentinels and interior nodes. -/
def Good (h : Heap T) (l : LList) : Prop := ∃ f ns b, Wf h l f ns b

/-- The heap with the list 1, 2, 3 of `exHeap` and a default-constructed second list
with sentinels at 5 and 6. -/
def exHeapTwo : Heap Nat :=
  exHeap ++ [some ⟨none, some 6, none⟩, some ⟨none, none, some 5⟩]

/-- The second list object of `exHeapTwo`. -/
def exListTwo : LList := ⟨some 5, some 6, 0⟩

/-! Heap cells, doubly linked segments, and `insert` and `erase` on a segment. -/

theorem cellAt_lt {h : Heap T} {a : Nat} {n : Node T} (hc : cellAt h a = some n) :
    a < h.length := by
  by_contra hlt
  simp [cellAt, List.getD_eq_getElem?_getD, List.getElem?_eq_none (Nat.le_of_not_lt hlt)] at hc

theorem cellAt_set_ne (h : Heap T) {a b : Nat} (x : Option (Node T)) (hne : a ≠ b) :
    cellAt (h.set a x) b = cellAt h b := by
  simp [cellAt, List.getD_eq_getElem?_getD, List.getElem?_set_ne hne]

theorem cellAt_set_eq (h : Heap T) {a : Nat} (x : Option (Node T)) (ha : a < h.length) :
    cellAt (h.set a x) a = x := by
  simp [cellAt, List.getD_eq_getElem?_getD, List.getElem?_set_self, ha]

theorem cellAt_append_lt (h t : Heap T) {a : Nat} (ha : a < h.length) :
    cellAt (h ++ t) a = cellAt h a := by
  simp [cellAt, List.getD_eq_getElem?_getD, List.getElem?_append_left ha]

theorem cellAt_append_length (h : Heap T) (x : Option (Node T)) :
    cellAt (h ++ [x]) h.length = x := by
  simp [cellAt, List.getD_eq_getElem?_getD]

theorem load_some {h : Heap T} {a : Nat} {n : Node T} (hc : cellAt h a = some n) :
    load h (some a) = .ok n := by
  simp [load, hc]

theorem store_some {h : Heap T} {a : Nat} {m : Node T} (n : Node T) (hc : cellAt h a = some m) :
    store h (some a) n = .ok (h.set a (some n)) := by
  simp [store, hc]

theorem set_next_some {h : Heap T} {a : Nat} {n : Node T} (q : Ptr) (hc : cellAt h a = some n) :
    set_next h (some a) q = .ok (h.set a (some { n with next := q })) := by
  simp [set_next, load_some hc, store_some _ hc, bind, Except.bind]

theorem set_prev_some {h : Heap T} {a : Nat} {n : Node T} (q : Ptr) (hc : cellAt h a = some n) :
    set_prev h (some a) q = .ok (h.set a (some { n with prev := q })) := by
  simp [set_prev, load_some hc, store_some _ hc, bind, Except.bind]

theorem construct_some {h : Heap T} {a : Nat} {n : Node T} (v : T) (hc : cellAt h a = some n) :
    construct h (some a) v = .ok (h.set a (some { n with data := some v })) := by
  simp [construct, load_some hc, store_some _ hc, bind, Except.bind]

theorem delete_Node_some {h : Heap T} {a : Nat} {n : Node T} {v : T}
    (hc : cellAt h a = some n) (hd : n.data = some v) :
    delete_Node h (some a) = .ok (h.set a none) := by
  simp [delete_Node, load_some hc, hd, bind, Except.bind, pure, Except.pure]

@[simp]
theorem hd_nil (q : Ptr) : hd q ([] : List (Cell T)) = q := rfl
@[simp]
theorem hd_cons (q : Ptr) (c : Cell T) (cs : List (Cell T)) : hd q (c :: cs) = some c.1 := rfl
@[simp]
theorem lst_nil (p : Ptr) : lst p ([] : List (Cell T)) = p := rfl
@[simp]
theorem lst_cons (p : Ptr) (c : Cell T) (cs : List (Cell T)) :
    lst p (c :: cs) = lst (some c.1) cs := rfl

theorem hd_append (q : Ptr) (xs ys : List (Cell T)) : hd q (xs ++ ys) = hd (hd q ys) xs := by
  cases xs <;> simp

theorem lst_append (p : Ptr) (xs ys : List (Cell T)) : lst p (xs ++ ys) = lst (lst p xs) ys := by
  induction xs generalizing p with
  | nil => simp
  | cons c cs ih => simp [ih]

@[simp]
theorem Seg_nil (h : Heap T) (p q : Ptr) : Seg h p [] q = True := rfl

theorem Seg_cons (h : Heap T) (p q : Ptr) (c : Cell T) (cs : List (Cell T)) :
    Seg h p (c :: cs) q ↔
      cellAt h c.1 = some { data := c.2, next := hd q cs, prev := p } ∧ Seg h (some c.1) cs q :=
  Iff.rfl

theorem Seg_append (h : Heap T) (p q : Ptr) (xs ys : List (Cell T)) :
    Seg h p (xs ++ ys) q ↔ Seg h p xs (hd q ys) ∧ Seg h (lst p xs) ys q := by
  induction xs generalizing p with
  | nil => simp
  | cons c cs ih => simp [Seg_cons, ih, hd_append, and_assoc]

theorem Seg_lt {h : Heap T} {p q : Ptr} {cs : List (Cell T)} (hs : Seg h p cs q) :
    ∀ a ∈ addrs cs, a < h.length := by
  induction cs generalizing p with
  | nil => simp [addrs]
  | cons c cs ih =>
    intro a ha
    simp only [addrs, List.map_cons, List.mem_cons] at ha
    rcases ha with rfl | ha
    · exact cellAt_lt hs.1
    · exact ih hs.2 a ha

/-- Frame rule: a segment only depends on the cells at its own addresses. -/
theorem Seg_frame {h h' : Heap T} {p q : Ptr} {cs : List (Cell T)}
    (hag : ∀ a ∈ addrs cs, cellAt h' a = cellAt h a) (hs : Seg h p cs q) : Seg h' p cs q := by
  induction cs generalizing p with
  | nil => trivial
  | cons c cs ih =>
    refine ⟨?_, ih (fun a ha => hag a (by simp [addrs] at ha ⊢; exact Or.inr ha)) hs.2⟩
    rw [hag c.1 (by simp [addrs])]
    exact hs.1

@[simp]
theorem addrs_nil : addrs ([] : List (Cell T)) = [] := rfl
@[simp]
theorem addrs_cons (c : Cell T) (cs : List (Cell T)) : addrs (c :: cs) = c.1 :: addrs cs :=
  rfl
@[simp]
theorem addrs_append (xs ys : List (Cell T)) : addrs (xs ++ ys) = addrs xs ++ addrs ys := by
  simp [addrs]

theorem cellAt_ge {h : Heap T} {a : Nat} (ha : h.length ≤ a) : cellAt h a = none := by
  simp [cellAt, List.getD_eq_getElem?_getD, List.getElem?_eq_none ha]

/-- The method `insert` on a chain: the new node is linked between `pa` and `na`. -/
theorem insert_seg {h : Heap T} (l : LList) {p0 q0 : Ptr} {L R : List (Cell T)}
    {pa na : Nat} {pd nd : Option T} (v : T)
    (hs : Seg h p0 (L ++ (pa, pd) :: (na, nd) :: R) q0)
    (hnd : (addrs (L ++ (pa, pd) :: (na, nd) :: R)).Nodup) :
    ∃ h', insert h l (some na) v
        = .ok (h', { l with _size := (l._size + 1) % SIZE_MOD }, some h.length) ∧
      h'.length = h.length + 1 ∧
      Seg h' p0 (L ++ (pa, pd) :: (h.length, some v) :: (na, nd) :: R) q0 ∧
      ∀ a, a ≠ pa → a ≠ na → a ≠ h.length → cellAt h' a = cellAt h a := by
  have hlt := Seg_lt hs
  rw [Seg_append] at hs
  obtain ⟨hL, hpa, hna, hR⟩ := hs
  simp only [hd_cons, lst_cons] at hL hpa hna hR
  have hpa_lt : pa < h.length := cellAt_lt hpa
  have hna_lt : na < h.length := cellAt_lt hna
  have hnd' := hnd
  simp only [addrs_append, addrs_cons, List.nodup_append, List.nodup_cons,
    List.mem_cons, List.mem_append, not_or, List.disjoint_cons_right] at hnd'
  obtain ⟨-, ⟨⟨hne, hpaR⟩, hnaR, -⟩, hpaL, hnaL, -⟩ := hnd'
  have hne : pa ≠ na := hne
  -- run the code
  let c := h.length
  let h1 : Heap T := h ++ [some { data := none, next := some na, prev := some pa }]
  have e1 : cellAt h1 c = some { data := none, next := some na, prev := some pa } :=
    cellAt_append_length _ _
  let h2 : Heap T := h1.set c (some { data := some v, next := some na, prev := some pa })
  have len1 : h1.length = h.length + 1 := by simp [h1]
  have e2 : cellAt h2 pa = some { data := pd, next := some na, prev := lst p0 L } := by
    rw [cellAt_set_ne _ _ (by omega), cellAt_append_lt _ _ hpa_lt, hpa]
  let h3 : Heap T := h2.set pa (some { data := pd, next := some c, prev := lst p0 L })
  have e3 : cellAt h3 na = some { data := nd, next := hd q0 R, prev := some pa } := by
    rw [cellAt_set_ne _ _ hne, cellAt_set_ne _ _ (by omega), cellAt_append_lt _ _ hna_lt, hna]
  let h4 : Heap T := h3.set na (some { data := nd, next := hd q0 R, prev := some c })
  have hag : ∀ a, a ≠ pa → a ≠ na → a ≠ c → cellAt h4 a = cellAt h a := by
    intro a h1' h2' h3'
    rw [cellAt_set_ne _ _ (Ne.symm h2'), cellAt_set_ne _ _ (Ne.symm h1'),
      cellAt_set_ne _ _ (Ne.symm h3')]
    by_cases ha : a < h.length
    · exact cellAt_append_lt _ _ ha
    · have h3'' : a ≠ h.length := h3'
      have hl1 : h1.length ≤ a := by rw [len1]; omega
      rw [cellAt_ge hl1, cellAt_ge (Nat.le_of_not_lt ha)]
  refine ⟨h4, ?_, by simp [h4, h3, h2, h1], ?_, hag⟩
  · simp only [insert, load_some hna, new_Node, bind, Except.bind, pure, Except.pure]
    rw [construct_some v e1]
    simp only []
    rw [set_next_some _ e2]
    simp only []
    rw [set_prev_some _ e3]
  · rw [Seg_append]
    simp only [Seg_cons, hd_cons, lst_cons]
    have hfr : ∀ cs : List (Cell T), (∀ a ∈ addrs cs, a ≠ pa ∧ a ≠ na ∧ a < h.length) →
        ∀ p q, Seg h p cs q → Seg h4 p cs q := by
      intro cs hcs p q hseg
      exact Seg_frame (fun a ha => hag a (hcs a ha).1 (hcs a ha).2.1 (by have := (hcs a ha).2.2; omega)) hseg
    simp only [addrs_append, addrs_cons, List.mem_cons, List.mem_append] at hlt
    refine ⟨hfr L ?_ _ _ hL, ?_, ?_, ?_, hfr R ?_ _ _ hR⟩
    · intro a ha
      exact ⟨fun e => hpaL (e ▸ ha), fun e => hnaL (e ▸ ha), hlt a (Or.inl ha)⟩
    · show cellAt h4 pa = _
      rw [cellAt_set_ne _ _ (Ne.symm hne), cellAt_set_eq _ _ (by simp [h2, h1]; omega)]
    · show cellAt h4 c = _
      rw [cellAt_set_ne _ _ (by omega), cellAt_set_ne _ _ (by omega),
        cellAt_set_eq _ _ (by simp [h1])]
    · show cellAt h4 na = _
      rw [cellAt_set_eq _ _ (by simp [h3, h2, h1]; omega)]
    · intro a ha
      exact ⟨fun e => hpaR (e ▸ ha), fun e => hnaR (e ▸ ha), hlt a (Or.inr (Or.inr (Or.inr ha)))⟩

/-- The method `insert` before the first cell of `B`, in the form used for whole lists. -/
theorem insert_split {h : Heap T} (l : LList) {p0 q0 : Ptr} {A B : List (Cell T)} (v : T)
    (hA : A ≠ []) (hB : B ≠ [])
    (hs : Seg h p0 (A ++ B) q0) (hnd : (addrs (A ++ B)).Nodup) :
    ∃ h', insert h l (hd q0 B) v
        = .ok (h', { l with _size := (l._size + 1) % SIZE_MOD }, some h.length) ∧
      h'.length = h.length + 1 ∧
      Seg h' p0 (A ++ (h.length, some v) :: B) q0 ∧
      ∀ a, some a ≠ lst p0 A → some a ≠ hd q0 B → a ≠ h.length → cellAt h' a = cellAt h a := by
  obtain ⟨L, ⟨pa, pd⟩, rfl⟩ : ∃ L c, A = L ++ [c] := by
    rcases List.eq_nil_or_concat A with e | ⟨L, c, e⟩
    · exact absurd e hA
    · exact ⟨L, c, by simpa using e⟩
  obtain ⟨⟨na, nd⟩, R, rfl⟩ : ∃ c R, B = c :: R := List.exists_cons_of_ne_nil hB
  simp only [List.append_assoc, List.singleton_append] at hs hnd ⊢
  obtain ⟨h', e, len, seg, fr⟩ := insert_seg l v hs hnd
  refine ⟨h', by simpa using e, len, seg, fun a h1 h2 h3 => fr a ?_ ?_ h3⟩
  · intro e; apply h1; simp [lst_append, e]
  · intro e; apply h2; simp [e]

/-- The method `erase` on a chain: the node at `x` is unlinked and freed. -/
theorem erase_seg {h : Heap T} (l : LList) {p0 q0 : Ptr} {L R : List (Cell T)}
    {pa x na : Nat} {pd nd : Option T} {v : T}
    (hs : Seg h p0 (L ++ (pa, pd) :: (x, some v) :: (na, nd) :: R) q0)
    (hnd : (addrs (L ++ (pa, pd) :: (x, some v) :: (na, nd) :: R)).Nodup)
    (hb : l._back ≠ some x) :
    ∃ h', erase h l (some x)
        = .ok (h', { l with _size := (l._size + SIZE_MOD - 1) % SIZE_MOD }, some na) ∧
      h'.length = h.length ∧
      Seg h' p0 (L ++ (pa, pd) :: (na, nd) :: R) q0 ∧
      cellAt h' x = none ∧
      ∀ a, a ≠ pa → a ≠ na → a ≠ x → cellAt h' a = cellAt h a := by
  have hlt := Seg_lt hs
  rw [Seg_append] at hs
  obtain ⟨hL, hpa, hx, hna, hR⟩ := hs
  simp only [hd_cons, lst_cons] at hL hpa hx hna hR
  have hpa_lt : pa < h.length := cellAt_lt hpa
  have hx_lt : x < h.length := cellAt_lt hx
  have hna_lt : na < h.length := cellAt_lt hna
  have hnd' := hnd
  simp only [addrs_append, addrs_cons, List.nodup_append, List.nodup_cons,
    List.mem_cons, List.mem_append, not_or, List.disjoint_cons_right] at hnd'
  obtain ⟨-, ⟨⟨hpx, hpn, hpaR⟩, ⟨hxn, hxR⟩, hnaR, -⟩, hpaL, hxL, hnaL, -⟩ := hnd'
  have hpx : pa ≠ x := hpx
  have hpn : pa ≠ na := hpn
  have hxn : x ≠ na := hxn
  let h1 : Heap T := h.set pa (some { data := pd, next := some na, prev := lst p0 L })
  have e1 : cellAt h1 na = some { data := nd, next := hd q0 R, prev := some x } := by
    rw [cellAt_set_ne _ _ hpn, hna]
  let h2 : Heap T := h1.set na (some { data := nd, next := hd q0 R, prev := some pa })
  have e2 : cellAt h2 x = some { data := some v, next := some na, prev := some pa } := by
    rw [cellAt_set_ne _ _ (Ne.symm hxn), cellAt_set_ne _ _ hpx, hx]
  let h3 : Heap T := h2.set x none
  have hag : ∀ a, a ≠ pa → a ≠ na → a ≠ x → cellAt h3 a = cellAt h a := by
    intro a h1' h2' h3'
    rw [cellAt_set_ne _ _ (Ne.symm h3'), cellAt_set_ne _ _ (Ne.symm h2'),
      cellAt_set_ne _ _ (Ne.symm h1')]
  have hfr : ∀ cs : List (Cell T), (∀ a ∈ addrs cs, a ≠ pa ∧ a ≠ na ∧ a ≠ x) →
      ∀ p q, Seg h p cs q → Seg h3 p cs q := by
    intro cs hcs p q hseg
    exact Seg_frame (fun a ha => hag a (hcs a ha).1 (hcs a ha).2.1 (hcs a ha).2.2) hseg
  refine ⟨h3, ?_, by simp [h3, h2, h1], ?_, ?_, hag⟩
  · have hpos : (some x : Ptr) ≠ «end» l := fun e => hb e.symm
    simp only [erase, if_neg hpos, load_some hx, bind, Except.bind, pure, Except.pure]
    rw [set_next_some _ hpa]
    simp only []
    rw [set_prev_some _ e1]
    simp only []
    rw [delete_Node_some e2 rfl]
  · rw [Seg_append]
    simp only [Seg_cons, hd_cons, lst_cons]
    refine ⟨hfr L ?_ _ _ hL, ?_, ?_, hfr R ?_ _ _ hR⟩
    · intro a ha
      exact ⟨fun e => hpaL (e ▸ ha), fun e => hnaL (e ▸ ha), fun e => hxL (e ▸ ha)⟩
    · show cellAt h3 pa = _
      rw [cellAt_set_ne _ _ (Ne.symm hpx), cellAt_set_ne _ _ (Ne.symm hpn),
        cellAt_set_eq _ _ hpa_lt]
    · show cellAt h3 na = _
      rw [cellAt_set_ne _ _ hxn, cellAt_set_eq _ _ (by simp [h1]; omega)]
    · intro a ha
      exact ⟨fun e => hpaR (e ▸ ha), fun e => hnaR (e ▸ ha), fun e => hxR (e ▸ ha)⟩
  · show cellAt h3 x = _
    rw [cellAt_set_eq _ _ (by simp [h2, h1]; omega)]

/-- The method `erase` of the cell between `A` and `B`, in the form used for whole lists. -/
theorem erase_split {h : Heap T} (l : LList) {p0 q0 : Ptr} {A B : List (Cell T)} {x : Nat} {v : T}
    (hA : A ≠ []) (hB : B ≠ [])
    (hs : Seg h p0 (A ++ (x, some v) :: B) q0) (hnd : (addrs (A ++ (x, some v) :: B)).Nodup)
    (hb : l._back ≠ some x) :
    ∃ h', erase h l (some x)
        = .ok (h', { l with _size := (l._size + SIZE_MOD - 1) % SIZE_MOD }, hd q0 B) ∧
      h'.length = h.length ∧
      Seg h' p0 (A ++ B) q0 ∧
      cellAt h' x = none ∧
      ∀ a, some a ≠ lst p0 A → some a ≠ hd q0 B → a ≠ x → cellAt h' a = cellAt h a := by
  obtain ⟨L, ⟨pa, pd⟩, rfl⟩ : ∃ L c, A = L ++ [c] := by
    rcases List.eq_nil_or_concat A with e | ⟨L, c, e⟩
    · exact absurd e hA
    · exact ⟨L, c, by simpa using e⟩
  obtain ⟨⟨na, nd⟩, R, rfl⟩ : ∃ c R, B = c :: R := List.exists_cons_of_ne_nil hB
  simp only [List.append_assoc, List.singleton_append] at hs hnd ⊢
  obtain ⟨h', e, len, seg, fx, fr⟩ := erase_seg l hs hnd hb
  refine ⟨h', by simpa using e, len, seg, fx, fun a h1 h2 h3 => fr a ?_ ?_ h3⟩
  · intro e; apply h1; simp [lst_append, e]
  · intro e; apply h2; simp [e]

/-! Well-formed lists: traversal, the default constructor, `insert`, `erase`, `front`, `back` and `push_back`. -/

@[simp]
theorem live_nil : live ([] : List (Nat × T)) = [] := rfl
@[simp]
theorem live_cons (n : Nat × T) (ns : List (Nat × T)) :
    live (n :: ns) = (n.1, some n.2) :: live ns := rfl
@[simp]
theorem live_append (xs ys : List (Nat × T)) : live (xs ++ ys) = live xs ++ live ys := by
  simp [live]
@[simp]
theorem live_length (ns : List (Nat × T)) : (live ns).length = ns.length := by
  simp [live]
@[simp]
theorem vals_nil : vals ([] : List (Nat × T)) = [] := rfl
@[simp]
theorem vals_cons (n : Nat × T) (ns : List (Nat × T)) : vals (n :: ns) = n.2 :: vals ns :=
  rfl
@[simp]
theorem vals_append (xs ys : List (Nat × T)) : vals (xs ++ ys) = vals xs ++ vals ys := by
  simp [vals]
@[simp]
theorem vals_length (ns : List (Nat × T)) : (vals ns).length = ns.length := by
  simp [vals]
@[simp]
theorem posOf_nil (b : Nat) : posOf ([] : List (Nat × T)) b = some b := rfl
@[simp]
theorem posOf_cons (n : Nat × T) (ns : List (Nat × T)) (b : Nat) :
    posOf (n :: ns) b = some n.1 := rfl

theorem hd_live_append (ns : List (Nat × T)) (b : Nat) (d : Option T) (q : Ptr) :
    hd q (live ns ++ [(b, d)]) = posOf ns b := by
  cases ns <;> rfl

theorem chain_split (f b : Nat) (xs ys : List (Nat × T)) :
    chain f (xs ++ ys) b = ((f, none) :: live xs) ++ (live ys ++ [(b, none)]) := by
  simp [chain]

theorem chain_split_cons (f b : Nat) (xs ys : List (Nat × T)) (n : Nat × T) :
    chain f (xs ++ n :: ys) b
      = ((f, none) :: live xs) ++ (n.1, some n.2) :: (live ys ++ [(b, none)]) := by
  simp [chain]

theorem nodup_addrs_middle (A B : List (Cell T)) (c : Cell T) :
    (addrs (A ++ c :: B)).Nodup ↔ c.1 ∉ addrs (A ++ B) ∧ (addrs (A ++ B)).Nodup := by
  simp only [addrs_append, addrs_cons]
  rw [List.nodup_middle, List.nodup_cons]

/-- The client loop over a segment of live nodes reads their values in order. -/
theorem collect_seg {h : Heap T} {p : Ptr} {ns : List (Nat × T)} {b : Nat}
    (hs : Seg h p (live ns) (some b)) (hb : b ∉ addrs (live ns)) (fuel : Nat)
    (hf : ns.length < fuel) :
    collect h (some b) (posOf ns b) fuel = .ok (vals ns) := by
  induction ns generalizing p fuel with
  | nil =>
    obtain ⟨fuel, rfl⟩ : ∃ k, fuel = k + 1 := ⟨fuel - 1, by simp at hf; omega⟩
    simp [collect, pure, Except.pure]
  | cons n ns ih =>
    obtain ⟨fuel, rfl⟩ : ∃ k, fuel = k + 1 := ⟨fuel - 1, by omega⟩
    simp only [live_cons, Seg_cons, addrs_cons, List.mem_cons, not_or] at hs hb
    have hne : (some n.1 : Ptr) ≠ some b := by
      intro e; exact hb.1 (by injection e with e; exact e.symm)
    have ih' := ih hs.2 hb.2 fuel (by simp at hf; omega)
    simp only [collect, posOf_cons, if_neg hne, Iterator.deref, Iterator.inc, load_some hs.1,
      bind, Except.bind, pure, Except.pure]
    rw [show hd (some b) (live ns) = posOf ns b from rfl, ih']
    simp

/-- What a well-formed list says about its two sentinels. -/
theorem Wf.cells {h : Heap T} {l : LList} {f b : Nat} {ns : List (Nat × T)}
    (w : Wf h l f ns b) :
    cellAt h f = some { data := none, next := posOf ns b, prev := none } ∧
    Seg h (some f) (live ns) (some b) ∧
    cellAt h b = some { data := none, next := none, prev := lst (some f) (live ns) } ∧
    f ≠ b ∧ f ∉ addrs (live ns) ∧ b ∉ addrs (live ns) ∧ (addrs (live ns)).Nodup := by
  have hs := w.seg
  have hn := w.nodup
  simp only [chain, Seg_cons, Seg_append, hd_live_append, hd_cons, hd_nil, lst_cons, Seg_nil,
    and_true] at hs
  simp only [chain, addrs_cons, addrs_append, addrs_nil, List.nodup_cons, List.nodup_append,
    List.mem_append, List.mem_cons, List.mem_singleton, not_or, List.not_mem_nil, or_false,
    List.disjoint_singleton, List.nodup_nil, true_and, and_true] at hn
  obtain ⟨⟨hf, hfb⟩, hnd, hb⟩ := hn
  exact ⟨hs.1, hs.2.1, hs.2.2, hfb, hf, hb.2, hnd⟩

theorem begin_wf {h : Heap T} {l : LList} {f b : Nat} {ns : List (Nat × T)}
    (w : Wf h l f ns b) : begin h l = .ok (posOf ns b) := by
  simp [begin, w.front_eq, load_some w.cells.1, bind, Except.bind, pure, Except.pure]

theorem end_wf {h : Heap T} {l : LList} {f b : Nat} {ns : List (Nat × T)}
    (w : Wf h l f ns b) : «end» l = some b := w.back_eq

/-- Forward iteration over a well-formed list yields its values in order. -/
theorem traverse_wf {h : Heap T} {l : LList} {f b : Nat} {ns : List (Nat × T)}
    (w : Wf h l f ns b) (fuel : Nat) (hf : ns.length < fuel) :
    traverse fuel h l = .ok (vals ns) := by
  simp only [traverse, begin_wf w, end_wf w, bind, Except.bind]
  exact collect_seg w.cells.2.1 w.cells.2.2.2.2.2.1 fuel hf

/-- The default constructor builds a well-formed empty list from two new nodes. -/
theorem ctor_wf (h : Heap T) :
    ∃ h', List_ctor h = .ok (h', LList.mk (some h.length) (some (h.length + 1)) 0) ∧
      h'.length = h.length + 2 ∧
      Wf h' (LList.mk (some h.length) (some (h.length + 1)) 0) h.length [] (h.length + 1) ∧
      ∀ a, a < h.length → cellAt h' a = cellAt h a := by
  let n0 : Node T := { data := none, next := none, prev := none }
  let h1 : Heap T := h ++ [some n0]
  let h2 : Heap T := h1 ++ [some n0]
  have len1 : h1.length = h.length + 1 := by simp [h1]
  have len2 : h2.length = h.length + 2 := by simp [h2, h1]
  have e1 : cellAt h2 h.length = some n0 := by
    rw [cellAt_append_lt _ _ (by omega)]; exact cellAt_append_length _ _
  let h3 : Heap T := h2.set h.length (some { n0 with next := some (h.length + 1) })
  have e2 : cellAt h3 (h.length + 1) = some n0 := by
    rw [cellAt_set_ne _ _ (by omega), ← len1]; exact cellAt_append_length _ _
  let h4 : Heap T := h3.set (h.length + 1) (some { n0 with prev := some h.length })
  refine ⟨h4, ?_, by simp [h4, h3, h2, h1], ?_, ?_⟩
  · simp only [List_ctor, new_Node, bind, Except.bind, pure, Except.pure]
    rw [set_next_some _ e1]
    simp only [List.length_append, List.length_singleton]
    rw [set_prev_some _ e2]
  · refine ⟨rfl, rfl, rfl, by simp [SIZE_MOD], by simp [chain], ?_⟩
    simp only [chain, live_nil, List.nil_append, Seg_cons, hd_cons, hd_nil, Seg_nil, and_true]
    constructor
    · show cellAt h4 h.length = _
      rw [cellAt_set_ne _ _ (by omega), cellAt_set_eq _ _ (by omega)]
    · show cellAt h4 (h.length + 1) = _
      rw [cellAt_set_eq _ _ (by simp [h3]; omega)]
  · intro a ha
    show cellAt h4 a = _
    rw [cellAt_set_ne _ _ (by omega), cellAt_set_ne _ _ (by omega),
      cellAt_append_lt _ _ (by omega), cellAt_append_lt _ _ ha]

/-- The method `insert` on a well-formed list, before the first node of `ys`. -/
theorem insert_wf {h : Heap T} {l : LList} {f b : Nat} (xs ys : List (Nat × T)) (v : T)
    (w : Wf h l f (xs ++ ys) b) (hsz : (xs ++ ys).length + 1 < SIZE_MOD) :
    ∃ h' l', insert h l (posOf ys b) v = .ok (h', l', some h.length) ∧
      h'.length = h.length + 1 ∧
      Wf h' l' f (xs ++ (h.length, v) :: ys) b ∧
      ∀ a, some a ≠ lst (some f) (live xs) → some a ≠ posOf ys b → a ≠ h.length →
        cellAt h' a = cellAt h a := by
  have hs := w.seg
  have hn := w.nodup
  rw [chain_split] at hs hn
  obtain ⟨h', e, len, seg, fr⟩ := insert_split l v (List.cons_ne_nil _ _)
    (by simp : live ys ++ [((b, none) : Cell T)] ≠ []) hs hn
  rw [hd_live_append] at e fr
  refine ⟨h', _, e, len, ⟨w.front_eq, w.back_eq, ?_, ?_, ?_, ?_⟩, fr⟩
  · have := w.size_eq
    simp only [List.length_append, List.length_cons] at this hsz ⊢
    rw [this, Nat.mod_eq_of_lt (by omega)]; omega
  · simpa using hsz
  · have hlt := Seg_lt hs
    rw [chain_split_cons, nodup_addrs_middle]
    exact ⟨fun hm => Nat.lt_irrefl _ (hlt _ hm), hn⟩
  · rw [chain_split_cons]; exact seg

/-- The method `erase` on a well-formed list, at the interior node `x`. -/
theorem erase_wf {h : Heap T} {l : LList} {f b : Nat} (xs ys : List (Nat × T)) (x : Nat) (v : T)
    (w : Wf h l f (xs ++ (x, v) :: ys) b) :
    ∃ h' l', erase h l (some x) = .ok (h', l', posOf ys b) ∧
      h'.length = h.length ∧
      Wf h' l' f (xs ++ ys) b ∧
      cellAt h' x = none ∧
      ∀ a, some a ≠ lst (some f) (live xs) → some a ≠ posOf ys b → a ≠ x →
        cellAt h' a = cellAt h a := by
  have hs := w.seg
  have hn := w.nodup
  rw [chain_split_cons] at hs hn
  have hb : l._back ≠ some x := by
    rw [w.back_eq]
    intro e
    injection e with e
    subst e
    simp [List.nodup_append, List.nodup_cons] at hn
  obtain ⟨h', e, len, seg, fx, fr⟩ := erase_split l (List.cons_ne_nil _ _)
    (by simp : live ys ++ [((b, none) : Cell T)] ≠ []) hs hn hb
  rw [hd_live_append] at e fr
  refine ⟨h', _, e, len, ⟨w.front_eq, w.back_eq, ?_, ?_, ?_, ?_⟩, fx, fr⟩
  · have := w.size_eq
    have := w.size_lt
    simp only [List.length_append, List.length_cons, SIZE_MOD] at * 
    omega
  · have := w.size_lt
    simp only [List.length_append, List.length_cons] at *
    omega
  · rw [chain_split]; exact ((nodup_addrs_middle _ _ _).1 hn).2
  · rw [chain_split]; exact seg

theorem lst_live_concat (p : Ptr) (ns : List (Nat × T)) (n : Nat × T) :
    lst p (live (ns ++ [n])) = some n.1 := by
  simp [lst_append]

/-- The method `front()` on a well-formed list with a first node. -/
theorem front_wf {h : Heap T} {l : LList} {f b : Nat} {n : Nat × T} {ns : List (Nat × T)}
    (w : Wf h l f (n :: ns) b) : front h l = .ok n.2 := by
  have hne : empty l = false := by simp [empty, size, w.size_eq]
  obtain ⟨hf, hs, -⟩ := w.cells
  simp only [live_cons, Seg_cons] at hs
  simp [front, hne, w.front_eq, load_some hf, Iterator.deref, load_some hs.1, bind, Except.bind,
    pure, Except.pure]

/-- The method `back()` on a well-formed list with a last node. -/
theorem back_wf {h : Heap T} {l : LList} {f b : Nat} {n : Nat × T} {ns : List (Nat × T)}
    (w : Wf h l f (ns ++ [n]) b) : back h l = .ok n.2 := by
  have hne : empty l = false := by simp [empty, size, w.size_eq]
  obtain ⟨-, hs, hb, -⟩ := w.cells
  rw [lst_live_concat] at hb
  simp only [live_append, live_cons, live_nil, Seg_append, Seg_cons] at hs
  simp [back, hne, w.back_eq, load_some hb, Iterator.deref, load_some hs.2.1, bind, Except.bind,
    pure, Except.pure]

/-- The method `push_back` on a well-formed list appends one node. -/
theorem push_back_wf {h : Heap T} {l : LList} {f b : Nat} {ns : List (Nat × T)} (v : T)
    (w : Wf h l f ns b) (hsz : ns.length + 1 < SIZE_MOD) :
    ∃ h' l', push_back h l v = .ok (h', l') ∧ h'.length = h.length + 1 ∧
      Wf h' l' f (ns ++ [(h.length, v)]) b := by
  have w' : Wf h l f (ns ++ []) b := by simpa using w
  obtain ⟨h', l', e, len, wf, -⟩ := insert_wf ns [] v w' (by simpa using hsz)
  refine ⟨h', l', ?_, len, wf⟩
  simp only [push_back, end_wf w, bind, Except.bind]
  rw [show (some b : Ptr) = posOf ([] : List (Nat × T)) b from rfl, e]
  rfl

/-- Repeated `push_back` on a well-formed list appends the values in order. -/
theorem push_back_all_wf {h : Heap T} {l : LList} {f b : Nat} {ns : List (Nat × T)}
    (vs : List T) (w : Wf h l f ns b) (hsz : ns.length + vs.length < SIZE_MOD) :
    ∃ h' l' ms, push_back_all h l vs = .ok (h', l') ∧ Wf h' l' f (ns ++ ms) b ∧ vals ms = vs := by
  induction vs generalizing h l ns with
  | nil => exact ⟨h, l, [], rfl, by simpa using w, rfl⟩
  | cons v vs ih =>
    simp only [List.length_cons] at hsz
    obtain ⟨h1, l1, e1, -, w1⟩ := push_back_wf v w (by omega)
    obtain ⟨h2, l2, ms, e2, w2, hv⟩ := ih w1 (by simp; omega)
    refine ⟨h2, l2, (h.length, v) :: ms, ?_, by simpa using w2, by simp [hv]⟩
    simp only [push_back_all, e1, bind, Except.bind]
    exact e2

/-! The methods `reverse`, the range `erase` and `clear`. -/

@[simp]
theorem RSeg_nil (h : Heap T) (p q : Ptr) : RSeg h p [] q = True := rfl

theorem RSeg_cons (h : Heap T) (p q : Ptr) (c : Cell T) (cs : List (Cell T)) :
    RSeg h p (c :: cs) q ↔
      cellAt h c.1 = some { data := c.2, next := p, prev := hd q cs } ∧ RSeg h (some c.1) cs q :=
  Iff.rfl

theorem lst_reverse (q : Ptr) (cs : List (Cell T)) : lst q cs.reverse = hd q cs := by
  cases cs with
  | nil => rfl
  | cons c cs => simp [lst_append]

/-- A segment with exchanged links is the reversed segment read the other way. -/
theorem RSeg_iff (h : Heap T) (p q : Ptr) (cs : List (Cell T)) :
    RSeg h p cs q ↔ Seg h q cs.reverse p := by
  induction cs generalizing p with
  | nil => simp
  | cons c cs ih =>
    rw [RSeg_cons, ih, List.reverse_cons, Seg_append, Seg_cons, lst_reverse]
    simp [and_comm]

/-- The loop of `reverse` exchanges the links of every node of a null-terminated
segment and stops. -/
theorem reverse_loop_seg {h : Heap T} {p : Ptr} {cs : List (Cell T)}
    (hs : Seg h p cs none) (hnd : (addrs cs).Nodup) (fuel : Nat) (hf : cs.length < fuel) :
    ∃ h', reverse_loop h (hd none cs) fuel = .ok h' ∧ h'.length = h.length ∧
      RSeg h' p cs none ∧ ∀ a, a ∉ addrs cs → cellAt h' a = cellAt h a := by
  induction cs generalizing h p fuel with
  | nil =>
    obtain ⟨fuel, rfl⟩ : ∃ k, fuel = k + 1 := ⟨fuel - 1, by simp at hf; omega⟩
    exact ⟨h, rfl, rfl, trivial, fun _ _ => rfl⟩
  | cons c cs ih =>
    obtain ⟨fuel, rfl⟩ : ∃ k, fuel = k + 1 := ⟨fuel - 1, by omega⟩
    obtain ⟨hc, hs'⟩ := hs
    simp only [addrs_cons, List.nodup_cons] at hnd
    have hlt : c.1 < h.length := cellAt_lt hc
    let h1 : Heap T := h.set c.1 (some { data := c.2, next := hd none cs, prev := hd none cs })
    have e1 : cellAt h1 c.1 = some { data := c.2, next := hd none cs, prev := hd none cs } :=
      cellAt_set_eq _ _ hlt
    let h2 : Heap T := h1.set c.1 (some { data := c.2, next := p, prev := hd none cs })
    have e2 : cellAt h2 c.1 = some { data := c.2, next := p, prev := hd none cs } :=
      cellAt_set_eq _ _ (by simp [h1]; exact hlt)
    have hfr : ∀ a, a ≠ c.1 → cellAt h2 a = cellAt h a := by
      intro a ha
      rw [cellAt_set_ne _ _ (Ne.symm ha), cellAt_set_ne _ _ (Ne.symm ha)]
    have hs2 : Seg h2 (some c.1) cs none :=
      Seg_frame (fun a ha => hfr a (fun e => hnd.1 (e ▸ ha))) hs'
    obtain ⟨h', e, len, rs, fr⟩ := ih hs2 hnd.2 fuel (by simp at hf; omega)
    refine ⟨h', ?_, by rw [len]; simp [h2, h1], ⟨?_, rs⟩, ?_⟩
    · simp only [hd_cons, reverse_loop, load_some hc, bind, Except.bind, pure, Except.pure]
      rw [set_prev_some _ hc]
      simp only []
      rw [set_next_some _ e1]
      simp only [load_some e2]
      exact e
    · rw [fr _ hnd.1, e2]
    · intro a ha
      simp only [addrs_cons, List.mem_cons, not_or] at ha
      rw [fr a ha.2, hfr a ha.1]

theorem chain_reverse (f b : Nat) (ns : List (Nat × T)) :
    (chain f ns b).reverse = chain b ns.reverse f := by
  simp [chain, live, List.map_reverse]

/-- The method `reverse` on a well-formed list. -/
theorem reverse_wf {h : Heap T} {l : LList} {f b : Nat} {ns : List (Nat × T)}
    (w : Wf h l f ns b) (fuel : Nat) (hf : ns.length + 2 < fuel) :
    ∃ h' l', reverse fuel h l = .ok (h', l') ∧ h'.length = h.length ∧
      Wf h' l' b ns.reverse f ∧ l' = LList.mk l._back l._front l._size ∧
      ∀ a, a ∉ addrs (chain f ns b) → cellAt h' a = cellAt h a := by
  obtain ⟨h', e, len, rs, fr⟩ := reverse_loop_seg w.seg w.nodup fuel (by simp [chain]; omega)
  refine ⟨h', LList.mk l._back l._front l._size, ?_, len,
    ⟨w.back_eq, w.front_eq, ?_, ?_, ?_, ?_⟩, rfl, fr⟩
  · simp only [reverse, w.front_eq, bind, Except.bind]
    rw [show (some f : Ptr) = hd none (chain f ns b) from rfl, e]
    rfl
  · simpa using w.size_eq
  · simpa using w.size_lt
  · rw [← chain_reverse]
    simpa [addrs, List.map_reverse] using w.nodup
  · rw [← chain_reverse, ← RSeg_iff]; exact rs

theorem posOf_mem (zs : List (Nat × T)) (b : Nat) :
    ∃ a, posOf zs b = some a ∧ a ∈ addrs (live zs ++ [((b, none) : Cell T)]) := by
  cases zs with
  | nil => exact ⟨b, rfl, by simp⟩
  | cons z zs => exact ⟨z.1, rfl, by simp⟩

/-- The loop of the range `erase` removes the nodes `ys` one by one and stops at `last`. -/
theorem erase_loop_wf {h : Heap T} {l : LList} {f b : Nat} (xs ys zs : List (Nat × T))
    (w : Wf h l f (xs ++ ys ++ zs) b) (fuel : Nat) (hf : ys.length < fuel) :
    ∃ h' l', erase_loop h l (posOf (ys ++ zs) b) (posOf zs b) fuel = .ok (h', l') ∧
      h'.length = h.length ∧ Wf h' l' f (xs ++ zs) b ∧
      (∀ a ∈ addrs (live ys), cellAt h' a = none) ∧
      ∀ a, a ∉ addrs (chain f (xs ++ ys ++ zs) b) → cellAt h' a = cellAt h a := by
  induction ys generalizing h l fuel with
  | nil =>
    obtain ⟨fuel, rfl⟩ : ∃ k, fuel = k + 1 := ⟨fuel - 1, by simp at hf; omega⟩
    refine ⟨h, l, ?_, rfl, by simpa using w, by simp, fun _ _ => rfl⟩
    simp [erase_loop, pure, Except.pure]
  | cons y ys ih =>
    obtain ⟨fuel, rfl⟩ : ∃ k, fuel = k + 1 := ⟨fuel - 1, by omega⟩
    obtain ⟨x, v⟩ := y
    have w0 : Wf h l f (xs ++ (x, v) :: (ys ++ zs)) b := by simpa using w
    have hn := w0.nodup
    rw [chain_split_cons, nodup_addrs_middle] at hn
    obtain ⟨a, ha, hmem⟩ := posOf_mem zs b
    have hne : (some x : Ptr) ≠ posOf zs b := by
      rw [ha]
      intro e
      injection e with e
      subst e
      apply hn.1
      simp only [live_append, addrs_append, addrs_cons, addrs_nil, List.mem_append,
        List.mem_cons, List.mem_singleton, List.not_mem_nil, or_false] at hmem ⊢
      tauto
    obtain ⟨h1, l1, e1, len1, w1, fx, fr1⟩ := erase_wf xs (ys ++ zs) x v w0
    have w1' : Wf h1 l1 f (xs ++ ys ++ zs) b := by simpa using w1
    obtain ⟨h2, l2, e2, len2, w2, fy, fr2⟩ := ih w1' fuel (by simp at hf; omega)
    have hxs : x ∉ addrs (chain f (xs ++ ys ++ zs) b) := by
      have := hn.1
      simpa [chain, List.append_assoc] using this
    refine ⟨h2, l2, ?_, by rw [len2, len1], w2, ?_, ?_⟩
    · simp only [List.cons_append, posOf_cons, erase_loop, if_neg hne, e1, bind, Except.bind]
      exact e2
    · intro a ha
      simp only [live_cons, addrs_cons, List.mem_cons] at ha
      rcases ha with rfl | ha
      · rw [fr2 _ hxs, fx]
      · exact fy a ha
    · intro a ha
      have ha' : a ∉ addrs (chain f (xs ++ ys ++ zs) b) := by
        intro hm; apply ha
        simp only [chain, live_append, live_cons, addrs_append, addrs_cons, addrs_nil,
          List.mem_append, List.mem_cons, List.append_assoc, List.cons_append] at hm ⊢
        tauto
      rw [fr2 a ha']
      apply fr1
      · intro e; apply ha
        have : a ∈ addrs ((f, none) :: live xs) := by
          rcases List.eq_nil_or_concat xs with e' | ⟨ms, n, e'⟩
          · subst e'; simp at e ⊢; exact e
          · have e'' : xs = ms ++ [n] := by simpa using e'
            subst e''
            rw [lst_live_concat] at e
            injection e with e
            simp [e]
        simp only [chain, live_append, live_cons, addrs_append, addrs_cons, addrs_nil,
          List.mem_append, List.mem_cons, List.append_assoc, List.cons_append] at this ⊢
        tauto
      · intro e; apply ha
        obtain ⟨a', ha', hm'⟩ := posOf_mem (ys ++ zs) b
        rw [ha'] at e
        injection e with e
        subst e
        simp only [chain, live_append, live_cons, addrs_append, addrs_cons, addrs_nil,
          List.mem_append, List.mem_cons, List.append_assoc, List.cons_append] at hm' ⊢
        tauto
      · intro e; apply ha
        subst e
        simp [chain]

/-- The range `erase` on a well-formed list. -/
theorem erase_range_wf {h : Heap T} {l : LList} {f b : Nat} (xs ys zs : List (Nat × T))
    (w : Wf h l f (xs ++ ys ++ zs) b) (fuel : Nat) (hf : ys.length < fuel) :
    ∃ h' l', erase_range fuel h l (posOf (ys ++ zs) b) (posOf zs b) = .ok (h', l', posOf zs b) ∧
      h'.length = h.length ∧ Wf h' l' f (xs ++ zs) b ∧
      (∀ a ∈ addrs (live ys), cellAt h' a = none) ∧
      ∀ a, a ∉ addrs (chain f (xs ++ ys ++ zs) b) → cellAt h' a = cellAt h a := by
  obtain ⟨h', l', e, len, w', fy, fr⟩ := erase_loop_wf xs ys zs w fuel hf
  exact ⟨h', l', by simp [erase_range, e, bind, Except.bind, pure, Except.pure], len, w', fy, fr⟩

/-- The method `clear` on a well-formed list. -/
theorem clear_wf {h : Heap T} {l : LList} {f b : Nat} {ns : List (Nat × T)}
    (w : Wf h l f ns b) (fuel : Nat) (hf : ns.length < fuel) :
    ∃ h' l', clear fuel h l = .ok (h', l') ∧ h'.length = h.length ∧ Wf h' l' f [] b := by
  have w0 : Wf h l f ([] ++ ns ++ []) b := by simpa using w
  obtain ⟨h', l', e, len, w', -, -⟩ := erase_range_wf [] ns [] w0 fuel hf
  refine ⟨h', l', ?_, len, by simpa using w'⟩
  simp only [List.append_nil, posOf_nil] at e
  simp [clear, begin_wf w, end_wf w, e, bind, Except.bind, pure, Except.pure]

/-! The method `unique`. -/

theorem hd_live_append_cons (ns : List (Nat × T)) (b : Nat) (d : Option T) (B : List (Cell T))
    (q : Ptr) : hd q (live ns ++ (b, d) :: B) = posOf ns b := by
  cases ns <;> rfl

/-- The cell in the middle of a segment. -/
theorem Seg_mid {h : Heap T} {p0 q0 : Ptr} {A C : List (Cell T)} {c : Cell T}
    (hs : Seg h p0 (A ++ c :: C) q0) :
    cellAt h c.1 = some { data := c.2, next := hd q0 C, prev := lst p0 A } := by
  rw [Seg_append] at hs
  exact hs.2.1

/-- Assignment through an iterator changes the value of one node and nothing else. -/
theorem assign_seg {h : Heap T} {p0 q0 : Ptr} {A C : List (Cell T)} {a : Nat} {v : T} (v' : T)
    (hs : Seg h p0 (A ++ (a, some v) :: C) q0)
    (hnd : (addrs (A ++ (a, some v) :: C)).Nodup) :
    ∃ h', Iterator.assign h (some a) v' = .ok h' ∧ h'.length = h.length ∧
      Seg h' p0 (A ++ (a, some v') :: C) q0 ∧
      (∀ x, x ≠ a → cellAt h' x = cellAt h x) ∧
      ∀ it, Iterator.inc h' it = Iterator.inc h it := by
  have hc := Seg_mid hs
  simp only at hc
  have hlt := cellAt_lt hc
  rw [nodup_addrs_middle] at hnd
  simp only [addrs_append, List.mem_append, not_or] at hnd
  let h' : Heap T := h.set a (some { data := some v', next := hd q0 C, prev := lst p0 A })
  have hfr : ∀ x, x ≠ a → cellAt h' x = cellAt h x := fun x hx => cellAt_set_ne _ _ (Ne.symm hx)
  refine ⟨h', ?_, by simp [h'], ?_, hfr, ?_⟩
  · simp [Iterator.assign, load_some hc, store_some _ hc, bind, Except.bind, h']
  · rw [Seg_append] at hs ⊢
    refine ⟨Seg_frame (fun x hx => hfr x (fun e => hnd.1.1 (e ▸ hx))) hs.1, ?_,
      Seg_frame (fun x hx => hfr x (fun e => hnd.1.2 (e ▸ hx))) hs.2.2⟩
    show cellAt h' a = _
    exact cellAt_set_eq _ _ hlt
  · intro it
    cases it with
    | none => rfl
    | some x =>
      by_cases hx : x = a
      · subst hx
        simp [Iterator.inc, load, hc, cellAt_set_eq _ _ hlt, h', bind, Except.bind]
      · simp [Iterator.inc, load, hfr x hx]

theorem deref_some {h : Heap T} {a : Nat} {n : Node T} {v : T} (hc : cellAt h a = some n)
    (hv : n.data = some v) : Iterator.deref h (some a) = .ok v := by
  simp [Iterator.deref, load_some hc, hv, bind, Except.bind, pure, Except.pure]

theorem inc_some {h : Heap T} {a : Nat} {n : Node T} (hc : cellAt h a = some n) :
    Iterator.inc h (some a) = .ok n.next := by
  simp [Iterator.inc, load_some hc, bind, Except.bind, pure, Except.pure]

/-- The loop of `unique` on a chain: `j` is at the node `aj`, the nodes `M` lie between
`j` and `i`, the nodes `Td` from `i` on are still to be scanned. -/
theorem unique_loop_seg (ne : T → T → Bool) {h : Heap T} {p0 q0 : Ptr} (P : List (Cell T))
    (aj : Nat) (vj : T) (M Td : List (Nat × T)) (b : Nat) (bd : Option T) (B : List (Cell T))
    (hs : Seg h p0 (P ++ (aj, some vj) :: (live M ++ (live Td ++ (b, bd) :: B))) q0)
    (hnd : (addrs (P ++ (aj, some vj) :: (live M ++ (live Td ++ (b, bd) :: B)))).Nodup)
    (fuel : Nat) (hf : Td.length < fuel) :
    ∃ h' K E, unique_loop ne (some b) h (some aj) (posOf Td b) fuel
        = .ok (h', lst (some aj) (live K)) ∧
      h'.length = h.length ∧
      Seg h' p0 (P ++ (aj, some vj) :: (live K ++ (live E ++ (b, bd) :: B))) q0 ∧
      addrs (live (K ++ E)) = addrs (live (M ++ Td)) ∧
      vals K = keep_from ne vj (vals Td) ∧
      ∀ a, a ∉ addrs (live (M ++ Td)) → cellAt h' a = cellAt h a := by
  induction Td generalizing h P aj vj M fuel with
  | nil =>
    obtain ⟨fuel, rfl⟩ : ∃ k, fuel = k + 1 := ⟨fuel - 1, by simp at hf; omega⟩
    refine ⟨h, [], M, ?_, rfl, by simpa using hs, by simp, rfl, fun _ _ => rfl⟩
    simp [unique_loop, pure, Except.pure]
  | cons t Td ih =>
    obtain ⟨fuel, rfl⟩ : ∃ k, fuel = k + 1 := ⟨fuel - 1, by omega⟩
    obtain ⟨ai, vi⟩ := t
    have hf' : Td.length < fuel := by simp at hf; omega
    -- the cells at `j` and at `i`
    have hcj := Seg_mid hs
    have hs_i : Seg h p0 ((P ++ (aj, some vj) :: live M) ++ (ai, some vi) ::
        (live Td ++ (b, bd) :: B)) q0 := by simpa using hs
    have hci := Seg_mid hs_i
    rw [hd_live_append_cons] at hci
    have hnd_i : (addrs ((P ++ (aj, some vj) :: live M) ++ (ai, some vi) ::
        (live Td ++ (b, bd) :: B))).Nodup := by simpa using hnd
    have hib : (some ai : Ptr) ≠ some b := by
      intro e
      injection e with e
      subst e
      rw [nodup_addrs_middle] at hnd_i
      exact hnd_i.1 (by simp)
    have hdj : Iterator.deref h (some aj) = .ok vj := deref_some hcj rfl
    have hdi : Iterator.deref h (some ai) = .ok vi := deref_some hci rfl
    have hii : Iterator.inc h (some ai) = .ok (posOf Td b) := inc_some hci
    by_cases hne : ne vj vi = true
    · -- `++j; *j = *i;`
      obtain ⟨n', N0, hN⟩ := List.exists_cons_of_ne_nil
        (by simp : M ++ [(ai, vi)] ≠ [])
      have hchain : P ++ (aj, some vj) :: (live M ++ (live ((ai, vi) :: Td) ++ (b, bd) :: B))
          = (P ++ [(aj, some vj)]) ++ (n'.1, some n'.2) ::
            (live N0 ++ (live Td ++ (b, bd) :: B)) := by
        have : live M ++ (live ((ai, vi) :: Td) ++ (b, bd) :: B)
            = live (M ++ [(ai, vi)]) ++ (live Td ++ (b, bd) :: B) := by simp
        rw [this, hN]; simp
      have hjn : Iterator.inc h (some aj) = .ok (some n'.1) := by
        rw [inc_some hcj]
        have : live M ++ (live ((ai, vi) :: Td) ++ (b, bd) :: B)
            = live (M ++ [(ai, vi)]) ++ (live Td ++ (b, bd) :: B) := by simp
        rw [this, hN]; rfl
      rw [hchain] at hs hnd
      obtain ⟨h1, e1, len1, hs1, fr1, inc1⟩ := assign_seg vi hs hnd
      have hnd1 : (addrs ((P ++ [(aj, some vj)]) ++ (n'.1, some vi) ::
          (live N0 ++ (live Td ++ (b, bd) :: B)))).Nodup := by
        rw [nodup_addrs_middle] at hnd ⊢; exact hnd
      obtain ⟨h2, K, E, e2, len2, hs2, had, hv, fr2⟩ :=
        ih (P ++ [(aj, some vj)]) n'.1 vi N0 hs1 hnd1 fuel hf'
      have hadd : addrs (live (M ++ (ai, vi) :: Td)) = n'.1 :: addrs (live (N0 ++ Td)) := by
        have : M ++ (ai, vi) :: Td = (M ++ [(ai, vi)]) ++ Td := by simp
        rw [this, hN]; simp
      refine ⟨h2, (n'.1, vi) :: K, E, ?_, by rw [len2, len1], ?_, ?_, ?_, ?_⟩
      · simp only [unique_loop, posOf_cons, if_neg hib, hdj, hdi, hne, hjn, e1, inc1, hii, bind,
          Except.bind, if_true]
        exact e2
      · simpa using hs2
      · rw [hadd]; simp only [List.cons_append, live_cons, addrs_cons]; rw [had]
      · rw [vals_cons, vals_cons, keep_from, if_pos hne, hv]
      · intro a ha
        rw [hadd] at ha
        simp only [List.mem_cons, not_or] at ha
        rw [fr2 a ha.2, fr1 a ha.1]
    · -- the values are equal: only `++i`
      have hs' : Seg h p0 (P ++ (aj, some vj) ::
          (live (M ++ [(ai, vi)]) ++ (live Td ++ (b, bd) :: B))) q0 := by simpa using hs
      have hnd' : (addrs (P ++ (aj, some vj) ::
          (live (M ++ [(ai, vi)]) ++ (live Td ++ (b, bd) :: B)))).Nodup := by simpa using hnd
      obtain ⟨h2, K, E, e2, len2, hs2, had, hv, fr2⟩ :=
        ih P aj vj (M ++ [(ai, vi)]) hs' hnd' fuel hf'
      have hadd : addrs (live (M ++ (ai, vi) :: Td)) = addrs (live (M ++ [(ai, vi)] ++ Td)) := by
        simp
      refine ⟨h2, K, E, ?_, len2, hs2, by rw [had, hadd], ?_, ?_⟩
      · simp only [unique_loop, posOf_cons, if_neg hib, hdj, hdi, hne, hii, bind,
          Except.bind]
        exact e2
      · rw [vals_cons, keep_from, if_neg hne, hv]
      · intro a ha
        rw [hadd] at ha
        exact fr2 a ha

theorem mem_chain_iff (f b : Nat) (ns : List (Nat × T)) (a : Nat) :
    a ∈ addrs (chain f ns b) ↔ a = f ∨ a ∈ addrs (live ns) ∨ a = b := by
  simp [chain]

/-- The method `unique` on a well-formed list: the nodes `ks` stay, the nodes `es` are erased,
and the cells outside the chain of the list are left alone. -/
theorem unique_wf_frame (ne : T → T → Bool) {h : Heap T} {l : LList} {f b : Nat}
    {ns : List (Nat × T)} (w : Wf h l f ns b) (fuel : Nat) (hf : ns.length < fuel) :
    ∃ h' l' ks es, unique ne fuel h l = .ok (h', l') ∧ h'.length = h.length ∧
      Wf h' l' f ks b ∧ vals ks = unique_vals ne (vals ns) ∧
      addrs (live (ks ++ es)) = addrs (live ns) ∧
      (∀ a ∈ addrs (live es), cellAt h' a = none) ∧
      (ns.length < 2 → h' = h ∧ l' = l) ∧
      ∀ a, a ∉ addrs (chain f ns b) → cellAt h' a = cellAt h a := by
  have hsz := w.size_eq
  match ns, w, hf, hsz with
  | [], w, _, hsz =>
    refine ⟨h, l, [], [], ?_, rfl, w, rfl, rfl, by simp, fun _ => ⟨rfl, rfl⟩, fun _ _ => rfl⟩
    simp [unique, size, hsz, pure, Except.pure]
  | [n], w, _, hsz =>
    refine ⟨h, l, [n], [], ?_, rfl, w, rfl, rfl, by simp, fun _ => ⟨rfl, rfl⟩, fun _ _ => rfl⟩
    simp [unique, size, hsz, pure, Except.pure]
  | n0 :: n1 :: rest, w, hf, hsz =>
    have hge : size l ≥ 2 := by simp [size, hsz]
    have hs := w.seg
    have hn := w.nodup
    have hchain : chain f (n0 :: n1 :: rest) b
        = [(f, none)] ++ (n0.1, some n0.2) ::
          (live [] ++ (live (n1 :: rest) ++ (b, none) :: [])) := by simp [chain]
    rw [hchain] at hs hn
    obtain ⟨h1, K, E, e1, len1, hs1, had, hv, fr1⟩ :=
      unique_loop_seg ne [(f, none)] n0.1 n0.2 [] (n1 :: rest) b none [] hs hn fuel
        (by simp at hf ⊢; omega)
    simp only [List.nil_append] at had
    have hlen : (K ++ E).length = (n1 :: rest).length := by
      have := congrArg List.length had
      simpa [addrs, live] using this
    -- the list after the loop
    have w1 : Wf h1 l f ((n0 :: K) ++ E ++ []) b := by
      refine ⟨w.front_eq, w.back_eq, ?_, ?_, ?_, ?_⟩
      · rw [hsz]; simp only [List.length_cons, List.length_append, List.length_nil] at hlen ⊢
        omega
      · have := w.size_lt
        simp only [List.length_cons, List.length_append, List.length_nil] at hlen this ⊢
        omega
      · have : addrs (chain f ((n0 :: K) ++ E ++ []) b)
            = addrs ([(f, none)] ++ (n0.1, some n0.2) ::
                (live [] ++ (live (n1 :: rest) ++ (b, none) :: []))) := by
          simp only [chain, List.append_nil, List.cons_append, live_cons, addrs_cons,
            addrs_append, List.nil_append, live_nil, List.singleton_append, addrs_nil]
          rw [had]
          simp
        rw [this]; exact hn
      · simpa [chain] using hs1
    -- `++j` leads to the first stale node
    obtain ⟨K0, k, hK⟩ : ∃ K0 k, n0 :: K = K0 ++ [k] := by
      rcases List.eq_nil_or_concat (n0 :: K) with e | ⟨K0, k, e⟩
      · exact absurd e (List.cons_ne_nil _ _)
      · exact ⟨K0, k, by simpa using e⟩
    have hj : lst (some n0.1) (live K) = some k.1 := by
      have : lst (some f) (live (n0 :: K)) = some k.1 := by rw [hK]; exact lst_live_concat _ _ _
      simpa using this
    have hs1' : Seg h1 none (((f, none) :: live K0) ++ (k.1, some k.2) ::
        (live E ++ [(b, none)])) none := by
      have := w1.seg
      rw [hK] at this
      simpa [chain] using this
    have hck := Seg_mid hs1'
    rw [hd_live_append] at hck
    have hinc : Iterator.inc h1 (some k.1) = .ok (posOf E b) := inc_some hck
    obtain ⟨h2, l2, e2, len2, w2, fy, fr2⟩ := erase_range_wf (n0 :: K) E [] w1 fuel
      (by simp only [List.length_cons, List.length_append] at hlen hf ⊢; omega)
    simp only [List.append_nil, posOf_nil] at e2 w2
    have hb0 : begin h l = .ok (some n0.1) := begin_wf w
    have hi0 : Iterator.inc h (some n0.1) = .ok (some n1.1) := by
      have := Seg_mid hs
      exact inc_some this
    refine ⟨h2, l2, n0 :: K, E, ?_, by rw [len2, len1], w2, ?_, ?_, fy, ?_, ?_⟩
    · simp only [unique, if_pos hge, hb0, hi0, end_wf w, bind, Except.bind]
      rw [show (some n1.1 : Ptr) = posOf (n1 :: rest) b from rfl, e1]
      simp only [hj, hinc, e2]
      rfl
    · rw [vals_cons, hv]; rfl
    · simp only [List.cons_append, live_cons, addrs_cons]
      rw [had]
      rfl
    · intro hlt
      simp only [List.length_cons] at hlt
      omega
    · intro a ha
      have hch : addrs (chain f ((n0 :: K) ++ E ++ []) b) = addrs (chain f (n0 :: n1 :: rest) b) := by
        simp only [chain, List.append_nil, List.cons_append, live_cons, addrs_cons,
          addrs_append, addrs_nil]
        rw [had]
        simp
      rw [fr2 a (by rw [hch]; exact ha)]
      apply fr1
      intro hm
      apply ha
      simp only [List.nil_append] at hm
      rw [mem_chain_iff]
      exact Or.inr (Or.inl (by simp only [live_cons, addrs_cons, List.mem_cons] at hm ⊢; exact Or.inr hm))

/-- The method `unique` on a well-formed list: the nodes `ks` stay, the nodes `es` are erased. -/
theorem unique_wf (ne : T → T → Bool) {h : Heap T} {l : LList} {f b : Nat}
    {ns : List (Nat × T)} (w : Wf h l f ns b) (fuel : Nat) (hf : ns.length < fuel) :
    ∃ h' l' ks es, unique ne fuel h l = .ok (h', l') ∧ h'.length = h.length ∧
      Wf h' l' f ks b ∧ vals ks = unique_vals ne (vals ns) ∧
      addrs (live (ks ++ es)) = addrs (live ns) ∧
      (∀ a ∈ addrs (live es), cellAt h' a = none) ∧
      (ns.length < 2 → h' = h ∧ l' = l) := by
  obtain ⟨h', l', ks, es, e, len, w', hv, had, fy, hsm, -⟩ := unique_wf_frame ne w fuel hf
  exact ⟨h', l', ks, es, e, len, w', hv, had, fy, hsm⟩

/-! Runs of equal elements, in the words of the specification. -/

/-- The runs of a non-empty sequence: the first run starts with the first element, and
the first elements of the later runs are what the loop of `unique` keeps. -/
theorem runs_cons_form [DecidableEq T] (ne : T → T → Bool) (hne : ∀ a b, ne a b = true ↔ a ≠ b)
    (a : T) (xs : List T) :
    ∃ r rs, runs (a :: xs) = (a :: r) :: rs ∧
      rs.filterMap List.head? = keep_from ne a xs ∧ rs.length = (keep_from ne a xs).length := by
  induction xs generalizing a with
  | nil => exact ⟨[], [], by simp [runs], by simp [keep_from], by simp [keep_from]⟩
  | cons x xs ih =>
    obtain ⟨r, rs, e, hh, hl⟩ := ih x
    rw [runs, e]
    by_cases hax : a = x
    · subst hax
      have hn : ¬ ne a a = true := by rw [hne]; simp
      refine ⟨a :: r, rs, by simp, ?_, ?_⟩
      · rw [keep_from, if_neg hn]; exact hh
      · rw [keep_from, if_neg hn]; exact hl
    · have hn : ne a x = true := (hne a x).2 hax
      refine ⟨[], (x :: r) :: rs, by simp [hax], ?_, ?_⟩
      · rw [keep_from, if_pos hn]; simp [hh]
      · rw [keep_from, if_pos hn]; simp [hl]

/-- The specification's "first element of each maximal run" is what `unique` computes. -/
theorem run_heads_eq [DecidableEq T] (ne : T → T → Bool) (hne : ∀ a b, ne a b = true ↔ a ≠ b)
    (xs : List T) :
    run_heads xs = unique_vals ne xs ∧ (runs xs).length = (unique_vals ne xs).length := by
  cases xs with
  | nil => simp [run_heads, runs, unique_vals]
  | cons a xs =>
    obtain ⟨r, rs, e, hh, hl⟩ := runs_cons_form ne hne a xs
    simp [run_heads, e, unique_vals, hh, hl]

/-- The runs, put one after the other, are the sequence. -/
theorem runs_flatten [DecidableEq T] (xs : List T) : (runs xs).flatten = xs := by
  induction xs with
  | nil => simp [runs]
  | cons a xs ih =>
    rw [runs]
    split
    · next b r rs e =>
      rw [e] at ih
      split <;> simp_all
    · next hno =>
      cases xs with
      | nil => simp
      | cons x xs =>
        obtain ⟨r, rs, e, -⟩ := runs_cons_form (fun a b => decide (a ≠ b)) (by simp) x xs
        exact absurd e (hno _ _ _)

/-- Every run is non-empty and repeats one value. -/
theorem runs_const [DecidableEq T] (xs : List T) :
    ∀ r ∈ runs xs, ∃ a n, r = List.replicate (n + 1) a := by
  induction xs with
  | nil => simp [runs]
  | cons a xs ih =>
    rw [runs]
    split
    · next b r rs e =>
      rw [e] at ih
      split
      · next hab =>
        subst hab
        intro s hs
        simp only [List.mem_cons] at hs
        rcases hs with rfl | hs
        · obtain ⟨c, n, hc⟩ := ih (a :: r) (by simp)
          have hca : c = a := by
            simp only [List.replicate_succ, List.cons.injEq] at hc; exact hc.1.symm
          refine ⟨a, n + 1, ?_⟩
          rw [hc, hca]; rfl
        · exact ih s (by simp [hs])
      · intro s hs
        simp only [List.mem_cons] at hs
        rcases hs with rfl | hs
        · exact ⟨a, 0, rfl⟩
        · exact ih s (by simpa using hs)
    · intro s hs
      simp only [List.mem_singleton] at hs
      exact ⟨a, 0, by simp [hs]⟩

/-- Runs are maximal: two neighbouring runs start with different values. -/
theorem runs_maximal [DecidableEq T] (xs : List T) :
    List.Chain' (fun r s => r.head? ≠ s.head?) (runs xs) := by
  induction xs with
  | nil => simp [runs]
  | cons a xs ih =>
    rw [runs]
    split
    · next b r rs e =>
      rw [e] at ih
      split
      · next hab =>
        subst hab
        cases rs with
        | nil => simp
        | cons s rs =>
          simp only [List.chain'_cons] at ih ⊢
          exact ⟨by simpa using ih.1, ih.2⟩
      · next hab =>
        simp only [List.chain'_cons]
        exact ⟨by simpa using hab, ih⟩
    · simp

/-! Further facts used by the claims. -/

/-- A cell of a segment is in the heap with the data the segment names. -/
theorem Seg_mem {h : Heap T} {p q : Ptr} {cs : List (Cell T)} (hs : Seg h p cs q) :
    ∀ c ∈ cs, ∃ n, cellAt h c.1 = some n ∧ n.data = c.2 := by
  induction cs generalizing p with
  | nil => simp
  | cons c cs ih =>
    intro c' hc'
    simp only [List.mem_cons] at hc'
    rcases hc' with rfl | hc'
    · exact ⟨_, hs.1, rfl⟩
    · exact ih hs.2 c' hc'

/-- Two heaps that hold the same segment agree on its cells. -/
theorem Seg_unique {h h' : Heap T} {p q : Ptr} {cs : List (Cell T)} (hs : Seg h p cs q)
    (hs' : Seg h' p cs q) : ∀ a ∈ addrs cs, cellAt h' a = cellAt h a := by
  induction cs generalizing p with
  | nil => simp
  | cons c cs ih =>
    intro a ha
    simp only [addrs_cons, List.mem_cons] at ha
    by_cases hac : a = c.1
    · rw [hac, hs.1, hs'.1]
    · exact ih hs.2 hs'.2 a (ha.resolve_left hac)

/-- Heaps of the same length with the same cells are equal. -/
theorem heap_ext {h h' : Heap T} (hlen : h'.length = h.length)
    (hc : ∀ a, cellAt h' a = cellAt h a) : h' = h := by
  apply List.ext_getElem hlen
  intro n h1 h2
  have := hc n
  simp only [cellAt, List.getD_eq_getElem?_getD, List.getElem?_eq_getElem h1,
    List.getElem?_eq_getElem h2, Option.getD_some] at this
  exact this

theorem mem_addrs_iff (cs : List (Cell T)) (a : Nat) : a ∈ addrs cs ↔ ∃ d, (a, d) ∈ cs := by
  simp [addrs]

/-- The methods `pop_front` and `pop_back` on a well-formed empty list do nothing. -/
theorem pop_empty_wf {h : Heap T} {l : LList} {f b : Nat} (w : Wf h l f [] b) :
    pop_front h l = .ok (h, l) ∧ pop_back h l = .ok (h, l) := by
  have hb := begin_wf w
  have he := end_wf w
  simp only [posOf_nil] at hb
  constructor
  · simp [pop_front, hb, erase, he, bind, Except.bind, pure, Except.pure]
  · simp [pop_back, hb, he, bind, Except.bind, pure, Except.pure]

theorem getLast?_vals_concat (ns : List (Nat × T)) (n : Nat × T) :
    (vals (ns ++ [n])).getLast? = some n.2 := by
  simp [vals]

/-- The methods `front()` and `back()` of a well-formed non-empty list are the first and the last
value of the sequence. -/
theorem front_back_wf {h : Heap T} {l : LList} {f b : Nat} {ns : List (Nat × T)}
    (w : Wf h l f ns b) (hne : ns ≠ []) :
    ∃ v z, (vals ns).head? = some v ∧ (vals ns).getLast? = some z ∧
      front h l = .ok v ∧ back h l = .ok z := by
  obtain ⟨n, ms, rfl⟩ := List.exists_cons_of_ne_nil hne
  obtain ⟨ks, k, hk⟩ : ∃ ks k, n :: ms = ks ++ [k] := by
    rcases List.eq_nil_or_concat (n :: ms) with e | ⟨ks, k, e⟩
    · exact absurd e hne
    · exact ⟨ks, k, by simpa using e⟩
  refine ⟨n.2, k.2, rfl, ?_, front_wf w, ?_⟩
  · rw [hk]; exact getLast?_vals_concat ks k
  · rw [hk] at w; exact back_wf w

theorem vals_reverse (ns : List (Nat × T)) : vals ns.reverse = (vals ns).reverse := by
  simp [vals, List.map_reverse]

/-! The claims C1 to C6. -/

theorem exHeap_wf : Wf exHeap exList 0 [(2, 1), (3, 2), (4, 3)] 1 :=
  ⟨rfl, rfl, rfl, by decide, by decide, by decide⟩

theorem exHeapDup_wf : Wf exHeapDup exList 0 [(2, 1), (3, 1), (4, 2)] 1 :=
  ⟨rfl, rfl, rfl, by decide, by decide, by decide⟩

theorem exHeapEmpty_wf : Wf exHeapEmpty exListEmpty 0 [] 1 :=
  ⟨rfl, rfl, rfl, by decide, by decide, by decide⟩

theorem load_error {h : Heap T} {p : Ptr} {e : Err} (he : load h p = .error e) :
    e = .undefined := by
  unfold load at he
  split at he
  · injection he with he; exact he.symm
  · split at he
    · injection he with he; exact he.symm
    · cases he

theorem deref_error {h : Heap T} {p : Ptr} {e : Err} (he : Iterator.deref h p = .error e) :
    e = .undefined := by
  unfold Iterator.deref at he
  cases hl : load h p with
  | error e' =>
    rw [hl] at he
    simp only [bind, Except.bind] at he
    injection he with he
    rw [← he]; exact load_error hl
  | ok n =>
    rw [hl] at he
    simp only [bind, Except.bind] at he
    split at he
    · injection he with he; exact he.symm
    · cases he

/-- Claim C1: from a default-constructed list, `push_back(v1) ... push_back(vn)` (with
`n` in the range of `size_t`) gives a well-formed list with `size() == n`, whose
forward iteration yields `v1..vn` in order, with `front() == v1` and
`back() == vn` when `n >= 1`. -/
theorem push_back_sequence (h0 : Heap T) (vs : List T) (hn : vs.length < SIZE_MOD) :
    ∃ h l f ns b, build h0 vs = .ok (h, l) ∧ Wf h l f ns b ∧ vals ns = vs ∧
      size l = vs.length ∧
      (∀ fuel, vs.length < fuel → traverse fuel h l = .ok vs) ∧
      (∀ v1 rest, vs = v1 :: rest → front h l = .ok v1) ∧
      (∀ rest vn, vs = rest ++ [vn] → back h l = .ok vn) := by
  obtain ⟨h1, e1, -, w1, -⟩ := ctor_wf h0
  obtain ⟨h, l, ns, e2, w, hv⟩ := push_back_all_wf vs w1 (by simpa using hn)
  simp only [List.nil_append] at w
  have hlen : ns.length = vs.length := by rw [← hv]; simp
  refine ⟨h, l, _, ns, _, ?_, w, hv, ?_, ?_, ?_, ?_⟩
  · simp only [build, e1, bind, Except.bind]; exact e2
  · rw [size, w.size_eq, hlen]
  · intro fuel hf
    rw [← hv]; exact traverse_wf w fuel (by omega)
  · intro v1 rest hvs
    cases ns with
    | nil => simp [← hv] at hvs
    | cons n ns =>
      rw [← hv] at hvs
      simp only [vals_cons, List.cons.injEq] at hvs
      rw [← hvs.1]; exact front_wf w
  · intro rest vn hvs
    rcases List.eq_nil_or_concat ns with e | ⟨ms, n, e⟩
    · subst e; simp [← hv] at hvs
    · have e' : ns = ms ++ [n] := by simpa using e
      subst e'
      rw [← hv] at hvs
      simp only [vals_append, vals_cons, vals_nil] at hvs
      have := List.append_inj' hvs rfl
      simp only [List.cons.injEq, and_true] at this
      rw [← this.2]; exact back_wf w

/-- Claim C1 at the values 1, 2, 3 pushed on the empty heap. -/
theorem push_back_sequence_witness :
    ([1, 2, 3] : List Nat).length < SIZE_MOD ∧
    ∃ h l, build ([] : Heap Nat) [1, 2, 3] = .ok (h, l) ∧ size l = 3 ∧
      traverse 4 h l = .ok [1, 2, 3] ∧ front h l = .ok 1 ∧ back h l = .ok 3 := by
  refine ⟨by decide, ?_⟩
  obtain ⟨h, l, f, ns, b, e, -, -, hs, ht, hf, hb⟩ :=
    push_back_sequence ([] : Heap Nat) [1, 2, 3] (by decide)
  exact ⟨h, l, e, hs, ht 4 (by decide), hf 1 [2, 3] rfl, hb [1, 2] 3 rfl⟩

/-- Claim C2: on a well-formed list with interior nodes `xs ++ ys` (and room for one
more element in `size_t`), `insert(pos, v)` at the position of the start of `ys`
gives the sequence `xs ++ [v] ++ ys`, increases `size()` by one and returns an
iterator that dereferences to `v` and whose successor is `pos`; `pos` is
`begin()` when `xs` is empty and `end()` when `ys` is empty. -/
theorem insert_at_position {h : Heap T} {l : LList} {f b : Nat} (xs ys : List (Nat × T)) (v : T)
    (w : Wf h l f (xs ++ ys) b) (hsz : (xs ++ ys).length + 1 < SIZE_MOD) :
    ∃ h' l' c, insert h l (posOf ys b) v = .ok (h', l', some c) ∧
      Wf h' l' f (xs ++ (c, v) :: ys) b ∧
      (∀ fuel, (xs ++ ys).length + 1 < fuel →
        traverse fuel h' l' = .ok (vals xs ++ [v] ++ vals ys)) ∧
      size l' = size l + 1 ∧
      Iterator.deref h' (some c) = .ok v ∧
      Iterator.inc h' (some c) = .ok (posOf ys b) ∧
      (xs = [] → begin h l = .ok (posOf ys b)) ∧
      (ys = [] → «end» l = posOf ys b) := by
  obtain ⟨h', l', e, -, w', -⟩ := insert_wf xs ys v w hsz
  have hs := w'.seg
  rw [chain_split_cons] at hs
  have hc := Seg_mid hs
  rw [hd_live_append] at hc
  refine ⟨h', l', h.length, e, w', ?_, ?_, deref_some hc rfl, inc_some hc, ?_, ?_⟩
  · intro fuel hf
    rw [traverse_wf w' fuel (by simp at hf ⊢; omega)]
    simp
  · rw [size, size, w'.size_eq, w.size_eq]; simp only [List.length_append, List.length_cons]; omega
  · intro hx; subst hx; exact begin_wf w
  · intro hy; subst hy; exact end_wf w

/-- Claim C2 at the list 1, 2, 3: insert 7 before the node holding 2. -/
theorem insert_at_position_witness :
    Wf exHeap exList 0 ([(2, 1)] ++ [(3, 2), (4, 3)]) 1 ∧
    ∃ h' l' c, insert exHeap exList (some 3) 7 = .ok (h', l', some c) ∧
      traverse 5 h' l' = .ok [1, 7, 2, 3] ∧ size l' = 4 ∧
      Iterator.deref h' (some c) = .ok 7 ∧ Iterator.inc h' (some c) = .ok (some 3) := by
  refine ⟨exHeap_wf, ?_⟩
  obtain ⟨h', l', c, e, -, ht, hs, hd, hi, -⟩ :=
    insert_at_position [(2, 1)] [(3, 2), (4, 3)] 7 exHeap_wf (by decide)
  exact ⟨h', l', c, e, ht 5 (by decide), hs, hd, hi⟩

/-- Claim C3: on a well-formed list with interior nodes `xs ++ [x] ++ ys`, `erase` at
the node of `x` gives the sequence `xs ++ ys`, decreases `size()` by one, frees
the node and returns the position of the start of `ys` (`end()` when `ys` is
empty); and `push_back` of 1, 2, 3 on an empty list followed by
`erase(++begin())` gives `[1, 3]` with `size() == 2`. -/
theorem erase_at_position :
    (∀ (T : Type) (h : Heap T) (l : LList) (f b : Nat) (xs ys : List (Nat × T)) (x : Nat)
      (v : T), Wf h l f (xs ++ (x, v) :: ys) b →
      ∃ h' l', erase h l (some x) = .ok (h', l', posOf ys b) ∧
        Wf h' l' f (xs ++ ys) b ∧
        (∀ fuel, (xs ++ ys).length < fuel → traverse fuel h' l' = .ok (vals xs ++ vals ys)) ∧
        size l' + 1 = size l ∧
        cellAt h' x = none ∧
        (ys = [] → posOf ys b = «end» l')) ∧
    (∃ h l, (do
        let (h, l) ← build ([] : Heap Nat) [1, 2, 3]
        let (h, l, _) ← erase h l (← Iterator.inc h (← begin h l))
        pure (h, l)) = Except.ok (h, l) ∧
      traverse 3 h l = .ok [1, 3] ∧ size l = 2) := by
  refine ⟨?_, ⟨_, _, rfl, rfl, rfl⟩⟩
  intro T h l f b xs ys x v w
  obtain ⟨h', l', e, -, w', fx, -⟩ := erase_wf xs ys x v w
  refine ⟨h', l', e, w', ?_, ?_, fx, ?_⟩
  · intro fuel hf
    rw [traverse_wf w' fuel hf]
    simp
  · rw [size, size, w'.size_eq, w.size_eq]; simp only [List.length_append, List.length_cons]; omega
  · intro hy; subst hy; exact (end_wf w').symm

/-- Claim C3 at the list 1, 2, 3: erase the node holding 2. -/
theorem erase_at_position_witness :
    Wf exHeap exList 0 ([(2, 1)] ++ (3, 2) :: [(4, 3)]) 1 ∧
    ∃ h' l', erase exHeap exList (some 3) = .ok (h', l', some 4) ∧
      traverse 3 h' l' = .ok [1, 3] ∧ size l' + 1 = 3 := by
  refine ⟨exHeap_wf, ?_⟩
  obtain ⟨h', l', e, -, ht, hs, -⟩ :=
    erase_at_position.1 Nat exHeap exList 0 1 [(2, 1)] [(4, 3)] 3 2 exHeap_wf
  exact ⟨h', l', e, ht 3 (by decide), hs⟩

/-- Claim C4: on a well-formed list `erase(end())` returns `end()` and leaves the heap
(values and links) and the list object (with its `size()`) as they were; on an
empty well-formed list `pop_front()` and `pop_back()` leave heap and list
object as they were, with `size() == 0`. -/
theorem erase_end_pop_empty {h : Heap T} {l : LList} {f b : Nat} {ns : List (Nat × T)}
    (w : Wf h l f ns b) :
    erase h l («end» l) = .ok (h, l, «end» l) ∧
    (ns = [] → pop_front h l = .ok (h, l) ∧ pop_back h l = .ok (h, l) ∧ size l = 0) := by
  refine ⟨by simp [erase, pure, Except.pure], ?_⟩
  intro hns
  subst hns
  exact ⟨(pop_empty_wf w).1, (pop_empty_wf w).2, by rw [size, w.size_eq]; rfl⟩

/-- Claim C4 at a default-constructed list. -/
theorem erase_end_pop_empty_witness :
    Wf exHeapEmpty exListEmpty 0 [] 1 ∧
    erase exHeapEmpty exListEmpty («end» exListEmpty)
      = .ok (exHeapEmpty, exListEmpty, «end» exListEmpty) ∧
    pop_front exHeapEmpty exListEmpty = .ok (exHeapEmpty, exListEmpty) ∧
    pop_back exHeapEmpty exListEmpty = .ok (exHeapEmpty, exListEmpty) ∧
    size exListEmpty = 0 :=
  ⟨exHeapEmpty_wf, (erase_end_pop_empty exHeapEmpty_wf).1,
    (erase_end_pop_empty exHeapEmpty_wf).2 rfl⟩

/-- Claim C5: the mutable `front()` and `back()` end with `std::out_of_range` exactly
when `size() == 0`; on a well-formed non-empty list `front()` is the first and
`back()` the last value of the forward traversal.  Both are read-only: they
take the heap and the list object and give back a value only. -/
theorem front_back_checked (h : Heap T) (l : LList) :
    (front h l = .error .out_of_range ↔ size l = 0) ∧
    (back h l = .error .out_of_range ↔ size l = 0) ∧
    (∀ f b ns, Wf h l f ns b → ns ≠ [] →
      ∃ v z, (∀ fuel, ns.length < fuel → traverse fuel h l = .ok (vals ns)) ∧
        (vals ns).head? = some v ∧ (vals ns).getLast? = some z ∧
        front h l = .ok v ∧ back h l = .ok z) := by
  refine ⟨?_, ?_, ?_⟩
  · constructor
    · intro he
      by_contra hs
      have hne : empty l = false := by simpa [empty] using hs
      simp only [front, hne, Bool.false_eq_true, if_false] at he
      cases hl : load h l._front with
      | error e' =>
        rw [hl] at he
        simp only [bind, Except.bind] at he
        injection he with he
        have := load_error hl
        rw [he] at this; cases this
      | ok n =>
        rw [hl] at he
        simp only [bind, Except.bind] at he
        have := deref_error he
        cases this
    · intro hs
      simp [front, empty, hs, throw, throwThe, MonadExceptOf.throw]
  · constructor
    · intro he
      by_contra hs
      have hne : empty l = false := by simpa [empty] using hs
      simp only [back, hne, Bool.false_eq_true, if_false] at he
      cases hl : load h l._back with
      | error e' =>
        rw [hl] at he
        simp only [bind, Except.bind] at he
        injection he with he
        have := load_error hl
        rw [he] at this; cases this
      | ok n =>
        rw [hl] at he
        simp only [bind, Except.bind] at he
        have := deref_error he
        cases this
    · intro hs
      simp [back, empty, hs, throw, throwThe, MonadExceptOf.throw]
  · intro f b ns w hne
    obtain ⟨v, z, hv, hz, hf, hb⟩ := front_back_wf w hne
    exact ⟨v, z, fun fuel hfu => traverse_wf w fuel hfu, hv, hz, hf, hb⟩

/-- Claim C5 at the list 1, 2, 3 and at a default-constructed list. -/
theorem front_back_checked_witness :
    Wf exHeap exList 0 [(2, 1), (3, 2), (4, 3)] 1 ∧
    front exHeap exList = .ok 1 ∧ back exHeap exList = .ok 3 ∧
    front exHeapEmpty exListEmpty = .error .out_of_range ∧
    back exHeapEmpty exListEmpty = .error .out_of_range := by
  obtain ⟨v, z, -, hv, hz, hf, hb⟩ :=
    (front_back_checked exHeap exList).2.2 0 1 _ exHeap_wf (by decide)
  have hv' : v = 1 := by
    have : (vals [(2, 1), (3, 2), (4, 3)]).head? = some 1 := rfl
    rw [this] at hv; injection hv with hv; exact hv.symm
  have hz' : z = 3 := by
    have : (vals [(2, 1), (3, 2), (4, 3)]).getLast? = some 3 := rfl
    rw [this] at hz; injection hz with hz; exact hz.symm
  subst hv' hz'
  exact ⟨exHeap_wf, hf, hb,
    (front_back_checked exHeapEmpty exListEmpty).1.2 rfl,
    (front_back_checked exHeapEmpty exListEmpty).2.1.2 rfl⟩

/-- Claim C6 fails on the code: `front() const` and `back() const` call themselves, so
whatever the fuel no call returns, neither with a value nor with
`std::out_of_range`; on the list 1, 2, 3 the mutable overloads return 1 and 3. -/
theorem const_front_back_never_return :
    (∀ (T : Type) (h : Heap T) (l : LList) (fuel : Nat),
      front_const h l fuel = .error .out_of_fuel ∧ back_const h l fuel = .error .out_of_fuel) ∧
    front exHeap exList = .ok 1 ∧ back exHeap exList = .ok 3 := by
  refine ⟨?_, rfl, rfl⟩
  intro T h l fuel
  induction fuel with
  | zero => exact ⟨rfl, rfl⟩
  | succ k ih => exact ih

/-! The claims C7 to C10. -/

/-- Claim C7: on a well-formed list with interior nodes `ns`, `reverse()` returns (with
fuel for the `ns.length + 2` nodes and the final test) and leaves a well-formed
list with the same interior nodes in reverse order, the old back sentinel as the
front sentinel and the old front sentinel as the back sentinel; the forward
traversal is the reverse of the old one, `size()` is unchanged, no node is
allocated or freed and every node holds the value it held before. -/
theorem reverse_spec {h : Heap T} {l : LList} {f b : Nat} {ns : List (Nat × T)}
    (w : Wf h l f ns b) (fuel : Nat) (hf : ns.length + 2 < fuel) :
    ∃ h' l', reverse fuel h l = .ok (h', l') ∧
      Wf h' l' b ns.reverse f ∧
      (∀ k, ns.length < k → traverse k h l = .ok (vals ns) ∧
        traverse k h' l' = .ok (vals ns).reverse) ∧
      size l' = size l ∧
      h'.length = h.length ∧
      (∀ a, (cellAt h' a).map Node.data = (cellAt h a).map Node.data) := by
  obtain ⟨h', l', e, len, w', hl, fr⟩ := reverse_wf w fuel hf
  refine ⟨h', l', e, w', ?_, by rw [hl]; rfl, len, ?_⟩
  · intro k hk
    refine ⟨traverse_wf w k hk, ?_⟩
    rw [traverse_wf w' k (by simpa using hk), vals_reverse]
  · intro a
    by_cases ha : a ∈ addrs (chain f ns b)
    · obtain ⟨d, hd⟩ := (mem_addrs_iff _ _).1 ha
      obtain ⟨n, hn, hnd⟩ := Seg_mem w.seg _ hd
      have hd' : (a, d) ∈ chain b ns.reverse f := by
        rw [← chain_reverse]; exact List.mem_reverse.2 hd
      obtain ⟨n', hn', hnd'⟩ := Seg_mem w'.seg _ hd'
      simp only at hn hn' hnd hnd'
      rw [hn, hn']; simp [hnd, hnd']
    · rw [fr a ha]

/-- Claim C7 at the list 1, 2, 3. -/
theorem reverse_spec_witness :
    Wf exHeap exList 0 [(2, 1), (3, 2), (4, 3)] 1 ∧
    ∃ h' l', reverse 6 exHeap exList = .ok (h', l') ∧
      Wf h' l' 1 [(4, 3), (3, 2), (2, 1)] 0 ∧
      traverse 4 h' l' = .ok [3, 2, 1] ∧ size l' = 3 := by
  refine ⟨exHeap_wf, ?_⟩
  obtain ⟨h', l', e, w', ht, hs, -⟩ := reverse_spec exHeap_wf 6 (by decide)
  exact ⟨h', l', e, w', (ht 4 (by decide)).2, hs⟩

/-- Claim C8: on a well-formed list, `reverse()` applied twice gives back the heap and
the list object it started from, so the forward traversal is the original one;
on a non-empty list with first value `v` and last value `z`, after the first
`reverse()` `front()` is `z` and `back()` is `v`, and after the second
`front()` is `v` and `back()` is `z`. -/
theorem reverse_twice {h : Heap T} {l : LList} {f b : Nat} {ns : List (Nat × T)}
    (w : Wf h l f ns b) (fuel : Nat) (hf : ns.length + 2 < fuel) :
    ∃ h1 l1 h2 l2, reverse fuel h l = .ok (h1, l1) ∧ reverse fuel h1 l1 = .ok (h2, l2) ∧
      h2 = h ∧ l2 = l ∧
      (∀ k, ns.length < k → traverse k h l = .ok (vals ns) ∧
        traverse k h1 l1 = .ok (vals ns).reverse ∧ traverse k h2 l2 = .ok (vals ns)) ∧
      (ns ≠ [] → ∃ v z, (vals ns).head? = some v ∧ (vals ns).getLast? = some z ∧
        front h l = .ok v ∧ back h l = .ok z ∧
        front h1 l1 = .ok z ∧ back h1 l1 = .ok v ∧
        front h2 l2 = .ok v ∧ back h2 l2 = .ok z) := by
  obtain ⟨h1, l1, e1, len1, w1, hl1, fr1⟩ := reverse_wf w fuel hf
  obtain ⟨h2, l2, e2, len2, w2, hl2, fr2⟩ := reverse_wf w1 fuel (by simpa using hf)
  rw [List.reverse_reverse] at w2
  have hl : l2 = l := by rw [hl2, hl1]
  have hh : h2 = h := by
    apply heap_ext (by rw [len2, len1])
    intro a
    by_cases ha : a ∈ addrs (chain f ns b)
    · exact Seg_unique w.seg w2.seg a ha
    · have ha' : a ∉ addrs (chain b ns.reverse f) := by
        rw [← chain_reverse]
        simpa [addrs] using ha
      rw [fr2 a ha', fr1 a ha]
  refine ⟨h1, l1, h2, l2, e1, e2, hh, hl, ?_, ?_⟩
  · intro k hk
    refine ⟨traverse_wf w k hk, ?_, traverse_wf w2 k hk⟩
    rw [traverse_wf w1 k (by simpa using hk), vals_reverse]
  · intro hne
    obtain ⟨v, z, hv, hz, hfr, hbk⟩ := front_back_wf w hne
    obtain ⟨v1, z1, hv1, hz1, hfr1, hbk1⟩ := front_back_wf w1 (by simpa using hne)
    rw [vals_reverse] at hv1 hz1
    rw [List.head?_reverse, hz] at hv1
    rw [List.getLast?_reverse, hv] at hz1
    injection hv1 with hv1
    injection hz1 with hz1
    subst hv1 hz1
    refine ⟨v, z, hv, hz, hfr, hbk, hfr1, hbk1, ?_, ?_⟩
    · rw [hh, hl]; exact hfr
    · rw [hh, hl]; exact hbk

/-- Claim C8 at the list 1, 2, 3. -/
theorem reverse_twice_witness :
    Wf exHeap exList 0 [(2, 1), (3, 2), (4, 3)] 1 ∧
    ∃ h1 l1, reverse 6 exHeap exList = .ok (h1, l1) ∧
      reverse 6 h1 l1 = .ok (exHeap, exList) ∧
      traverse 4 h1 l1 = .ok [3, 2, 1] ∧ front h1 l1 = .ok 3 ∧ back h1 l1 = .ok 1 ∧
      traverse 4 exHeap exList = .ok [1, 2, 3] ∧
      front exHeap exList = .ok 1 ∧ back exHeap exList = .ok 3 := by
  refine ⟨exHeap_wf, ?_⟩
  obtain ⟨h1, l1, h2, l2, e1, e2, hh, hl, ht, hfb⟩ := reverse_twice exHeap_wf 6 (by decide)
  subst hh hl
  obtain ⟨v, z, hv, hz, hf0, hb0, hf1, hb1, -⟩ := hfb (by decide)
  have hv' : v = 1 := by
    have : (vals [(2, 1), (3, 2), (4, 3)]).head? = some 1 := rfl
    rw [this] at hv; injection hv with hv; exact hv.symm
  have hz' : z = 3 := by
    have : (vals [(2, 1), (3, 2), (4, 3)]).getLast? = some 3 := rfl
    rw [this] at hz; injection hz with hz; exact hz.symm
  subst hv' hz'
  exact ⟨h1, l1, e1, e2, (ht 4 (by decide)).2.1, hf1, hb1, (ht 4 (by decide)).1, hf0, hb0⟩

/-- Claim C9: for an element type whose `!=` is the negation of a decidable equality,
`unique()` on a well-formed list returns (with fuel for its nodes) and leaves a
well-formed list whose sequence is the first element of each maximal run of
consecutive equal elements, with `size()` the number of runs; a list of size 0
or 1 is left as it was; and `[1,1,2,2,2,3,1]` becomes `[1,2,3,1]`. -/
theorem unique_spec :
    (∀ (T : Type) [DecidableEq T] (ne : T → T → Bool), (∀ a b, ne a b = true ↔ a ≠ b) →
      ∀ (h : Heap T) (l : LList) (f b : Nat) (ns : List (Nat × T)), Wf h l f ns b →
      ∀ fuel, ns.length < fuel →
      ∃ h' l' ks, unique ne fuel h l = .ok (h', l') ∧
        Wf h' l' f ks b ∧
        vals ks = run_heads (vals ns) ∧
        (∀ k, ns.length < k → traverse k h l = .ok (vals ns) ∧
          traverse k h' l' = .ok (run_heads (vals ns))) ∧
        size l' = (runs (vals ns)).length ∧
        (ns.length < 2 → h' = h ∧ l' = l)) ∧
    run_heads [1, 1, 2, 2, 2, 3, 1] = [1, 2, 3, 1] ∧
    (∃ h l h' l', build ([] : Heap Nat) [1, 1, 2, 2, 2, 3, 1] = .ok (h, l) ∧
      unique (fun a b => a != b) 8 h l = .ok (h', l') ∧
      traverse 5 h' l' = .ok [1, 2, 3, 1] ∧ size l' = 4) := by
  refine ⟨?_, by decide, ⟨_, _, _, _, rfl, rfl, rfl, rfl⟩⟩
  intro T _ ne hne h l f b ns w fuel hf
  obtain ⟨h', l', ks, es, e, -, w', hv, had, -, hsmall⟩ := unique_wf ne w fuel hf
  obtain ⟨hrh, hrl⟩ := run_heads_eq ne hne (vals ns)
  have hklen : ks.length ≤ ns.length := by
    have := congrArg List.length had
    simp only [addrs, live, List.length_map, List.length_append] at this
    omega
  refine ⟨h', l', ks, e, w', by rw [hv, hrh], ?_, ?_, hsmall⟩
  · intro k hk
    refine ⟨traverse_wf w k hk, ?_⟩
    rw [traverse_wf w' k (by omega), hv, hrh]
  · rw [size, w'.size_eq, hrl, ← hv]; simp

/-- Claim C9 at the list 1, 1, 2. -/
theorem unique_spec_witness :
    Wf exHeapDup exList 0 [(2, 1), (3, 1), (4, 2)] 1 ∧
    ∃ h' l', unique (fun a b => a != b) 4 exHeapDup exList = .ok (h', l') ∧
      traverse 4 h' l' = .ok [1, 2] ∧ size l' = 2 := by
  refine ⟨exHeapDup_wf, ?_⟩
  obtain ⟨h', l', ks, e, -, -, ht, hs, -⟩ :=
    unique_spec.1 Nat (fun a b => a != b) (by simp) exHeapDup exList 0 1 _ exHeapDup_wf 4
      (by decide)
  exact ⟨h', l', e, (ht 4 (by decide)).2, hs⟩

/-- Claim C10: on a well-formed list with interior nodes `xs ++ ys ++ zs`,
`erase(first, last)` from the start of `ys` to the start of `zs` returns `last`
(with fuel for the nodes of `ys`) and leaves the sequence `xs ++ zs`, with
`size()` reduced by the length of `ys`; `erase(begin(), end())` and `clear()`
leave `size() == 0` and `begin() == end()`. -/
theorem erase_range_spec {h : Heap T} {l : LList} {f b : Nat} (xs ys zs : List (Nat × T))
    (w : Wf h l f (xs ++ ys ++ zs) b) (fuel : Nat) (hf : ys.length < fuel) :
    (∃ h' l', erase_range fuel h l (posOf (ys ++ zs) b) (posOf zs b)
        = .ok (h', l', posOf zs b) ∧
      Wf h' l' f (xs ++ zs) b ∧
      (∀ k, (xs ++ zs).length < k → traverse k h' l' = .ok (vals xs ++ vals zs)) ∧
      size l' + ys.length = size l) ∧
    (∀ k, (xs ++ ys ++ zs).length < k →
      ∃ first h1 l1 h2 l2, begin h l = .ok first ∧
        erase_range k h l first («end» l) = .ok (h1, l1, «end» l) ∧
        size l1 = 0 ∧ begin h1 l1 = .ok («end» l1) ∧
        clear k h l = .ok (h2, l2) ∧
        size l2 = 0 ∧ begin h2 l2 = .ok («end» l2)) := by
  constructor
  · obtain ⟨h', l', e, -, w', -, -⟩ := erase_range_wf xs ys zs w fuel hf
    refine ⟨h', l', e, w', ?_, ?_⟩
    · intro k hk
      rw [traverse_wf w' k hk]; simp
    · rw [size, size, w'.size_eq, w.size_eq]
      simp only [List.length_append]; omega
  · intro k hk
    have w0 : Wf h l f ([] ++ (xs ++ ys ++ zs) ++ []) b := by simpa using w
    obtain ⟨h1, l1, e1, -, w1, -, -⟩ := erase_range_wf [] (xs ++ ys ++ zs) [] w0 k hk
    obtain ⟨h2, l2, e2, -, w2⟩ := clear_wf w k hk
    simp only [List.append_nil, posOf_nil, List.nil_append] at e1 w1
    refine ⟨_, h1, l1, h2, l2, begin_wf w, ?_, ?_, ?_, e2, ?_, ?_⟩
    · rw [end_wf w]; exact e1
    · rw [size, w1.size_eq]; rfl
    · rw [begin_wf w1, end_wf w1]; rfl
    · rw [size, w2.size_eq]; rfl
    · rw [begin_wf w2, end_wf w2]; rfl

/-- Claim C10 at the list 1, 2, 3: erase the nodes holding 2 and 3, and clear. -/
theorem erase_range_spec_witness :
    Wf exHeap exList 0 ([(2, 1)] ++ [(3, 2), (4, 3)] ++ []) 1 ∧
    (∃ h' l', erase_range 3 exHeap exList (some 3) (some 1) = .ok (h', l', some 1) ∧
      traverse 2 h' l' = .ok [1] ∧ size l' + 2 = 3) ∧
    (∃ h2 l2, clear 4 exHeap exList = .ok (h2, l2) ∧ size l2 = 0 ∧
      begin h2 l2 = .ok («end» l2)) := by
  have hw : Wf exHeap exList 0 ([(2, 1)] ++ [(3, 2), (4, 3)] ++ []) 1 := exHeap_wf
  obtain ⟨⟨h', l', e, -, ht, hs⟩, hc⟩ :=
    erase_range_spec [(2, 1)] [(3, 2), (4, 3)] [] hw 3 (by decide)
  obtain ⟨-, -, -, h2, l2, -, -, -, -, e2, hs2, hb2⟩ := hc 4 (by decide)
  exact ⟨hw, ⟨h', l', e, ht 2 (by decide), hs⟩, ⟨h2, l2, e2, hs2, hb2⟩⟩

/-! Frames: what an operation leaves as it was, and relinking a segment. -/

/-- A well-formed list only depends on the cells of its own chain. -/
theorem Wf_frame {h h' : Heap T} {l : LList} {f b : Nat} {ns : List (Nat × T)}
    (w : Wf h l f ns b) (hag : ∀ a ∈ addrs (chain f ns b), cellAt h' a = cellAt h a) :
    Wf h' l f ns b :=
  ⟨w.front_eq, w.back_eq, w.size_eq, w.size_lt, w.nodup, Seg_frame hag w.seg⟩

/-- The nodes of a well-formed list are allocated. -/
theorem Wf.lt {h : Heap T} {l : LList} {f b : Nat} {ns : List (Nat × T)}
    (w : Wf h l f ns b) : ∀ a ∈ addrs (chain f ns b), a < h.length :=
  Seg_lt w.seg

theorem lst_mem (p : Nat) (cs : List (Cell T)) :
    ∃ a, lst (some p) cs = some a ∧ (a = p ∨ a ∈ addrs cs) := by
  induction cs generalizing p with
  | nil => exact ⟨p, rfl, Or.inl rfl⟩
  | cons c cs ih =>
    obtain ⟨a, ha, hm⟩ := ih c.1
    refine ⟨a, ha, Or.inr ?_⟩
    rcases hm with rfl | hm
    · simp
    · simp [hm]

theorem hd_mem (q : Nat) (cs : List (Cell T)) :
    ∃ a, hd (some q) cs = some a ∧ (a = q ∨ a ∈ addrs cs) := by
  cases cs with
  | nil => exact ⟨q, rfl, Or.inl rfl⟩
  | cons c cs => exact ⟨c.1, rfl, Or.inr (by simp)⟩

theorem mem_chain_front (f b : Nat) (ns : List (Nat × T)) : f ∈ addrs (chain f ns b) := by
  simp [chain]

theorem mem_chain_back (f b : Nat) (ns : List (Nat × T)) : b ∈ addrs (chain f ns b) := by
  simp [chain]

theorem mem_chain_live (f b : Nat) (ns : List (Nat × T)) {a : Nat} (ha : a ∈ addrs (live ns)) :
    a ∈ addrs (chain f ns b) := by
  simp [chain, ha]

/-- The end of a prefix of the interior nodes is a node of the chain. -/
theorem lst_mem_chain (f b : Nat) (xs ys : List (Nat × T)) :
    ∃ a, lst (some f) (live xs) = some a ∧ a ∈ addrs (chain f (xs ++ ys) b) := by
  obtain ⟨a, ha, hm⟩ := lst_mem f (live xs)
  refine ⟨a, ha, ?_⟩
  rw [mem_chain_iff]
  rcases hm with rfl | hm
  · exact Or.inl rfl
  · exact Or.inr (Or.inl (by simp [hm]))

/-- The start of a suffix of the interior nodes is a node of the chain. -/
theorem posOf_mem_chain (f b : Nat) (xs ys : List (Nat × T)) :
    ∃ a, posOf ys b = some a ∧ a ∈ addrs (chain f (xs ++ ys) b) := by
  obtain ⟨a, ha, hm⟩ := hd_mem b (live ys)
  refine ⟨a, ha, ?_⟩
  rw [mem_chain_iff]
  rcases hm with rfl | hm
  · exact Or.inr (Or.inr rfl)
  · exact Or.inr (Or.inl (by simp [hm]))

/-- The assignment `p->next = q` on an allocated node, with what it leaves alone. -/
theorem set_next_spec {h : Heap T} {a : Nat} {n : Node T} (q : Ptr) (hc : cellAt h a = some n) :
    ∃ h', set_next h (some a) q = .ok h' ∧ h'.length = h.length ∧
      cellAt h' a = some { n with next := q } ∧ ∀ x, x ≠ a → cellAt h' x = cellAt h x :=
  ⟨_, set_next_some q hc, by simp, cellAt_set_eq _ _ (cellAt_lt hc),
    fun _ hx => cellAt_set_ne _ _ (Ne.symm hx)⟩

/-- The assignment `p->prev = q` on an allocated node, with what it leaves alone. -/
theorem set_prev_spec {h : Heap T} {a : Nat} {n : Node T} (q : Ptr) (hc : cellAt h a = some n) :
    ∃ h', set_prev h (some a) q = .ok h' ∧ h'.length = h.length ∧
      cellAt h' a = some { n with prev := q } ∧ ∀ x, x ≠ a → cellAt h' x = cellAt h x :=
  ⟨_, set_prev_some q hc, by simp, cellAt_set_eq _ _ (cellAt_lt hc),
    fun _ hx => cellAt_set_ne _ _ (Ne.symm hx)⟩

/-- Changing one cell of a heap to a node with the links a segment asks for keeps the
segment, when the cell is the last one of the segment. -/
theorem Seg_relink_next {h : Heap T} {p q : Ptr} {A : List (Cell T)} {t : Nat} {td : Option T}
    (q' : Ptr) (hs : Seg h p (A ++ [(t, td)]) q) (hnd : (addrs (A ++ [(t, td)])).Nodup) :
    ∃ h', set_next h (some t) q' = .ok h' ∧ h'.length = h.length ∧
      Seg h' p (A ++ [(t, td)]) q' ∧
      cellAt h' t = some { data := td, next := q', prev := lst p A } ∧
      ∀ x, x ≠ t → cellAt h' x = cellAt h x := by
  have hc := Seg_mid hs
  simp only [hd_nil] at hc
  obtain ⟨h', e, len, c', fr⟩ := set_next_spec q' hc
  rw [nodup_addrs_middle] at hnd
  simp only [List.append_nil] at hnd
  refine ⟨h', e, len, ?_, c', fr⟩
  rw [Seg_append] at hs ⊢
  refine ⟨Seg_frame (fun x hx => fr x (fun e => hnd.1 (e ▸ hx))) hs.1, c', trivial⟩

/-- The assignment `c->prev = p'` at the first node of a segment. -/
theorem Seg_relink_prev {h : Heap T} {p q : Ptr} {c : Cell T} {cs : List (Cell T)}
    (p' : Ptr) (hs : Seg h p (c :: cs) q) (hnd : (addrs (c :: cs)).Nodup) :
    ∃ h', set_prev h (some c.1) p' = .ok h' ∧ h'.length = h.length ∧
      Seg h' p' (c :: cs) q ∧ ∀ x, x ≠ c.1 → cellAt h' x = cellAt h x := by
  obtain ⟨h', e, len, c', fr⟩ := set_prev_spec p' hs.1
  simp only [addrs_cons, List.nodup_cons] at hnd
  exact ⟨h', e, len, ⟨c', Seg_frame (fun x hx => fr x (fun e => hnd.1 (e ▸ hx))) hs.2⟩, fr⟩

/-- The three statements `tmp->next = new Node(nullptr, tmp);
tmp->next->data = new (tmp->next->data) T(v); tmp = tmp->next;` at the last node
`t` of a segment: the runs of the single statements, and the segment after. -/
theorem append_node_seg {h : Heap T} {p q : Ptr} {A : List (Cell T)} {t : Nat} {td : Option T}
    (v : T) (hs : Seg h p (A ++ [(t, td)]) q) (hnd : (addrs (A ++ [(t, td)])).Nodup) :
    ∃ h2 h3 n2, set_next (h ++ [some { data := none, next := none, prev := some t }]) (some t)
        (some h.length) = .ok h2 ∧
      load h2 (some t) = .ok n2 ∧ n2.next = some h.length ∧
      construct h2 (some h.length) v = .ok h3 ∧
      load h3 (some t) = .ok n2 ∧
      h3.length = h.length + 1 ∧
      Seg h3 p ((A ++ [(t, td)]) ++ [(h.length, some v)]) none ∧
      (addrs ((A ++ [(t, td)]) ++ [(h.length, some v)])).Nodup ∧
      (∀ x, x ≠ t → x < h.length → cellAt h3 x = cellAt h x) ∧
      ∀ x, x ≠ t → x < h.length → cellAt h2 x = cellAt h x := by
  have hlt := Seg_lt hs
  have hc := Seg_mid hs
  simp only [hd_nil] at hc
  have htl : t < h.length := cellAt_lt hc
  let h1 : Heap T := h ++ [some { data := none, next := none, prev := some t }]
  have hs1 : Seg h1 p (A ++ [(t, td)]) q :=
    Seg_frame (fun x hx => cellAt_append_lt _ _ (hlt x hx)) hs
  obtain ⟨h2, e2, len2, hs2, ct2, fr2⟩ := Seg_relink_next (some h.length) hs1 hnd
  have hnew : cellAt h2 h.length = some { data := none, next := none, prev := some t } := by
    rw [fr2 _ (by omega)]; exact cellAt_append_length _ _
  have e3 := construct_some v hnew
  have len3 : (h2.set h.length (some { data := some v, next := none, prev := some t })).length
      = h.length + 1 := by simp [len2, h1]
  refine ⟨h2, _, _, e2, load_some ct2, rfl, e3, ?_, len3, ?_, ?_, ?_, ?_⟩
  · exact load_some (by rw [cellAt_set_ne _ _ (by omega), ct2])
  · rw [Seg_append]
    refine ⟨Seg_frame (fun x hx => cellAt_set_ne _ _ (by have := hlt x hx; omega)) hs2, ?_,
      trivial⟩
    show cellAt _ h.length = _
    rw [cellAt_set_eq _ _ (by rw [len2]; simp [h1])]
    simp [lst_append]
  · rw [← List.append_nil ((A ++ [(t, td)]) ++ [(h.length, some v)])]
    rw [List.append_assoc, List.singleton_append, nodup_addrs_middle]
    simp only [List.append_nil]
    exact ⟨fun hm => Nat.lt_irrefl _ (hlt _ hm), hnd⟩
  · intro x hx hxl
    rw [cellAt_set_ne _ _ (by omega), fr2 x hx]
    exact cellAt_append_lt _ _ hxl
  · intro x hx hxl
    rw [fr2 x hx]
    exact cellAt_append_lt _ _ hxl

/-! The constructor from a count and a value, the copy loop and the range `insert`. -/

/-- The loop of the count constructor appends `n` new nodes holding `v` after the last
node `t` of a segment. -/
theorem fill_loop_seg (v : T) {h : Heap T} {p q : Ptr} {A : List (Cell T)} {t : Nat}
    {td : Option T} (hs : Seg h p (A ++ [(t, td)]) q) (hnd : (addrs (A ++ [(t, td)])).Nodup)
    (n : Nat) :
    ∃ h' ms q', fill_loop v h (some t) n = .ok (h', lst (some t) (live ms)) ∧
      h'.length = h.length + n ∧
      Seg h' p ((A ++ [(t, td)]) ++ live ms) q' ∧
      (addrs ((A ++ [(t, td)]) ++ live ms)).Nodup ∧
      vals ms = List.replicate n v ∧
      (∀ a ∈ addrs (live ms), h.length ≤ a) ∧
      ∀ x, x ≠ t → x < h.length → cellAt h' x = cellAt h x := by
  induction n generalizing h A t td q with
  | zero =>
    exact ⟨h, [], q, rfl, rfl, by simpa using hs, by simpa using hnd, rfl, by simp,
      fun _ _ _ => rfl⟩
  | succ n ih =>
    obtain ⟨h2, h3, n2, e2, l2, hn2, e3, l3, len3, hs3, hnd3, fr3, -⟩ :=
      append_node_seg v hs hnd
    obtain ⟨h', ms, q', e, len, hs', hnd', hv, hge, fr⟩ := ih hs3 hnd3
    refine ⟨h', (h.length, v) :: ms, q', ?_, by rw [len, len3]; omega, by simpa using hs',
      by simpa using hnd', by simp [hv, List.replicate_succ], ?_, ?_⟩
    · simp only [fill_loop, new_Node, bind, Except.bind, e2, l2, hn2, e3, l3]
      exact e
    · intro a ha
      simp only [live_cons, addrs_cons, List.mem_cons] at ha
      rcases ha with rfl | ha
      · exact Nat.le_refl _
      · have := hge a ha; omega
    · intro x hx hxl
      rw [fr x (by omega) (by omega), fr3 x hx hxl]

/-- The two statements `tmp->next = _back; _back->prev = tmp;` close a chain that ends
at `tmp`. -/
theorem close_chain {h : Heap T} {f b : Nat} {ms : List (Nat × T)} {q' pb : Ptr}
    (hs : Seg h none ((f, none) :: live ms) q')
    (hnd : (addrs (((f, none) : Cell T) :: live ms)).Nodup)
    (hb : cellAt h b = some { data := none, next := none, prev := pb })
    (hbn : b ∉ addrs (((f, none) : Cell T) :: live ms)) :
    ∃ h1 h2, set_next h (lst (some f) (live ms)) (some b) = .ok h1 ∧
      set_prev h1 (some b) (lst (some f) (live ms)) = .ok h2 ∧
      h2.length = h.length ∧
      Seg h2 none (chain f ms b) none ∧ (addrs (chain f ms b)).Nodup ∧
      ∀ x, some x ≠ lst (some f) (live ms) → x ≠ b → cellAt h2 x = cellAt h x := by
  obtain ⟨A, ⟨t, td⟩, hA⟩ : ∃ A c, ((f, none) : Cell T) :: live ms = A ++ [c] := by
    rcases List.eq_nil_or_concat (((f, none) : Cell T) :: live ms) with e | ⟨A, c, e⟩
    · exact absurd e (List.cons_ne_nil _ _)
    · exact ⟨A, c, by simpa using e⟩
  have hl : lst (some f) (live ms) = some t := by
    have : lst none (((f, none) : Cell T) :: live ms) = some t := by
      rw [hA, lst_append]; rfl
    simpa using this
  rw [hA] at hs hnd hbn
  obtain ⟨h1, e1, len1, hs1, ct, fr1⟩ := Seg_relink_next (some b) hs hnd
  have hbt : b ≠ t := by
    intro e; apply hbn; simp [e]
  have hb1 : cellAt h1 b = some { data := none, next := none, prev := pb } := by
    rw [fr1 b hbt, hb]
  obtain ⟨h2, e2, len2, cb, fr2⟩ := set_prev_spec (some t) hb1
  have hch : chain f ms b = (A ++ [(t, td)]) ++ [(b, none)] := by
    rw [← hA]; simp [chain]
  refine ⟨h1, h2, by rw [hl]; exact e1, by rw [hl]; exact e2, by rw [len2, len1], ?_, ?_, ?_⟩
  · rw [hch, Seg_append]
    refine ⟨Seg_frame (fun x hx => fr2 x (fun e => hbn (e ▸ hx))) hs1, ?_, trivial⟩
    show cellAt h2 b = _
    rw [cb, lst_append]; rfl
  · rw [hch, ← List.append_nil ((A ++ [(t, td)]) ++ [(b, none)]), List.append_assoc,
      List.singleton_append, nodup_addrs_middle]
    simp only [List.append_nil]
    exact ⟨hbn, hnd⟩
  · intro x hx hxb
    rw [hl] at hx
    rw [fr2 x hxb, fr1 x (fun e => hx (by rw [e]))]

/-- The count constructor builds a well-formed list of `n` nodes holding `v`. -/
theorem ctor_count_wf (h : Heap T) (n : Nat) (v : T) (hn : n < SIZE_MOD) :
    ∃ h' l f ms b, List_count h n v = .ok (h', l) ∧ Wf h' l f ms b ∧
      vals ms = List.replicate n v ∧ h'.length = h.length + 2 + n ∧
      (∀ a ∈ addrs (chain f ms b), h.length ≤ a) ∧
      ∀ a, a < h.length → cellAt h' a = cellAt h a := by
  obtain ⟨h1, e1, len1, w1, fr1⟩ := ctor_wf h
  by_cases hz : n = 0
  · subst hz
    refine ⟨h1, _, _, [], _, ?_, w1, rfl, by rw [len1], ?_, fr1⟩
    · simp [List_count, e1, bind, Except.bind, pure, Except.pure]
    · intro a ha
      simp [chain] at ha
      omega
  · have hpos : n > 0 := Nat.pos_of_ne_zero hz
    obtain ⟨cf, hs0, cb, hfb, -⟩ := w1.cells
    simp only [posOf_nil, live_nil, Seg_nil, lst_nil] at cf cb
    have hs1 : Seg h1 none ([] ++ [((h.length, none) : Cell T)]) (some (h.length + 1)) :=
      ⟨cf, trivial⟩
    obtain ⟨h2, ms, q', e2, len2, hs2, hnd2, hv, hge, fr2⟩ :=
      fill_loop_seg v hs1 (by simp) n
    simp only [List.nil_append, List.singleton_append] at hs2 hnd2
    have hbn : h.length + 1 ∉ addrs (((h.length, none) : Cell T) :: live ms) := by
      simp only [addrs_cons, List.mem_cons, not_or]
      refine ⟨by omega, fun hm => ?_⟩
      have := hge _ hm
      omega
    have cb2 : cellAt h2 (h.length + 1)
        = some { data := none, next := none, prev := some h.length } := by
      rw [fr2 _ (by omega) (by omega), cb]
    obtain ⟨h3, h4, e3, e4, len4, hs4, hnd4, fr4⟩ := close_chain hs2 hnd2 cb2 hbn
    have hlen : ms.length = n := by
      have := congrArg List.length hv
      simpa using this
    refine ⟨h4, LList.mk (some h.length) (some (h.length + 1)) n, h.length, ms, h.length + 1,
      ?_, ⟨rfl, rfl, hlen.symm, by rw [hlen]; exact hn, hnd4, hs4⟩, hv,
      by rw [len4, len2, len1], ?_, ?_⟩
    · simp only [List_count, e1, bind, Except.bind, if_pos hpos, e2, e3, e4]
      rfl
    · intro a ha
      rw [mem_chain_iff] at ha
      rcases ha with rfl | ha | rfl
      · exact Nat.le_refl _
      · have := hge a ha; omega
      · omega
    · intro a ha
      obtain ⟨t, ht, hm⟩ := lst_mem h.length (live ms)
      rw [fr4 a ?_ (by omega), fr2 a (by omega) (by omega), fr1 a ha]
      rw [ht]
      intro e
      injection e with e
      rcases hm with rfl | hm
      · omega
      · have := hge _ hm; omega

/-- The copy loop appends one new node for each node of the source segment, holding a
copy of its value, and leaves the source alone. -/
theorem copy_loop_seg {h : Heap T} {p q : Ptr} {A : List (Cell T)} {t : Nat} {td : Option T}
    (hs : Seg h p (A ++ [(t, td)]) q) (hnd : (addrs (A ++ [(t, td)])).Nodup)
    {ps : Ptr} {ss : List (Nat × T)} {ob : Nat}
    (hsrc : Seg h ps (live ss) (some ob)) (hob : ob ∉ addrs (live ss))
    (hts : t ∉ addrs (live ss)) (fuel : Nat) (hf : ss.length < fuel) :
    ∃ h' ms q', copy_loop (some ob) h (some t) (posOf ss ob) fuel
        = .ok (h', lst (some t) (live ms)) ∧
      h'.length = h.length + ss.length ∧
      Seg h' p ((A ++ [(t, td)]) ++ live ms) q' ∧
      (addrs ((A ++ [(t, td)]) ++ live ms)).Nodup ∧
      vals ms = vals ss ∧
      (∀ a ∈ addrs (live ms), h.length ≤ a) ∧
      ∀ x, x ≠ t → x < h.length → cellAt h' x = cellAt h x := by
  induction ss generalizing h A t td q ps fuel with
  | nil =>
    obtain ⟨fuel, rfl⟩ : ∃ k, fuel = k + 1 := ⟨fuel - 1, by simp at hf; omega⟩
    refine ⟨h, [], q, ?_, rfl, by simpa using hs, by simpa using hnd, rfl, by simp,
      fun _ _ _ => rfl⟩
    simp [copy_loop, pure, Except.pure]
  | cons s ss ih =>
    obtain ⟨fuel, rfl⟩ : ∃ k, fuel = k + 1 := ⟨fuel - 1, by omega⟩
    obtain ⟨sa, sv⟩ := s
    simp only [live_cons, Seg_cons, addrs_cons, List.mem_cons, not_or] at hsrc hob hts
    have hsa_lt : sa < h.length := cellAt_lt hsrc.1
    have hne : (some sa : Ptr) ≠ some ob := by
      intro e; injection e with e; exact hob.1 e.symm
    obtain ⟨h2, h3, n2, e2, l2, hn2, e3, l3, len3, hs3, hnd3, fr3, fr2⟩ :=
      append_node_seg sv hs hnd
    have hsa2 : cellAt h2 sa = _ := (fr2 sa (Ne.symm hts.1) hsa_lt).trans hsrc.1
    have hsa3 : cellAt h3 sa = _ := (fr3 sa (Ne.symm hts.1) hsa_lt).trans hsrc.1
    have hlt_ss := Seg_lt hsrc.2
    have hsrc3 : Seg h3 (some sa) (live ss) (some ob) :=
      Seg_frame (fun x hx => fr3 x (fun e => hts.2 (e ▸ hx)) (hlt_ss x hx)) hsrc.2
    obtain ⟨h', ms, q', e, len, hs', hnd', hv, hge, fr⟩ := ih hs3 hnd3 hsrc3 hob.2
      (fun hm => Nat.lt_irrefl _ (hlt_ss _ hm)) fuel (by simp at hf; omega)
    refine ⟨h', (h.length, sv) :: ms, q', ?_, ?_, by simpa using hs',
      by simpa using hnd', by simp [hv], ?_, ?_⟩
    · simp only [copy_loop, posOf_cons, if_neg hne, new_Node, bind, Except.bind, e2, l2, hn2,
        deref_some hsa2 rfl, e3, l3, load_some hsa3]
      exact e
    · rw [len, len3]; simp only [List.length_cons]; omega
    · intro a ha
      simp only [live_cons, addrs_cons, List.mem_cons] at ha
      rcases ha with rfl | ha
      · exact Nat.le_refl _
      · have := hge a ha; omega
    · intro x hx hxl
      rw [fr x (by omega) (by omega), fr3 x hx hxl]

/-- The statements shared by the copy constructor and copy assignment, run on an empty
destination with sentinels `f` and `b` and a well-formed source that does not
contain them. -/
theorem copy_body_wf {h : Heap T} {l src : LList} {f b fs bs : Nat} {ss : List (Nat × T)}
    {qf pb : Ptr} (hlf : l._front = some f) (hlb : l._back = some b) (hfb : f ≠ b)
    (cf : cellAt h f = some { data := none, next := qf, prev := none })
    (cb : cellAt h b = some { data := none, next := none, prev := pb })
    (w : Wf h src fs ss bs) (hfs : f ∉ addrs (chain fs ss bs))
    (fuel : Nat) (hf : ss.length < fuel) :
    ∃ h' ms, copy_body fuel h l src = .ok h' ∧ h'.length = h.length + ss.length ∧
      Seg h' none (chain f ms b) none ∧ (addrs (chain f ms b)).Nodup ∧
      vals ms = vals ss ∧ (∀ a ∈ addrs (live ms), h.length ≤ a) ∧
      ∀ x, x ≠ f → x ≠ b → x < h.length → cellAt h' x = cellAt h x := by
  obtain ⟨cfs, hsrc, -, -, -, hbs, -⟩ := w.cells
  have hs0 : Seg h none ([] ++ [((f, none) : Cell T)]) qf := ⟨cf, trivial⟩
  obtain ⟨h1, ms, q', e1, len1, hs1, hnd1, hv, hge, fr1⟩ :=
    copy_loop_seg hs0 (by simp) hsrc hbs (fun hm => hfs (mem_chain_live _ _ _ hm)) fuel hf
  simp only [List.nil_append, List.singleton_append] at hs1 hnd1
  have hblt : b < h.length := cellAt_lt cb
  have hbn : b ∉ addrs (((f, none) : Cell T) :: live ms) := by
    simp only [addrs_cons, List.mem_cons, not_or]
    refine ⟨Ne.symm hfb, fun hm => ?_⟩
    have := hge _ hm
    omega
  have cb1 : cellAt h1 b = some { data := none, next := none, prev := pb } := by
    rw [fr1 b (Ne.symm hfb) hblt, cb]
  obtain ⟨h2, h3, e2, e3, len3, hs3, hnd3, fr3⟩ := close_chain hs1 hnd1 cb1 hbn
  refine ⟨h3, ms, ?_, by rw [len3, len1], hs3, hnd3, hv, hge, ?_⟩
  · simp only [copy_body, hlf, hlb, w.front_eq, w.back_eq, load_some cfs, bind, Except.bind, e1,
      e2]
    exact e3
  · intro x hxf hxb hxl
    obtain ⟨t, ht, hm⟩ := lst_mem f (live ms)
    rw [fr3 x ?_ hxb, fr1 x hxf hxl]
    rw [ht]
    intro e
    injection e with e
    rcases hm with rfl | hm
    · exact hxf e
    · have := hge _ hm; omega

/-- The loop of the range `insert` puts the values, in order, before the position. -/
theorem insert_rest_wf {h : Heap T} {l : LList} {f b : Nat} (xs ys : List (Nat × T))
    (vs : List T) (w : Wf h l f (xs ++ ys) b)
    (hsz : (xs ++ ys).length + vs.length < SIZE_MOD) :
    ∃ h' l' ms, insert_rest h l (posOf ys b) vs = .ok (h', l') ∧
      h'.length = h.length + vs.length ∧
      Wf h' l' f (xs ++ ms ++ ys) b ∧ vals ms = vs ∧
      (∀ a ∈ addrs (live ms), h.length ≤ a) ∧
      ∀ a, a ∉ addrs (chain f (xs ++ ys) b) → a < h.length → cellAt h' a = cellAt h a := by
  induction vs generalizing h l xs with
  | nil =>
    exact ⟨h, l, [], rfl, rfl, by simpa using w, rfl, by simp, fun _ _ _ => rfl⟩
  | cons v vs ih =>
    simp only [List.length_cons] at hsz
    obtain ⟨h1, l1, e1, len1, w1, fr1⟩ := insert_wf xs ys v w (by omega)
    have w1' : Wf h1 l1 f ((xs ++ [(h.length, v)]) ++ ys) b := by simpa using w1
    obtain ⟨h2, l2, ms, e2, len2, w2, hv, hge, fr2⟩ := ih (xs ++ [(h.length, v)]) w1'
      (by simp only [List.length_append, List.length_cons, List.length_nil] at hsz ⊢; omega)
    refine ⟨h2, l2, (h.length, v) :: ms, ?_, by rw [len2, len1]; simp; omega,
      by simpa using w2, by simp [hv], ?_, ?_⟩
    · simp only [insert_rest, e1, bind, Except.bind]
      exact e2
    · intro a ha
      simp only [live_cons, addrs_cons, List.mem_cons] at ha
      rcases ha with rfl | ha
      · exact Nat.le_refl _
      · have := hge a ha; omega
    · intro a ha hal
      obtain ⟨t, ht, hmt⟩ := lst_mem_chain f b xs ys
      obtain ⟨u, hu, hmu⟩ := posOf_mem_chain f b xs ys
      rw [fr2 a ?_ (by omega), fr1 a ?_ ?_ (by omega)]
      · rw [ht]; intro e; injection e with e; exact ha (e ▸ hmt)
      · rw [hu]; intro e; injection e with e; exact ha (e ▸ hmu)
      · intro hm
        simp only [mem_chain_iff, live_append, addrs_append, List.mem_append, live_cons,
          live_nil, addrs_cons, addrs_nil, List.mem_singleton] at hm ha
        rcases hm with rfl | (⟨hm | hm⟩ | hm) | rfl
        · exact ha (Or.inl rfl)
        · exact ha (Or.inr (Or.inl (Or.inl hm)))
        · omega
        · exact ha (Or.inr (Or.inl (Or.inr hm)))
        · exact ha (Or.inr (Or.inr rfl))

/-- The range `insert` on a well-formed list, before the first node of `ys`. -/
theorem insert_range_wf {h : Heap T} {l : LList} {f b : Nat} (xs ys : List (Nat × T))
    (s : List T) (w : Wf h l f (xs ++ ys) b)
    (hsz : (xs ++ ys).length + s.length < SIZE_MOD) :
    ∃ h' l' ms, insert_range h l (posOf ys b) s = .ok (h', l', posOf (ms ++ ys) b) ∧
      h'.length = h.length + s.length ∧
      Wf h' l' f (xs ++ ms ++ ys) b ∧ vals ms = s ∧
      (∀ a ∈ addrs (live ms), h.length ≤ a) ∧
      (s = [] → h' = h ∧ l' = l) ∧
      ∀ a, a ∉ addrs (chain f (xs ++ ys) b) → a < h.length → cellAt h' a = cellAt h a := by
  cases s with
  | nil =>
    exact ⟨h, l, [], rfl, rfl, by simpa using w, rfl, by simp, fun _ => ⟨rfl, rfl⟩,
      fun _ _ _ => rfl⟩
  | cons v vs =>
    obtain ⟨h', l', ms, e, len, w', hv, hge, fr⟩ := insert_rest_wf xs ys (v :: vs) w hsz
    obtain ⟨h1, l1, e1, -, -, -⟩ := insert_wf xs ys v w
      (by simp only [List.length_cons] at hsz; omega)
    cases ms with
    | nil => simp at hv
    | cons m ms =>
      simp only [vals_cons, List.cons.injEq] at hv
      simp only [insert_rest, e1, bind, Except.bind] at e
      have hm1 : m.1 = h.length := by
        -- the first inserted node is the one `insert` returns
        obtain ⟨h1', l1', e1', len1', w1', -⟩ := insert_wf xs ys v w
          (by simp only [List.length_cons] at hsz; omega)
        rw [e1] at e1'
        injection e1' with e1'
        simp only [Prod.mk.injEq] at e1'
        obtain ⟨rfl, rfl, -⟩ := e1'
        have w1'' : Wf h1 l1 f ((xs ++ [(h.length, v)]) ++ ys) b := by simpa using w1'
        obtain ⟨h2, l2, ms2, e2, -, w2, hv2, hge2, -⟩ := insert_rest_wf
          (xs ++ [(h.length, v)]) ys vs w1''
          (by simp only [List.length_append, List.length_cons, List.length_nil] at hsz ⊢; omega)
        rw [e] at e2
        injection e2 with e2
        simp only [Prod.mk.injEq] at e2
        obtain ⟨rfl, rfl⟩ := e2
        have hn1 := w'.nodup
        have hs1 := w'.seg
        have hs2 := w2.seg
        -- both chains are held by the same heap: compare the cell after the end of `xs`
        have c1 : chain f (xs ++ m :: ms ++ ys) b
            = ((f, none) :: live xs) ++ (m.1, some m.2) :: (live (ms ++ ys) ++ [(b, none)]) := by
          simp [chain]
        have c2 : chain f (xs ++ [(h.length, v)] ++ ms2 ++ ys) b
            = ((f, none) :: live xs) ++ (h.length, some v) ::
              (live (ms2 ++ ys) ++ [(b, none)]) := by
          simp [chain]
        rw [c1] at hs1
        rw [c2] at hs2
        rcases List.eq_nil_or_concat (((f, none) : Cell T) :: live xs) with e0 | ⟨A, c, e0⟩
        · exact absurd e0 (List.cons_ne_nil _ _)
        · have e0' : ((f, none) : Cell T) :: live xs = A ++ [c] := by simpa using e0
          rw [e0'] at hs1 hs2
          have k1 := Seg_mid (c := c) (A := A) (by simpa using hs1)
          have k2 := Seg_mid (c := c) (A := A) (by simpa using hs2)
          rw [k1] at k2
          simp only [hd_cons, Option.some.injEq, Node.mk.injEq, true_and] at k2
          exact k2.1
      refine ⟨h', l', m :: ms, ?_, len, w', by simp [hv], hge, by simp, fr⟩
      simp only [insert_range, e1, bind, Except.bind, e]
      simp only [List.cons_append, posOf_cons, hm1]
      rfl

/-! Copy construction and copy assignment; the statements of a move. -/

/-- Chains at addresses from `k` on and chains at addresses below `k` are apart. -/
theorem Apart_of_ge {f1 b1 f2 b2 : Nat} {ns1 ns2 : List (Nat × T)} (k : Nat)
    (h1 : ∀ a ∈ addrs (chain f1 ns1 b1), k ≤ a) (h2 : ∀ a ∈ addrs (chain f2 ns2 b2), a < k) :
    Apart f1 ns1 b1 f2 ns2 b2 := by
  intro a ha1 ha2
  have := h1 a ha1
  have := h2 a ha2
  omega

theorem Apart_symm {f1 b1 f2 b2 : Nat} {ns1 ns2 : List (Nat × T)}
    (hap : Apart f1 ns1 b1 f2 ns2 b2) : Apart f2 ns2 b2 f1 ns1 b1 :=
  List.Disjoint.symm hap

/-- The copy constructor builds a well-formed list with the values of the source out
of new nodes and leaves the rest of the heap alone. -/
theorem List_copy_wf {h : Heap T} {src : LList} {fs bs : Nat} {ss : List (Nat × T)}
    (w : Wf h src fs ss bs) (fuel : Nat) (hf : ss.length < fuel) :
    ∃ h' dst ms, List_copy fuel h src = .ok (h', dst) ∧
      h'.length = h.length + 2 + ss.length ∧
      Wf h' dst h.length ms (h.length + 1) ∧ vals ms = vals ss ∧ size dst = size src ∧
      (∀ a ∈ addrs (chain h.length ms (h.length + 1)), h.length ≤ a) ∧
      ∀ a, a < h.length → cellAt h' a = cellAt h a := by
  let n0 : Node T := { data := none, next := none, prev := none }
  let h0 : Heap T := (h ++ [some n0]) ++ [some n0]
  have len0 : h0.length = h.length + 2 := by simp [h0]
  have fr0 : ∀ a, a < h.length → cellAt h0 a = cellAt h a := by
    intro a ha
    rw [cellAt_append_lt _ _ (by simp; omega), cellAt_append_lt _ _ ha]
  have cf : cellAt h0 h.length = some n0 := by
    rw [cellAt_append_lt _ _ (by simp)]; exact cellAt_append_length _ _
  have cb : cellAt h0 (h.length + 1) = some n0 := by
    have := cellAt_append_length (h ++ [some n0]) (some n0)
    rw [List.length_append, List.length_singleton] at this
    exact this
  have w0 : Wf h0 src fs ss bs := Wf_frame w (fun a ha => fr0 a (w.lt a ha))
  have hfs : h.length ∉ addrs (chain fs ss bs) := fun hm => Nat.lt_irrefl _ (w.lt _ hm)
  obtain ⟨h', ms, e, len, hs, hnd, hv, hge, fr⟩ :=
    copy_body_wf (l := LList.mk (some h.length) (some (h.length + 1)) (size src)) rfl rfl
      (by omega) cf cb w0 hfs fuel hf
  have hlen : ms.length = ss.length := by
    have := congrArg List.length hv
    simpa using this
  refine ⟨h', LList.mk (some h.length) (some (h.length + 1)) (size src), ms, ?_,
    by rw [len, len0], ⟨rfl, rfl, ?_, ?_, hnd, hs⟩, hv, rfl, ?_, ?_⟩
  · simp only [List_copy, new_Node, bind, Except.bind, List.length_append,
      List.length_singleton]
    have e' : copy_body fuel
        ((h ++ [some { data := none, next := none, prev := none }]) ++
          [some { data := none, next := none, prev := none }])
        (LList.mk (some h.length) (some (h.length + 1)) (size src)) src = .ok h' := e
    rw [e']
    rfl
  · show size src = ms.length
    rw [hlen, size, w.size_eq]
  · rw [hlen]; exact w.size_lt
  · intro a ha
    rw [mem_chain_iff] at ha
    rcases ha with rfl | ha | rfl
    · exact Nat.le_refl _
    · have := hge a ha; omega
    · omega
  · intro a ha
    rw [fr a (by omega) (by omega) (by omega), fr0 a ha]

/-- The method `clear` on a well-formed list frees its interior nodes and leaves the
rest of the heap alone. -/
theorem clear_wf_frame {h : Heap T} {l : LList} {f b : Nat} {ns : List (Nat × T)}
    (w : Wf h l f ns b) (fuel : Nat) (hf : ns.length < fuel) :
    ∃ h' l', clear fuel h l = .ok (h', l') ∧ h'.length = h.length ∧ Wf h' l' f [] b ∧
      (∀ a ∈ addrs (live ns), cellAt h' a = none) ∧
      ∀ a, a ∉ addrs (chain f ns b) → cellAt h' a = cellAt h a := by
  have w0 : Wf h l f ([] ++ ns ++ []) b := by simpa using w
  obtain ⟨h', l', e, len, w', fy, fr⟩ := erase_range_wf [] ns [] w0 fuel hf
  refine ⟨h', l', ?_, len, by simpa using w', fy, by simpa using fr⟩
  simp only [List.append_nil, posOf_nil] at e
  simp [clear, begin_wf w, end_wf w, e, bind, Except.bind, pure, Except.pure]

/-- Copy assignment to a distinct well-formed list that shares no node with the
source. -/
theorem copy_assign_wf {h : Heap T} {dst src : LList} {fd bd fs bs : Nat}
    {nd ss : List (Nat × T)} (p q : Nat) (hpq : p ≠ q)
    (wd : Wf h dst fd nd bd) (ws : Wf h src fs ss bs) (hap : Apart fd nd bd fs ss bs)
    (fuel : Nat) (hfd : nd.length < fuel) (hfs : ss.length < fuel) :
    ∃ h' dst' ms, copy_assign fuel h p q dst src = .ok (h', dst') ∧
      Wf h' dst' fd ms bd ∧ vals ms = vals ss ∧ size dst' = size src ∧
      Wf h' src fs ss bs ∧ Apart fd ms bd fs ss bs ∧
      (∀ a ∈ addrs (live nd), cellAt h' a = none) ∧
      ∀ a, a ∉ addrs (chain fd nd bd) → a < h.length → cellAt h' a = cellAt h a := by
  obtain ⟨h1, l1, e1, len1, w1, ffree, fr1⟩ := clear_wf_frame wd fuel hfd
  have hsd : ∀ a ∈ addrs (chain fs ss bs), a ∉ addrs (chain fd nd bd) :=
    fun a ha hd => hap hd ha
  have ws1 : Wf h1 src fs ss bs := Wf_frame ws (fun a ha => fr1 a (hsd a ha))
  obtain ⟨cf, -, cb, hfb, -⟩ := w1.cells
  simp only [posOf_nil, live_nil, lst_nil] at cf cb
  have hfd_src : fd ∉ addrs (chain fs ss bs) := fun hm => hap (mem_chain_front _ _ _) hm
  have hbd_src : bd ∉ addrs (chain fs ss bs) := fun hm => hap (mem_chain_back _ _ _) hm
  obtain ⟨h2, ms, e2, len2, hs2, hnd2, hv, hge, fr2⟩ :=
    copy_body_wf (l := LList.mk l1._front l1._back (size src)) w1.front_eq w1.back_eq hfb cf cb
      ws1 hfd_src fuel hfs
  have hlen : ms.length = ss.length := by
    have := congrArg List.length hv
    simpa using this
  have ws2 : Wf h2 src fs ss bs := by
    refine Wf_frame ws1 (fun a ha => fr2 a ?_ ?_ (ws1.lt a ha))
    · rintro rfl; exact hfd_src ha
    · rintro rfl; exact hbd_src ha
  refine ⟨h2, LList.mk l1._front l1._back (size src), ms, ?_,
    ⟨w1.front_eq, w1.back_eq, ?_, ?_, hnd2, hs2⟩, hv, rfl, ws2, ?_, ?_, ?_⟩
  · simp only [copy_assign, if_pos hpq, e1, bind, Except.bind, e2]
    rfl
  · show size src = ms.length
    rw [hlen, size, ws.size_eq]
  · rw [hlen]; exact ws.size_lt
  · intro a ha1 ha2
    rw [mem_chain_iff] at ha1
    rcases ha1 with rfl | ha1 | rfl
    · exact hfd_src ha2
    · have := hge a ha1
      have := ws1.lt a ha2
      omega
    · exact hbd_src ha2
  · intro a ha
    have hlt : a < h1.length := by
      rw [len1]; exact wd.lt a (mem_chain_live _ _ _ ha)
    have hn := wd.nodup
    have hafd : a ≠ fd := by
      rintro rfl
      simp only [chain, addrs_cons, List.nodup_cons, addrs_append, List.mem_append] at hn
      exact hn.1 (Or.inl ha)
    have habd : a ≠ bd := by
      rintro rfl
      exact wd.cells.2.2.2.2.2.1 ha
    rw [fr2 a hafd habd hlt, ffree a ha]
  · intro a ha hal
    rw [mem_chain_iff] at ha
    simp only [not_or] at ha
    rw [fr2 a ha.1 ha.2.2 (by omega), fr1 a (by rw [mem_chain_iff]; tauto)]

/-- The statements shared by the move constructor and move assignment, run on an empty
destination with sentinels `f` and `b` and a well-formed source that does not
contain them: the destination gets the interior nodes, the source is empty. -/
theorem move_body_wf {h : Heap T} {l src : LList} {f b fs bs : Nat} {ss : List (Nat × T)}
    {qf pb : Ptr} (hlf : l._front = some f) (hlb : l._back = some b) (hfb : f ≠ b)
    (cf : cellAt h f = some { data := none, next := qf, prev := none })
    (cb : cellAt h b = some { data := none, next := none, prev := pb })
    (w : Wf h src fs ss bs) (hf_src : f ∉ addrs (chain fs ss bs))
    (hb_src : b ∉ addrs (chain fs ss bs)) :
    ∃ h', move_body h l src = .ok h' ∧ h'.length = h.length ∧
      Seg h' none (chain f ss b) none ∧ (addrs (chain f ss b)).Nodup ∧
      Seg h' none (chain fs [] bs) none ∧
      ∀ x, x ≠ f → x ≠ b → x ∉ addrs (chain fs ss bs) → cellAt h' x = cellAt h x := by
  obtain ⟨cfs, hsrc, cbs, hfsbs, hfs_n, hbs_n, hnd_s⟩ := w.cells
  simp only [mem_chain_iff, not_or] at hf_src hb_src
  obtain ⟨hf_fs, hf_n, hf_bs⟩ := hf_src
  obtain ⟨hb_fs, hb_n, hb_bs⟩ := hb_src
  have hnd_new : (addrs (chain f ss b)).Nodup := by
    simp only [chain, addrs_cons, addrs_append, addrs_nil, List.nodup_cons, List.mem_append,
      List.mem_singleton, not_or, List.nodup_append, List.nodup_nil, List.disjoint_singleton,
      true_and, and_true, List.not_mem_nil, not_false_eq_true]
    exact ⟨⟨hf_n, hfb⟩, hnd_s, hb_n⟩
  cases ss with
  | nil =>
    simp only [posOf_nil, live_nil, lst_nil, Seg_nil] at cfs cbs
    -- `_front->next = other._front->next;`
    obtain ⟨h1, e1, len1, c1, fr1⟩ := set_next_spec (some bs) cf
    -- `_front->next->prev = _front;`
    have cbs1 : cellAt h1 bs = _ := (fr1 bs (Ne.symm hf_bs)).trans cbs
    obtain ⟨h2, e2, len2, c2, fr2⟩ := set_prev_spec (some f) cbs1
    -- `_back->prev = other._back->prev;`
    have cb2 : cellAt h2 b = _ := ((fr2 b hb_bs).trans (fr1 b (Ne.symm hfb))).trans cb
    obtain ⟨h3, e3, len3, c3, fr3⟩ := set_prev_spec (some f) cb2
    -- `_back->prev->next = _back;`
    have cf3 : cellAt h3 f = _ := ((fr3 f hfb).trans (fr2 f hf_bs)).trans c1
    obtain ⟨h4, e4, len4, c4, fr4⟩ := set_next_spec (some b) cf3
    -- `other._front->next = other._back;`
    have cfs4 : cellAt h4 fs = _ :=
      ((((fr4 fs (Ne.symm hf_fs)).trans (fr3 fs (Ne.symm hb_fs))).trans
        (fr2 fs hfsbs)).trans (fr1 fs (Ne.symm hf_fs))).trans cfs
    obtain ⟨h5, e5, len5, c5, fr5⟩ := set_next_spec (some bs) cfs4
    -- `other._back->prev = other._front;`
    have cbs5 : cellAt h5 bs = _ :=
      (((fr5 bs (Ne.symm hfsbs)).trans (fr4 bs (Ne.symm hf_bs))).trans
        (fr3 bs (Ne.symm hb_bs))).trans c2
    obtain ⟨h6, e6, len6, c6, fr6⟩ := set_prev_spec (some fs) cbs5
    refine ⟨h6, ?_, by rw [len6, len5, len4, len3, len2, len1], ?_, hnd_new, ?_, ?_⟩
    · simp only [move_body, hlf, hlb, w.front_eq, w.back_eq, load_some cfs, bind, Except.bind,
        e1, load_some c1, e2, load_some c2, e3, load_some c3, e4, e5]
      exact e6
    · simp only [chain, live_nil, List.nil_append, Seg_cons, hd_cons, hd_nil, Seg_nil, and_true]
      constructor
      · show cellAt h6 f = _
        rw [fr6 f hf_bs, fr5 f hf_fs, c4]
      · show cellAt h6 b = _
        rw [fr6 b hb_bs, fr5 b hb_fs, fr4 b (Ne.symm hfb), c3]
    · simp only [chain, live_nil, List.nil_append, Seg_cons, hd_cons, hd_nil, Seg_nil, and_true]
      constructor
      · show cellAt h6 fs = _
        rw [fr6 fs hfsbs, c5]
      · show cellAt h6 bs = _
        rw [c6]
    · intro x hxf hxb hx
      simp only [mem_chain_iff, live_nil, addrs_nil, List.not_mem_nil, false_or, not_or] at hx
      rw [fr6 x hx.2, fr5 x hx.1, fr4 x hxf, fr3 x hxb, fr2 x hx.2, fr1 x hxf]
  | cons s1 rest =>
    obtain ⟨init, sk, hsk⟩ : ∃ init sk, s1 :: rest = init ++ [sk] := by
      rcases List.eq_nil_or_concat (s1 :: rest) with e | ⟨init, sk, e⟩
      · exact absurd e (List.cons_ne_nil _ _)
      · exact ⟨init, sk, by simpa using e⟩
    have hlst : ∀ p : Ptr, lst p (live (s1 :: rest)) = some sk.1 := by
      intro p; rw [hsk]; exact lst_live_concat p init sk
    have hs1m : s1.1 ∈ addrs (live (s1 :: rest)) := by simp
    have hskm : sk.1 ∈ addrs (live (s1 :: rest)) := by rw [hsk]; simp
    have hne {x y : Nat} (hy : y ∈ addrs (live (s1 :: rest)))
        (hx : x ∉ addrs (live (s1 :: rest))) : x ≠ y := fun e => hx (e ▸ hy)
    rw [hlst] at cbs
    simp only [posOf_cons] at cfs
    -- `_front->next = other._front->next;`
    obtain ⟨h1, e1, len1, c1, fr1⟩ := set_next_spec (some s1.1) cf
    -- `_front->next->prev = _front;`
    have hs_1 : Seg h1 (some fs) (live (s1 :: rest)) (some bs) :=
      Seg_frame (fun x hx => fr1 x (Ne.symm (hne hx hf_n))) hsrc
    obtain ⟨h2, e2, len2, hs_2, fr2⟩ := Seg_relink_prev (some f) hs_1 hnd_s
    simp only at e2 fr2
    -- `_back->prev = other._back->prev;`
    have cbs2 : cellAt h2 bs = _ :=
      ((fr2 bs (hne hs1m hbs_n)).trans (fr1 bs (Ne.symm hf_bs))).trans cbs
    have cb2 : cellAt h2 b = _ := ((fr2 b (hne hs1m hb_n)).trans (fr1 b (Ne.symm hfb))).trans cb
    obtain ⟨h3, e3, len3, c3, fr3⟩ := set_prev_spec (some sk.1) cb2
    -- `_back->prev->next = _back;`
    have hs_3 : Seg h3 (some f) (live init ++ [(sk.1, some sk.2)]) (some bs) := by
      have := @Seg_frame _ _ h3 _ _ _ (fun x hx => fr3 x (Ne.symm (hne hx hb_n))) hs_2
      rw [hsk] at this
      simpa using this
    have hnd_3 : (addrs (live init ++ [((sk.1, some sk.2) : Cell T)])).Nodup := by
      have := hnd_s
      rw [hsk] at this
      simpa using this
    obtain ⟨h4, e4, len4, hs_4, -, fr4⟩ := Seg_relink_next (some b) hs_3 hnd_3
    -- `other._front->next = other._back;`
    have cfs4 : cellAt h4 fs = _ :=
      ((((fr4 fs (hne hskm hfs_n)).trans (fr3 fs (Ne.symm hb_fs))).trans
        (fr2 fs (hne hs1m hfs_n))).trans (fr1 fs (Ne.symm hf_fs))).trans cfs
    obtain ⟨h5, e5, len5, c5, fr5⟩ := set_next_spec (some bs) cfs4
    -- `other._back->prev = other._front;`
    have cbs5 : cellAt h5 bs = _ :=
      (((fr5 bs (Ne.symm hfsbs)).trans (fr4 bs (hne hskm hbs_n))).trans
        (fr3 bs (Ne.symm hb_bs))).trans cbs2
    obtain ⟨h6, e6, len6, c6, fr6⟩ := set_prev_spec (some fs) cbs5
    refine ⟨h6, ?_, by rw [len6, len5, len4, len3, len2, len1], ?_, hnd_new, ?_, ?_⟩
    · simp only [move_body, hlf, hlb, w.front_eq, w.back_eq, load_some cfs, bind, Except.bind,
        e1, load_some c1, e2, load_some cbs2, e3, load_some c3, e4, e5]
      exact e6
    · have hs_6 : Seg h6 (some f) (live (s1 :: rest)) (some b) := by
        have h46 : Seg h4 (some f) (live (s1 :: rest)) (some b) := by
          rw [hsk]; simpa using hs_4
        exact Seg_frame (fun x hx =>
          (fr6 x (Ne.symm (hne hx hbs_n))).trans (fr5 x (Ne.symm (hne hx hfs_n)))) h46
      simp only [chain, Seg_cons, Seg_append, hd_live_append, hd_cons, hd_nil, lst_cons, Seg_nil,
        and_true]
      refine ⟨?_, hs_6, ?_⟩
      · show cellAt h6 f = _
        rw [fr6 f hf_bs, fr5 f hf_fs, fr4 f (hne hskm hf_n), fr3 f hfb, fr2 f (hne hs1m hf_n),
          c1]
        rfl
      · show cellAt h6 b = _
        rw [fr6 b hb_bs, fr5 b hb_fs, fr4 b (hne hskm hb_n), c3, hlst]
    · simp only [chain, live_nil, List.nil_append, Seg_cons, hd_cons, hd_nil, Seg_nil, and_true]
      constructor
      · show cellAt h6 fs = _
        rw [fr6 fs hfsbs, c5]
      · show cellAt h6 bs = _
        rw [c6]
    · intro x hxf hxb hx
      simp only [mem_chain_iff, not_or] at hx
      rw [fr6 x hx.2.2, fr5 x hx.1, fr4 x (hne hskm hx.2.1), fr3 x hxb,
        fr2 x (hne hs1m hx.2.1), fr1 x hxf]

/-! Move construction and move assignment; operations on one of two lists; `push_front`, `pop_front` and `pop_back`. -/

theorem dec_some' {h : Heap T} {a : Nat} {n : Node T} (hc : cellAt h a = some n) :
    Iterator.dec h (some a) = .ok n.prev := by
  simp [Iterator.dec, load_some hc, bind, Except.bind, pure, Except.pure]

theorem Pair_symm {h : Heap T} {l1 l2 : LList} {f1 b1 f2 b2 : Nat} {ns1 ns2 : List (Nat × T)}
    (hp : Pair h l1 f1 ns1 b1 l2 f2 ns2 b2) : Pair h l2 f2 ns2 b2 l1 f1 ns1 b1 :=
  ⟨hp.2.1, hp.1, Apart_symm hp.2.2⟩

/-- The move constructor hands the interior nodes of the source to a new list with new
sentinels and leaves the source empty. -/
theorem List_move_wf {h : Heap T} {src : LList} {fs bs : Nat} {ss : List (Nat × T)}
    (w : Wf h src fs ss bs) :
    ∃ h' dst src', List_move h src = .ok (h', dst, src') ∧ h'.length = h.length + 2 ∧
      Pair h' dst h.length ss (h.length + 1) src' fs [] bs ∧
      size dst = size src ∧ size src' = 0 ∧
      ∀ x, x < h.length → x ∉ addrs (chain fs ss bs) → cellAt h' x = cellAt h x := by
  let n0 : Node T := { data := none, next := none, prev := none }
  let h0 : Heap T := (h ++ [some n0]) ++ [some n0]
  have len0 : h0.length = h.length + 2 := by simp [h0]
  have fr0 : ∀ a, a < h.length → cellAt h0 a = cellAt h a := by
    intro a ha
    rw [cellAt_append_lt _ _ (by simp; omega), cellAt_append_lt _ _ ha]
  have cf : cellAt h0 h.length = some n0 := by
    rw [cellAt_append_lt _ _ (by simp)]; exact cellAt_append_length _ _
  have cb : cellAt h0 (h.length + 1) = some n0 := by
    have := cellAt_append_length (h ++ [some n0]) (some n0)
    rw [List.length_append, List.length_singleton] at this
    exact this
  have w0 : Wf h0 src fs ss bs := Wf_frame w (fun a ha => fr0 a (w.lt a ha))
  have hfs : h.length ∉ addrs (chain fs ss bs) := fun hm => Nat.lt_irrefl _ (w.lt _ hm)
  have hbs : h.length + 1 ∉ addrs (chain fs ss bs) := fun hm => by
    have := w.lt _ hm; omega
  obtain ⟨h', e, len, hs, hnd, hs', fr⟩ :=
    move_body_wf (l := LList.mk (some h.length) (some (h.length + 1)) src._size) rfl rfl
      (by omega) cf cb w0 hfs hbs
  have hn := w.nodup
  refine ⟨h', LList.mk (some h.length) (some (h.length + 1)) src._size,
    LList.mk src._front src._back 0, ?_, by rw [len, len0], ⟨?_, ?_, ?_⟩, rfl, rfl, ?_⟩
  · simp only [List_move, new_Node, bind, Except.bind, List.length_append,
      List.length_singleton]
    have e' : move_body
        ((h ++ [some { data := none, next := none, prev := none }]) ++
          [some { data := none, next := none, prev := none }])
        (LList.mk (some h.length) (some (h.length + 1)) src._size) src = .ok h' := e
    rw [e']
    rfl
  · exact ⟨rfl, rfl, w.size_eq, w.size_lt, hnd, hs⟩
  · refine ⟨w.front_eq, w.back_eq, rfl, by simp [SIZE_MOD], ?_, hs'⟩
    simp only [chain, live_nil, List.nil_append, addrs_cons, addrs_nil, List.nodup_cons,
      List.mem_singleton, List.not_mem_nil, not_false_eq_true, List.nodup_nil, and_true]
    exact w.cells.2.2.2.1
  · intro a ha1 ha2
    simp only [mem_chain_iff, live_nil, addrs_nil, List.not_mem_nil, false_or] at ha2
    have hlt : a < h.length := by
      rcases ha2 with rfl | rfl
      · exact w.lt _ (mem_chain_front _ _ _)
      · exact w.lt _ (mem_chain_back _ _ _)
    rw [mem_chain_iff] at ha1
    rcases ha1 with rfl | ha1 | rfl
    · omega
    · have hnd' := w.cells
      rcases ha2 with rfl | rfl
      · exact hnd'.2.2.2.2.1 ha1
      · exact hnd'.2.2.2.2.2.1 ha1
    · omega
  · intro x hx hxs
    rw [fr x (by omega) (by omega) hxs, fr0 x hx]

/-- Move assignment to a distinct well-formed list that shares no node with the
source: the old nodes of the destination are freed, the destination gets the
interior nodes of the source, the source is left empty. -/
theorem move_assign_wf {h : Heap T} {dst src : LList} {fd bd fs bs : Nat}
    {nd ss : List (Nat × T)} (p q : Nat) (hpq : p ≠ q)
    (hp : Pair h dst fd nd bd src fs ss bs) (fuel : Nat) (hfd : nd.length < fuel) :
    ∃ h' dst' src', move_assign fuel h p q dst src = .ok (h', dst', src') ∧
      h'.length = h.length ∧
      Pair h' dst' fd ss bd src' fs [] bs ∧ size dst' = size src ∧ size src' = 0 ∧
      (∀ a ∈ addrs (live nd), cellAt h' a = none) ∧
      ∀ x, x ∉ addrs (chain fd nd bd) → x ∉ addrs (chain fs ss bs) →
        cellAt h' x = cellAt h x := by
  obtain ⟨wd, ws, hap⟩ := hp
  obtain ⟨h1, l1, e1, len1, w1, ffree, fr1⟩ := clear_wf_frame wd fuel hfd
  have hsd : ∀ a ∈ addrs (chain fs ss bs), a ∉ addrs (chain fd nd bd) :=
    fun a ha hd => hap hd ha
  have ws1 : Wf h1 src fs ss bs := Wf_frame ws (fun a ha => fr1 a (hsd a ha))
  obtain ⟨cf, -, cb, hfb, -⟩ := w1.cells
  simp only [posOf_nil, live_nil, lst_nil] at cf cb
  have hfd_src : fd ∉ addrs (chain fs ss bs) := fun hm => hap (mem_chain_front _ _ _) hm
  have hbd_src : bd ∉ addrs (chain fs ss bs) := fun hm => hap (mem_chain_back _ _ _) hm
  obtain ⟨h2, e2, len2, hs2, hnd2, hs2', fr2⟩ :=
    move_body_wf (l := LList.mk l1._front l1._back src._size) w1.front_eq w1.back_eq hfb cf cb
      ws1 hfd_src hbd_src
  refine ⟨h2, LList.mk l1._front l1._back src._size, LList.mk src._front src._back 0, ?_,
    by rw [len2, len1], ⟨?_, ?_, ?_⟩, rfl, rfl, ?_, ?_⟩
  · simp only [move_assign, if_pos hpq, e1, bind, Except.bind, e2]
    rfl
  · exact ⟨w1.front_eq, w1.back_eq, ws.size_eq, ws.size_lt, hnd2, hs2⟩
  · refine ⟨ws.front_eq, ws.back_eq, rfl, by simp [SIZE_MOD], ?_, hs2'⟩
    simp only [chain, live_nil, List.nil_append, addrs_cons, addrs_nil, List.nodup_cons,
      List.mem_singleton, List.not_mem_nil, not_false_eq_true, List.nodup_nil, and_true]
    exact ws.cells.2.2.2.1
  · intro a ha1 ha2
    simp only [mem_chain_iff, live_nil, addrs_nil, List.not_mem_nil, false_or] at ha2
    rw [mem_chain_iff] at ha1
    have hc := ws.cells
    rcases ha1 with rfl | ha1 | rfl
    · rcases ha2 with rfl | rfl
      · exact hfd_src (mem_chain_front _ _ _)
      · exact hfd_src (mem_chain_back _ _ _)
    · rcases ha2 with rfl | rfl
      · exact hc.2.2.2.2.1 ha1
      · exact hc.2.2.2.2.2.1 ha1
    · rcases ha2 with rfl | rfl
      · exact hbd_src (mem_chain_front _ _ _)
      · exact hbd_src (mem_chain_back _ _ _)
  · intro a ha
    have hn := wd.nodup
    have hafd : a ≠ fd := by
      rintro rfl
      simp only [chain, addrs_cons, List.nodup_cons, addrs_append, List.mem_append] at hn
      exact hn.1 (Or.inl ha)
    have habd : a ≠ bd := by
      rintro rfl
      exact wd.cells.2.2.2.2.2.1 ha
    have has : a ∉ addrs (chain fs ss bs) := fun hm => hap (mem_chain_live _ _ _ ha) hm
    rw [fr2 a hafd habd has, ffree a ha]
  · intro x hxd hxs
    have hxd' := hxd
    rw [mem_chain_iff] at hxd'
    simp only [not_or] at hxd'
    rw [fr2 x hxd'.1 hxd'.2.2 hxs, fr1 x hxd]

/-- The method `insert` on one of two lists leaves the other one alone. -/
theorem insert_pair {h : Heap T} {lA lB : LList} {fA bA fB bB : Nat}
    (xs ys : List (Nat × T)) {nsB : List (Nat × T)} (v : T)
    (hp : Pair h lA fA (xs ++ ys) bA lB fB nsB bB)
    (hsz : (xs ++ ys).length + 1 < SIZE_MOD) :
    ∃ h' lA' c, insert h lA (posOf ys bA) v = .ok (h', lA', some c) ∧
      Pair h' lA' fA (xs ++ (c, v) :: ys) bA lB fB nsB bB := by
  obtain ⟨wA, wB, hap⟩ := hp
  obtain ⟨h', lA', e, len, wA', fr⟩ := insert_wf xs ys v wA hsz
  obtain ⟨t, ht, hmt⟩ := lst_mem_chain fA bA xs ys
  obtain ⟨u, hu, hmu⟩ := posOf_mem_chain fA bA xs ys
  have hBA : ∀ a ∈ addrs (chain fB nsB bB), a ∉ addrs (chain fA (xs ++ ys) bA) :=
    fun a ha hd => hap hd ha
  refine ⟨h', lA', h.length, e, wA', Wf_frame wB (fun a ha => fr a ?_ ?_ ?_), ?_⟩
  · rw [ht]; intro e; injection e with e; exact hBA a ha (e ▸ hmt)
  · rw [hu]; intro e; injection e with e; exact hBA a ha (e ▸ hmu)
  · have := wB.lt a ha; omega
  · intro a ha1 ha2
    simp only [mem_chain_iff, live_append, live_cons, addrs_append, addrs_cons,
      List.mem_append, List.mem_cons] at ha1
    have hnot := hBA a ha2
    simp only [mem_chain_iff, live_append, addrs_append, List.mem_append, not_or] at hnot
    rcases ha1 with rfl | (h1 | rfl | h1) | rfl
    · exact hnot.1 rfl
    · exact hnot.2.1.1 h1
    · have := wB.lt _ ha2; omega
    · exact hnot.2.1.2 h1
    · exact hnot.2.2 rfl

/-- The method `erase` on one of two lists leaves the other one alone. -/
theorem erase_pair {h : Heap T} {lA lB : LList} {fA bA fB bB : Nat}
    (xs ys : List (Nat × T)) {nsB : List (Nat × T)} (x : Nat) (v : T)
    (hp : Pair h lA fA (xs ++ (x, v) :: ys) bA lB fB nsB bB) :
    ∃ h' lA', erase h lA (some x) = .ok (h', lA', posOf ys bA) ∧
      Pair h' lA' fA (xs ++ ys) bA lB fB nsB bB := by
  obtain ⟨wA, wB, hap⟩ := hp
  obtain ⟨h', lA', e, len, wA', fx, fr⟩ := erase_wf xs ys x v wA
  have hsub : ∀ a, a ∈ addrs (chain fA (xs ++ ys) bA) →
      a ∈ addrs (chain fA (xs ++ (x, v) :: ys) bA) := by
    intro a ha
    simp only [mem_chain_iff, live_append, live_cons, addrs_append, addrs_cons,
      List.mem_append, List.mem_cons] at ha ⊢
    tauto
  obtain ⟨t, ht, hmt⟩ := lst_mem_chain fA bA xs ys
  obtain ⟨u, hu, hmu⟩ := posOf_mem_chain fA bA xs ys
  have hBA : ∀ a ∈ addrs (chain fB nsB bB), a ∉ addrs (chain fA (xs ++ (x, v) :: ys) bA) :=
    fun a ha hd => hap hd ha
  refine ⟨h', lA', e, wA', Wf_frame wB (fun a ha => fr a ?_ ?_ ?_), ?_⟩
  · rw [ht]; intro e; injection e with e; exact hBA a ha (hsub _ (e ▸ hmt))
  · rw [hu]; intro e; injection e with e; exact hBA a ha (hsub _ (e ▸ hmu))
  · rintro rfl
    exact hBA a ha (by simp [mem_chain_iff])
  · intro a ha1 ha2
    exact hap (hsub a ha1) ha2

/-- Assignment through an iterator at an interior node of a well-formed list. -/
theorem assign_wf {h : Heap T} {l : LList} {f b : Nat} (xs ys : List (Nat × T)) (x : Nat)
    (v v' : T) (w : Wf h l f (xs ++ (x, v) :: ys) b) :
    ∃ h', Iterator.assign h (some x) v' = .ok h' ∧ h'.length = h.length ∧
      Wf h' l f (xs ++ (x, v') :: ys) b ∧ ∀ a, a ≠ x → cellAt h' a = cellAt h a := by
  have hs := w.seg
  have hn := w.nodup
  rw [chain_split_cons] at hs hn
  obtain ⟨h', e, len, hs', fr, -⟩ := assign_seg v' hs hn
  refine ⟨h', e, len, ⟨w.front_eq, w.back_eq, ?_, ?_, ?_, ?_⟩, fr⟩
  · simpa using w.size_eq
  · simpa using w.size_lt
  · rw [chain_split_cons]
    rw [nodup_addrs_middle] at hn ⊢
    exact hn
  · rw [chain_split_cons]; exact hs'

/-- Assignment through an iterator of one of two lists leaves the other one alone. -/
theorem assign_pair {h : Heap T} {lA lB : LList} {fA bA fB bB : Nat}
    (xs ys : List (Nat × T)) {nsB : List (Nat × T)} (x : Nat) (v v' : T)
    (hp : Pair h lA fA (xs ++ (x, v) :: ys) bA lB fB nsB bB) :
    ∃ h', Iterator.assign h (some x) v' = .ok h' ∧
      Pair h' lA fA (xs ++ (x, v') :: ys) bA lB fB nsB bB := by
  obtain ⟨wA, wB, hap⟩ := hp
  obtain ⟨h', e, len, wA', fr⟩ := assign_wf xs ys x v v' wA
  refine ⟨h', e, wA', Wf_frame wB (fun a ha => fr a ?_), ?_⟩
  · rintro rfl
    exact hap (by simp [mem_chain_iff]) ha
  · intro a ha1 ha2
    apply hap (a := a) _ ha2
    simp only [mem_chain_iff, live_append, live_cons, addrs_append, addrs_cons,
      List.mem_append, List.mem_cons] at ha1 ⊢
    exact ha1

/-- The method `reverse` on one of two lists leaves the other one alone. -/
theorem reverse_pair {h : Heap T} {lA lB : LList} {fA bA fB bB : Nat}
    {nsA nsB : List (Nat × T)} (hp : Pair h lA fA nsA bA lB fB nsB bB)
    (fuel : Nat) (hf : nsA.length + 2 < fuel) :
    ∃ h' lA', reverse fuel h lA = .ok (h', lA') ∧
      Pair h' lA' bA nsA.reverse fA lB fB nsB bB := by
  obtain ⟨wA, wB, hap⟩ := hp
  obtain ⟨h', lA', e, len, wA', -, fr⟩ := reverse_wf wA fuel hf
  refine ⟨h', lA', e, wA', Wf_frame wB (fun a ha => fr a (fun hd => hap hd ha)), ?_⟩
  intro a ha1 ha2
  apply hap (a := a) _ ha2
  rw [← chain_reverse] at ha1
  simpa [addrs] using ha1

/-- The method `unique` on one of two lists leaves the other one alone. -/
theorem unique_pair (ne : T → T → Bool) {h : Heap T} {lA lB : LList} {fA bA fB bB : Nat}
    {nsA nsB : List (Nat × T)} (hp : Pair h lA fA nsA bA lB fB nsB bB)
    (fuel : Nat) (hf : nsA.length < fuel) :
    ∃ h' lA' ks, unique ne fuel h lA = .ok (h', lA') ∧
      Pair h' lA' fA ks bA lB fB nsB bB ∧ vals ks = unique_vals ne (vals nsA) := by
  obtain ⟨wA, wB, hap⟩ := hp
  obtain ⟨h', lA', ks, es, e, len, wA', hv, had, -, -, fr⟩ := unique_wf_frame ne wA fuel hf
  refine ⟨h', lA', ks, e, ⟨wA', Wf_frame wB (fun a ha => fr a (fun hd => hap hd ha)), ?_⟩, hv⟩
  intro a ha1 ha2
  apply hap (a := a) _ ha2
  rw [mem_chain_iff] at ha1 ⊢
  rcases ha1 with rfl | ha1 | rfl
  · exact Or.inl rfl
  · refine Or.inr (Or.inl ?_)
    rw [← had]
    simp only [live_append, addrs_append, List.mem_append]
    exact Or.inl ha1
  · exact Or.inr (Or.inr rfl)

/-- The method `push_front` on a well-formed list puts one node first. -/
theorem push_front_wf {h : Heap T} {l : LList} {f b : Nat} {ns : List (Nat × T)} (v : T)
    (w : Wf h l f ns b) (hsz : ns.length + 1 < SIZE_MOD) :
    ∃ h' l', push_front h l v = .ok (h', l') ∧ Wf h' l' f ((h.length, v) :: ns) b := by
  have w' : Wf h l f ([] ++ ns) b := by simpa using w
  obtain ⟨h', l', e, -, wf, -⟩ := insert_wf [] ns v w' (by simpa using hsz)
  refine ⟨h', l', ?_, by simpa using wf⟩
  simp only [push_front, begin_wf w, bind, Except.bind, e]
  rfl

/-- The method `pop_front` on a well-formed list removes the first node, if there is
one. -/
theorem pop_front_wf {h : Heap T} {l : LList} {f b : Nat} {ns : List (Nat × T)}
    (w : Wf h l f ns b) :
    ∃ h' l', pop_front h l = .ok (h', l') ∧ Wf h' l' f ns.tail b := by
  cases ns with
  | nil => exact ⟨h, l, (pop_empty_wf w).1, w⟩
  | cons n ns =>
    have w' : Wf h l f ([] ++ (n.1, n.2) :: ns) b := by simpa using w
    obtain ⟨h', l', e, -, wf, -⟩ := erase_wf [] ns n.1 n.2 w'
    refine ⟨h', l', ?_, by simpa using wf⟩
    simp only [pop_front, begin_wf w, posOf_cons, bind, Except.bind, e]
    rfl

/-- The method `pop_back` on a well-formed list removes the last node, if there is
one. -/
theorem pop_back_wf {h : Heap T} {l : LList} {f b : Nat} {ns : List (Nat × T)}
    (w : Wf h l f ns b) :
    ∃ h' l', pop_back h l = .ok (h', l') ∧ Wf h' l' f ns.dropLast b := by
  rcases List.eq_nil_or_concat ns with e0 | ⟨ms, n, e0⟩
  · subst e0
    exact ⟨h, l, (pop_empty_wf w).2, w⟩
  · have e0' : ns = ms ++ [n] := by simpa using e0
    subst e0'
    have w' : Wf h l f (ms ++ (n.1, n.2) :: []) b := by simpa using w
    obtain ⟨h', l', e, -, wf, -⟩ := erase_wf ms [] n.1 n.2 w'
    obtain ⟨-, -, cb, -, -, hbn, -⟩ := w.cells
    rw [lst_live_concat] at cb
    have hne : ¬ posOf (ms ++ [n]) b = some b := by
      obtain ⟨a, ha, hm⟩ := hd_mem b (live (ms ++ [n]))
      show ¬ hd (some b) (live (ms ++ [n])) = some b
      rw [ha]
      intro e'
      injection e' with e'
      rcases hm with hm | hm
      · cases ms with
        | nil =>
          simp only [List.nil_append, live_cons, live_nil, hd_cons, Option.some.injEq] at ha
          exact hbn (by simp [← e', ← ha])
        | cons m ms =>
          simp only [List.cons_append, live_cons, hd_cons, Option.some.injEq] at ha
          exact hbn (by simp [← e', ← ha])
      · exact hbn (e' ▸ hm)
    refine ⟨h', l', ?_, by simpa using wf⟩
    simp only [posOf_nil] at e
    simp only [pop_back, begin_wf w, bind, Except.bind, pure, Except.pure, ne_eq, end_wf w,
      dec_some' cb, e]
    rw [if_pos hne]

/-! Reverse iteration, the invariant in the words of the specification, and the emptiness tests. -/

/-- The node at the start of `ys` in a well-formed list: its `prev` is the end of the
nodes before it. -/
theorem link_at {h : Heap T} {l : LList} {f b : Nat} (xs ys : List (Nat × T))
    (w : Wf h l f (xs ++ ys) b) :
    ∃ a n, posOf ys b = some a ∧ cellAt h a = some n ∧ n.prev = lst (some f) (live xs) := by
  have hs := w.seg
  rw [chain_split] at hs
  cases ys with
  | nil =>
    have hc := Seg_mid (A := (f, none) :: live xs) (c := (b, none)) (C := [])
      (by simpa using hs)
    exact ⟨b, _, rfl, hc, rfl⟩
  | cons y ys =>
    have hc := Seg_mid (A := (f, none) :: live xs) (c := (y.1, some y.2))
      (C := live ys ++ [(b, none)]) (by simpa using hs)
    exact ⟨y.1, _, rfl, hc, rfl⟩

/-- The position of the start of `ys` is not the position of an earlier node. -/
theorem posOf_ne {h : Heap T} {l : LList} {f b : Nat} (xs ys : List (Nat × T)) (x : Nat × T)
    (w : Wf h l f ((xs ++ [x]) ++ ys) b) : posOf ys b ≠ posOf ((xs ++ [x]) ++ ys) b := by
  have hn := w.nodup
  rw [chain_split] at hn
  simp only [addrs_append, addrs_cons, List.nodup_append, List.nodup_cons] at hn
  obtain ⟨a, ha, hm⟩ := hd_mem b (live ys)
  have hfirst : ∃ c, posOf ((xs ++ [x]) ++ ys) b = some c ∧ c ∈ addrs (live (xs ++ [x])) := by
    cases xs with
    | nil => exact ⟨x.1, rfl, by simp⟩
    | cons z zs => exact ⟨z.1, rfl, by simp⟩
  obtain ⟨c, hc, hcm⟩ := hfirst
  show hd (some b) (live ys) ≠ _
  rw [ha, hc]
  intro e
  injection e with e
  subst e
  have hd' := hn.2.2
  have : a ∈ addrs (live ys) ++ [b] := by
    rcases hm with rfl | hm
    · simp
    · simp [hm]
  exact hd' (List.mem_cons_of_mem _ (by simpa using hcm)) (by simpa using this)

/-- The client loop over reverse iterators, from the start of `ys` back to `begin()`,
reads the values before `ys` from the last to the first. -/
theorem rcollect_wf {h : Heap T} {l : LList} {f b : Nat} (xs ys : List (Nat × T))
    (w : Wf h l f (xs ++ ys) b) (fuel : Nat) (hf : xs.length < fuel) :
    rcollect h (posOf (xs ++ ys) b) (posOf ys b) fuel = .ok (vals xs).reverse := by
  induction xs using List.reverseRecOn generalizing ys fuel with
  | nil =>
    obtain ⟨fuel, rfl⟩ : ∃ k, fuel = k + 1 := ⟨fuel - 1, by simp at hf; omega⟩
    simp [rcollect, pure, Except.pure]
  | append_singleton xs x ih =>
    obtain ⟨fuel, rfl⟩ : ∃ k, fuel = k + 1 := ⟨fuel - 1, by omega⟩
    have hne := posOf_ne xs ys x w
    obtain ⟨a, n, ha, hc, hp⟩ := link_at (xs ++ [x]) ys w
    rw [lst_live_concat] at hp
    have w' : Wf h l f (xs ++ x :: ys) b := by simpa using w
    have hs := w'.seg
    rw [chain_split_cons] at hs
    have hx := Seg_mid hs
    simp only at hx
    have ih' := ih (x :: ys) w' fuel (by simp at hf; omega)
    have hl : posOf ((xs ++ [x]) ++ ys) b = posOf (xs ++ x :: ys) b := by simp
    rw [hl] at hne ⊢
    rw [posOf_cons] at ih'
    rw [ha] at hne
    rw [ha]
    simp only [rcollect, if_neg hne, reverse_iterator.deref, reverse_iterator.inc,
      dec_some' hc, hp, deref_some hx rfl, bind, Except.bind, ih', pure, Except.pure]
    simp

/-- Reverse iteration over a well-formed list yields its values from the last to the
first. -/
theorem rtraverse_wf {h : Heap T} {l : LList} {f b : Nat} {ns : List (Nat × T)}
    (w : Wf h l f ns b) (fuel : Nat) (hf : ns.length < fuel) :
    rtraverse fuel h l = .ok (vals ns).reverse := by
  have w' : Wf h l f (ns ++ []) b := by simpa using w
  have := rcollect_wf ns [] w' fuel hf
  simp only [List.append_nil, posOf_nil] at this
  simp only [rtraverse, rend, rbegin, begin_wf w, end_wf w, bind, Except.bind]
  exact this

/-- On a list with `_size` not 0, `*rbegin()` and `back()` are the same computation. -/
theorem rbegin_deref_eq_back (h : Heap T) (l : LList) (hs : size l ≠ 0) :
    reverse_iterator.deref h (rbegin l) = back h l := by
  have hne : empty l = false := by simpa [empty] using hs
  simp only [reverse_iterator.deref, rbegin, «end», Iterator.dec, back, hne, bind, Except.bind,
    pure, Except.pure, Bool.false_eq_true, if_false]
  cases load h l._back <;> rfl

/-- Following `next` along a segment reaches its cells one after the other. -/
theorem walk_seg {h : Heap T} {p q : Ptr} {cs : List (Cell T)} (hs : Seg h p cs q) :
    ∀ j a, (addrs cs)[j]? = some a → walk h (hd q cs) j = .ok (some a) := by
  induction cs generalizing p with
  | nil => intro j a hj; simp at hj
  | cons c cs ih =>
    intro j a hj
    cases j with
    | zero =>
      simp only [addrs_cons, List.getElem?_cons_zero, Option.some.injEq] at hj
      simp [walk, hj, pure, Except.pure]
    | succ j =>
      simp only [addrs_cons, List.getElem?_cons_succ] at hj
      simp only [hd_cons, walk, inc_some hs.1, bind, Except.bind]
      exact ih hs.2 j a hj

/-- Neighbouring cells of a segment point at each other. -/
theorem link_seg {h : Heap T} {p q : Ptr} {cs : List (Cell T)} (hs : Seg h p cs q) :
    ∀ j a a', (addrs cs)[j]? = some a → (addrs cs)[j + 1]? = some a' →
      Iterator.inc h (some a) = .ok (some a') ∧ Iterator.dec h (some a') = .ok (some a) := by
  induction cs generalizing p with
  | nil => intro j a a' hj; simp at hj
  | cons c cs ih =>
    intro j a a' hj hj'
    cases j with
    | zero =>
      simp only [addrs_cons, List.getElem?_cons_zero, Option.some.injEq] at hj
      simp only [addrs_cons, List.getElem?_cons_succ] at hj'
      cases cs with
      | nil => simp at hj'
      | cons c' cs' =>
        simp only [addrs_cons, List.getElem?_cons_zero, Option.some.injEq] at hj'
        subst hj hj'
        exact ⟨inc_some hs.1, dec_some' hs.2.1⟩
    | succ j =>
      simp only [addrs_cons, List.getElem?_cons_succ] at hj hj'
      exact ih hs.2 j a a' hj hj'

theorem addrs_length (cs : List (Cell T)) : (addrs cs).length = cs.length := by
  simp [addrs]

theorem chain_length (f b : Nat) (ns : List (Nat × T)) :
    (addrs (chain f ns b)).length = ns.length + 2 := by
  simp [chain, addrs]

/-- A well-formed list satisfies the invariant in the words of the specification. -/
theorem Inv_of_Wf {h : Heap T} {l : LList} {f b : Nat} {ns : List (Nat × T)}
    (w : Wf h l f ns b) : Inv h l := by
  obtain ⟨cf, -, cb, hfb, -, hbn, -⟩ := w.cells
  have hw := walk_seg w.seg
  have hhd : hd none (chain f ns b) = l._front := by rw [w.front_eq]; rfl
  rw [hhd] at hw
  have hlast : (addrs (chain f ns b))[ns.length + 1]? = some b := by
    have e1 : addrs (chain f ns b) = (f :: addrs (live ns)) ++ [b] := by simp [chain]
    have e2 : (f :: addrs (live ns)).length = ns.length + 1 := by simp [addrs]
    rw [e1, List.getElem?_append_right (by omega), e2]
    simp
  have hpre : ∀ j, j ≤ ns.length → ∃ a, (addrs (chain f ns b))[j]? = some a ∧ a ≠ b := by
    intro j hj
    have hlt : j < (addrs (chain f ns b)).length := by rw [chain_length]; omega
    refine ⟨(addrs (chain f ns b))[j], List.getElem?_eq_getElem hlt, ?_⟩
    have hlt' : j < (f :: addrs (live ns)).length := by simp [addrs]; omega
    have he : (addrs (chain f ns b))[j] = (f :: addrs (live ns))[j] := by
      have e1 : addrs (chain f ns b) = (f :: addrs (live ns)) ++ [b] := by simp [chain]
      simp only [e1]
      exact List.getElem_append_left hlt'
    rw [he]
    intro e
    have hm : (f :: addrs (live ns))[j] ∈ f :: addrs (live ns) := List.getElem_mem _
    rw [e] at hm
    simp only [List.mem_cons] at hm
    rcases hm with hm | hm
    · exact hfb hm.symm
    · exact hbn hm
  refine ⟨?_, ?_, ?_, ⟨_, by rw [w.front_eq]; exact load_some cf, rfl⟩,
    ⟨_, by rw [w.back_eq]; exact load_some cb, rfl⟩⟩
  · rw [w.size_eq, hw _ _ hlast, w.back_eq]
  · intro j hj
    rw [w.size_eq] at hj
    obtain ⟨a, ha, hab⟩ := hpre j hj
    rw [hw _ _ ha, w.back_eq]
    intro e
    injection e with e
    injection e with e
    exact hab e
  · intro j m hj hm
    rw [w.size_eq] at hj
    obtain ⟨a, ha, -⟩ := hpre j hj
    rw [hw _ _ ha] at hm
    injection hm with hm
    subst hm
    have hlt : j + 1 < (addrs (chain f ns b)).length := by rw [chain_length]; omega
    obtain ⟨hi, hd⟩ := link_seg w.seg j a _ ha (List.getElem?_eq_getElem hlt)
    simp only [hi, bind, Except.bind, hd]

/-- The two emptiness tests of a well-formed list agree. -/
theorem begin_end_iff {h : Heap T} {l : LList} {f b : Nat} {ns : List (Nat × T)}
    (w : Wf h l f ns b) :
    (begin h l = .ok («end» l) ↔ size l = 0) ∧ (size l = 0 ↔ empty l = true) := by
  obtain ⟨-, -, -, -, -, hbn, -⟩ := w.cells
  refine ⟨?_, by simp [empty]⟩
  rw [begin_wf w, end_wf w, size, w.size_eq]
  cases ns with
  | nil => simp
  | cons n ns =>
    simp only [posOf_cons, List.length_cons, Nat.add_one_ne_zero, iff_false]
    intro e
    injection e with e
    injection e with e
    exact hbn (by simp [e])

/-- What `unique` keeps is a prefix of the nodes, what it erases is the rest. -/
theorem prefix_of_addrs {ks es ns : List (Nat × T)}
    (had : addrs (live (ks ++ es)) = addrs (live ns)) :
    addrs (live ks) = (addrs (live ns)).take ks.length ∧
    addrs (live es) = (addrs (live ns)).drop ks.length := by
  rw [← had]
  simp only [live_append, addrs_append]
  have hl : (addrs (live ks)).length = ks.length := by simp [addrs, live]
  constructor
  · rw [← hl, List.take_left']
    rfl
  · rw [← hl, List.drop_left']
    rfl

/-! The claims C11 to C15. -/

theorem exHeapTwo_pair :
    Pair exHeapTwo exListTwo 5 [] 6 exList 0 [(2, 1), (3, 2), (4, 3)] 1 :=
  ⟨⟨rfl, rfl, rfl, by decide, by decide, by decide⟩,
    ⟨rfl, rfl, rfl, by decide, by decide, by decide⟩,
    by intro a; simp [chain, addrs, live]; omega⟩

/-- An iterator at an interior node of a well-formed list dereferences to its value. -/
theorem deref_mem {h : Heap T} {l : LList} {f b : Nat} {ns : List (Nat × T)}
    (w : Wf h l f ns b) {n : Nat} {v : T} (hn : (n, v) ∈ ns) :
    Iterator.deref h (some n) = .ok v := by
  have hm : ((n, some v) : Cell T) ∈ chain f ns b := by
    simp only [chain, live, List.mem_cons, List.mem_append, List.mem_map, Prod.mk.injEq,
      List.mem_singleton]
    exact Or.inr (Or.inl ⟨(n, v), hn, rfl, rfl⟩)
  obtain ⟨c, hc, hd⟩ := Seg_mem w.seg _ hm
  exact deref_some hc hd

/-- Claim C11: copy construction and copy assignment (to a distinct destination that
shares no node with the source, whatever it held) give a well-formed destination
with the values of the source and its `size()`, leave the source as it was, and
the two lists share no interior node or sentinel; and for any two well-formed
lists that share no node, an `insert`, `erase`, assignment through an iterator,
`reverse` or `unique` on one of them leaves the other well-formed with the same
nodes and values (so with the same traversal and `size()`), and the two lists
still share no node. -/
theorem copy_independent :
    (∀ (T : Type) (h : Heap T) (src : LList) (fs : Nat) (ss : List (Nat × T)) (bs fuel : Nat),
      Wf h src fs ss bs → ss.length < fuel →
      ∃ h' dst fd ms bd, List_copy fuel h src = .ok (h', dst) ∧
        Pair h' dst fd ms bd src fs ss bs ∧ vals ms = vals ss ∧ size dst = size src ∧
        ∀ a, a < h.length → cellAt h' a = cellAt h a) ∧
    (∀ (T : Type) (h : Heap T) (dst src : LList) (fd : Nat) (nd : List (Nat × T)) (bd fs : Nat)
      (ss : List (Nat × T)) (bs p q fuel : Nat), p ≠ q →
      Pair h dst fd nd bd src fs ss bs → nd.length < fuel → ss.length < fuel →
      ∃ h' dst' ms, copy_assign fuel h p q dst src = .ok (h', dst') ∧
        Pair h' dst' fd ms bd src fs ss bs ∧ vals ms = vals ss ∧ size dst' = size src) ∧
    (∀ (T : Type) (h : Heap T) (lA : LList) (fA : Nat) (nsA : List (Nat × T)) (bA : Nat)
      (lB : LList) (fB : Nat) (nsB : List (Nat × T)) (bB : Nat),
      Pair h lA fA nsA bA lB fB nsB bB →
      Pair h lB fB nsB bB lA fA nsA bA ∧
      (∀ k, nsB.length < k → traverse k h lB = .ok (vals nsB)) ∧
      (∀ (xs ys : List (Nat × T)) (v : T), nsA = xs ++ ys → nsA.length + 1 < SIZE_MOD →
        ∃ h' lA' c, insert h lA (posOf ys bA) v = .ok (h', lA', some c) ∧
          Pair h' lA' fA (xs ++ (c, v) :: ys) bA lB fB nsB bB) ∧
      (∀ (xs : List (Nat × T)) (x : Nat) (v : T) (ys : List (Nat × T)),
        nsA = xs ++ (x, v) :: ys →
        ∃ h' lA', erase h lA (some x) = .ok (h', lA', posOf ys bA) ∧
          Pair h' lA' fA (xs ++ ys) bA lB fB nsB bB) ∧
      (∀ (xs : List (Nat × T)) (x : Nat) (v : T) (ys : List (Nat × T)) (v' : T),
        nsA = xs ++ (x, v) :: ys →
        ∃ h', Iterator.assign h (some x) v' = .ok h' ∧
          Pair h' lA fA (xs ++ (x, v') :: ys) bA lB fB nsB bB) ∧
      (∀ fuel, nsA.length + 2 < fuel →
        ∃ h' lA', reverse fuel h lA = .ok (h', lA') ∧
          Pair h' lA' bA nsA.reverse fA lB fB nsB bB) ∧
      (∀ (ne : T → T → Bool) fuel, nsA.length < fuel →
        ∃ h' lA' ks, unique ne fuel h lA = .ok (h', lA') ∧
          Pair h' lA' fA ks bA lB fB nsB bB)) := by
  refine ⟨?_, ?_, ?_⟩
  · intro T h src fs ss bs fuel w hf
    obtain ⟨h', dst, ms, e, -, wd, hv, hsz, hge, fr⟩ := List_copy_wf w fuel hf
    exact ⟨h', dst, _, ms, _, e,
      ⟨wd, Wf_frame w (fun a ha => fr a (w.lt a ha)), Apart_of_ge h.length hge w.lt⟩, hv, hsz, fr⟩
  · intro T h dst src fd nd bd fs ss bs p q fuel hpq hp hfd hfs
    obtain ⟨h', dst', ms, e, wd', hv, hsz, ws', hap', -⟩ :=
      copy_assign_wf p q hpq hp.1 hp.2.1 hp.2.2 fuel hfd hfs
    exact ⟨h', dst', ms, e, ⟨wd', ws', hap'⟩, hv, hsz⟩
  · intro T h lA fA nsA bA lB fB nsB bB hp
    refine ⟨Pair_symm hp, fun k hk => traverse_wf hp.2.1 k hk, ?_, ?_, ?_, ?_, ?_⟩
    · intro xs ys v hns hsz
      subst hns
      exact insert_pair xs ys v hp hsz
    · intro xs x v ys hns
      subst hns
      exact erase_pair xs ys x v hp
    · intro xs x v ys v' hns
      subst hns
      exact assign_pair xs ys x v v' hp
    · intro fuel hf
      exact reverse_pair hp fuel hf
    · intro ne fuel hf
      obtain ⟨h', lA', ks, e, hp', -⟩ := unique_pair ne hp fuel hf
      exact ⟨h', lA', ks, e, hp'⟩

/-- Claim C11 at the list 1, 2, 3: its copy, and an erase in the copy. -/
theorem copy_independent_witness :
    Wf exHeap exList 0 [(2, 1), (3, 2), (4, 3)] 1 ∧
    ∃ h' dst, List_copy 4 exHeap exList = .ok (h', dst) ∧ size dst = 3 ∧
      traverse 4 h' dst = .ok [1, 2, 3] ∧ traverse 4 h' exList = .ok [1, 2, 3] ∧
      ∃ p h2 dst2 it, begin h' dst = .ok p ∧ erase h' dst p = .ok (h2, dst2, it) ∧
        traverse 4 h2 exList = .ok [1, 2, 3] := by
  refine ⟨exHeap_wf, ?_⟩
  obtain ⟨h', dst, fd, ms, bd, e, hp, hv, hsz, -⟩ :=
    copy_independent.1 Nat exHeap exList 0 _ 1 4 exHeap_wf (by decide)
  have hlen : ms.length = 3 := by
    have := congrArg List.length hv
    simpa using this
  have ht := traverse_wf hp.1 4 (by omega)
  rw [hv] at ht
  obtain ⟨m, ms', rfl⟩ : ∃ m ms', ms = m :: ms' := by
    cases ms with
    | nil => simp at hlen
    | cons m ms' => exact ⟨m, ms', rfl⟩
  obtain ⟨-, -, -, hers, -⟩ := copy_independent.2.2 Nat h' dst fd _ bd exList 0 _ 1 hp
  obtain ⟨h2, dst2, e2, hp2⟩ := hers [] m.1 m.2 ms' rfl
  have hb : begin h' dst = .ok (some m.1) := begin_wf hp.1
  exact ⟨h', dst, e, hsz, ht, traverse_wf hp.2.1 4 (by decide), _, h2, dst2, _, hb, e2,
    traverse_wf hp2.2.1 4 (by decide)⟩

/-- Claim C12: move construction and move assignment (to a distinct destination that
shares no node with the source, whatever it held) from a well-formed source, a
non-empty one in particular, give a well-formed destination that holds the
interior nodes of the source in their order, with `size()` their number, and
leave the source a well-formed empty list with `size() == 0` and
`begin() == end()`. -/
theorem move_transfers {h : Heap T} {src : LList} {fs bs : Nat} {ss : List (Nat × T)}
    (w : Wf h src fs ss bs) :
    (∃ h' dst src' fd bd, List_move h src = .ok (h', dst, src') ∧
      Pair h' dst fd ss bd src' fs [] bs ∧
      (∀ k, ss.length < k → traverse k h' dst = .ok (vals ss)) ∧
      size dst = ss.length ∧ size src' = 0 ∧ begin h' src' = .ok («end» src')) ∧
    (∀ (dst : LList) (fd : Nat) (nd : List (Nat × T)) (bd p q fuel : Nat), p ≠ q →
      Wf h dst fd nd bd → Apart fd nd bd fs ss bs → nd.length < fuel →
      ∃ h' dst' src', move_assign fuel h p q dst src = .ok (h', dst', src') ∧
        Pair h' dst' fd ss bd src' fs [] bs ∧
        (∀ k, ss.length < k → traverse k h' dst' = .ok (vals ss)) ∧
        size dst' = ss.length ∧ size src' = 0 ∧ begin h' src' = .ok («end» src')) := by
  constructor
  · obtain ⟨h', dst, src', e, -, hp, hsz, hsz', -⟩ := List_move_wf w
    refine ⟨h', dst, src', _, _, e, hp, fun k hk => traverse_wf hp.1 k hk, ?_, hsz', ?_⟩
    · rw [hsz, size, w.size_eq]
    · rw [begin_wf hp.2.1, end_wf hp.2.1]; rfl
  · intro dst fd nd bd p q fuel hpq wd hap hf
    obtain ⟨h', dst', src', e, -, hp, hsz, hsz', -⟩ :=
      move_assign_wf p q hpq ⟨wd, w, hap⟩ fuel hf
    refine ⟨h', dst', src', e, hp, fun k hk => traverse_wf hp.1 k hk, ?_, hsz', ?_⟩
    · rw [hsz, size, w.size_eq]
    · rw [begin_wf hp.2.1, end_wf hp.2.1]; rfl

/-- Claim C12 at the list 1, 2, 3: moved into a new list, and moved into the empty list
at 5 and 6. -/
theorem move_transfers_witness :
    Wf exHeap exList 0 [(2, 1), (3, 2), (4, 3)] 1 ∧
    (∃ h' dst src', List_move exHeap exList = .ok (h', dst, src') ∧
      traverse 4 h' dst = .ok [1, 2, 3] ∧ size dst = 3 ∧ size src' = 0 ∧
      begin h' src' = .ok («end» src')) ∧
    (∃ h' dst src', move_assign 1 exHeapTwo 0 1 exListTwo exList = .ok (h', dst, src') ∧
      traverse 4 h' dst = .ok [1, 2, 3] ∧ size dst = 3 ∧ size src' = 0 ∧
      begin h' src' = .ok («end» src')) := by
  refine ⟨exHeap_wf, ?_, ?_⟩
  · obtain ⟨⟨h', dst, src', fd, bd, e, -, ht, hs, hs', hb⟩, -⟩ := move_transfers exHeap_wf
    exact ⟨h', dst, src', e, ht 4 (by decide), hs, hs', hb⟩
  · obtain ⟨-, hma⟩ := move_transfers exHeapTwo_pair.2.1
    obtain ⟨h', dst, src', e, -, ht, hs, hs', hb⟩ :=
      hma exListTwo 5 [] 6 0 1 1 (by decide) exHeapTwo_pair.1 exHeapTwo_pair.2.2 (by decide)
    exact ⟨h', dst, src', e, ht 4 (by decide), hs, hs', hb⟩

/-- Claim C13: on a well-formed list with interior nodes `xs ++ ys`, the range `insert`
of the values `s` of a source outside the list, at the position of the start of
`ys` (with room for them in `size_t`), gives the sequence `xs ++ s ++ ys` with
`size()` increased by the length of `s`; for a non-empty `s` it returns an
iterator at the node holding the first value of `s`, for an empty `s` it
returns the position and leaves heap and list as they were. -/
theorem insert_range_spec {h : Heap T} {l : LList} {f b : Nat} (xs ys : List (Nat × T))
    (s : List T) (w : Wf h l f (xs ++ ys) b)
    (hsz : (xs ++ ys).length + s.length < SIZE_MOD) :
    ∃ h' l' ms it, insert_range h l (posOf ys b) s = .ok (h', l', it) ∧
      Wf h' l' f (xs ++ ms ++ ys) b ∧ vals ms = s ∧
      (∀ k, (xs ++ ys).length + s.length < k →
        traverse k h' l' = .ok (vals xs ++ s ++ vals ys)) ∧
      size l' = size l + s.length ∧
      (∀ v rest, s = v :: rest → ∃ c ms', ms = (c, v) :: ms' ∧ it = some c ∧
        Iterator.deref h' it = .ok v) ∧
      (s = [] → it = posOf ys b ∧ h' = h ∧ l' = l) := by
  obtain ⟨h', l', ms, e, -, w', hv, -, hnil, -⟩ := insert_range_wf xs ys s w hsz
  have hlen : ms.length = s.length := by
    have := congrArg List.length hv
    simpa using this
  refine ⟨h', l', ms, _, e, w', hv, ?_, ?_, ?_, ?_⟩
  · intro k hk
    rw [traverse_wf w' k (by simp only [List.length_append] at hk ⊢; omega)]
    simp [hv]
  · rw [size, size, w'.size_eq, w.size_eq]
    simp only [List.length_append]; omega
  · intro v rest hs
    subst hs
    cases ms with
    | nil => simp at hv
    | cons m ms' =>
      simp only [vals_cons, List.cons.injEq] at hv
      obtain ⟨c, u⟩ := m
      simp only at hv
      obtain ⟨rfl, -⟩ := hv
      refine ⟨c, ms', rfl, rfl, ?_⟩
      exact deref_mem w' (by simp)
  · intro hs
    subst hs
    cases ms with
    | nil => exact ⟨rfl, hnil rfl⟩
    | cons m ms' => simp at hv

/-- Claim C13 at the list 1, 2, 3: insert 7, 8, 9 before the node holding 2. -/
theorem insert_range_spec_witness :
    Wf exHeap exList 0 ([(2, 1)] ++ [(3, 2), (4, 3)]) 1 ∧
    ∃ h' l' it, insert_range exHeap exList (some 3) [7, 8, 9] = .ok (h', l', it) ∧
      traverse 7 h' l' = .ok [1, 7, 8, 9, 2, 3] ∧ size l' = 6 ∧
      Iterator.deref h' it = .ok 7 := by
  refine ⟨exHeap_wf, ?_⟩
  obtain ⟨h', l', ms, it, e, -, -, ht, hs, hfirst, -⟩ :=
    insert_range_spec [(2, 1)] [(3, 2), (4, 3)] [7, 8, 9] exHeap_wf (by decide)
  obtain ⟨c, ms', -, -, hd⟩ := hfirst 7 [8, 9] rfl
  exact ⟨h', l', it, e, ht 7 (by decide), hs, hd⟩

/-- Claim C14: for a count `n` (a `size_t`) and a value `v`, the constructor
`List(n, v)` gives a well-formed list with `size() == n` whose forward traversal
is `n` copies of `v`; for `n == 0` the list is empty with `begin() == end()`. -/
theorem count_ctor_spec (h : Heap T) (n : Nat) (v : T) (hn : n < SIZE_MOD) :
    ∃ h' l f ms b, List_count h n v = .ok (h', l) ∧ Wf h' l f ms b ∧
      size l = n ∧
      (∀ k, n < k → traverse k h' l = .ok (List.replicate n v)) ∧
      (n = 0 → begin h' l = .ok («end» l)) := by
  obtain ⟨h', l, f, ms, b, e, w, hv, -, -, -⟩ := ctor_count_wf h n v hn
  have hlen : ms.length = n := by
    have := congrArg List.length hv
    simpa using this
  refine ⟨h', l, f, ms, b, e, w, by rw [size, w.size_eq, hlen], ?_, ?_⟩
  · intro k hk
    rw [traverse_wf w k (by omega), hv]
  · intro hz
    subst hz
    have : ms = [] := List.length_eq_zero.1 hlen
    subst this
    rw [begin_wf w, end_wf w]; rfl

/-- Claim C14 at three copies of 7 on the empty heap. -/
theorem count_ctor_spec_witness :
    3 < SIZE_MOD ∧
    ∃ h' l, List_count ([] : Heap Nat) 3 7 = .ok (h', l) ∧ size l = 3 ∧
      traverse 4 h' l = .ok [7, 7, 7] := by
  refine ⟨by decide, ?_⟩
  obtain ⟨h', l, f, ms, b, e, -, hs, ht, -⟩ := count_ctor_spec ([] : Heap Nat) 3 7 (by decide)
  exact ⟨h', l, e, hs, ht 4 (by decide)⟩

/-- Claim C15: an iterator at an interior node `n` of a well-formed list dereferences
to the value `v` of the node; after an `insert` at any position of the list, and
after an `erase` at any other interior node, `n` is still an interior node with
the value `v` and the iterator still dereferences to `v`; after `erase` at `n`
the node is no interior node any more, its cell is freed and a dereference of
the iterator is undefined. -/
theorem iterator_stability {h : Heap T} {l : LList} {f b : Nat} {ns : List (Nat × T)}
    (w : Wf h l f ns b) (n : Nat) (v : T) (hn : (n, v) ∈ ns) :
    Iterator.deref h (some n) = .ok v ∧
    (∀ xs ys u, ns = xs ++ ys → ns.length + 1 < SIZE_MOD →
      ∃ h' l' c, insert h l (posOf ys b) u = .ok (h', l', some c) ∧
        Wf h' l' f (xs ++ (c, u) :: ys) b ∧ (n, v) ∈ xs ++ (c, u) :: ys ∧
        Iterator.deref h' (some n) = .ok v) ∧
    (∀ xs x vx ys, ns = xs ++ (x, vx) :: ys → x ≠ n →
      ∃ h' l', erase h l (some x) = .ok (h', l', posOf ys b) ∧
        Wf h' l' f (xs ++ ys) b ∧ (n, v) ∈ xs ++ ys ∧
        Iterator.deref h' (some n) = .ok v) ∧
    (∀ xs ys, ns = xs ++ (n, v) :: ys →
      ∃ h' l', erase h l (some n) = .ok (h', l', posOf ys b) ∧
        Wf h' l' f (xs ++ ys) b ∧ n ∉ addrs (live (xs ++ ys)) ∧
        cellAt h' n = none ∧ Iterator.deref h' (some n) = .error .undefined) := by
  refine ⟨deref_mem w hn, ?_, ?_, ?_⟩
  · intro xs ys u hns hsz
    subst hns
    obtain ⟨h', l', e, -, w', -⟩ := insert_wf xs ys u w hsz
    have hm : (n, v) ∈ xs ++ (h.length, u) :: ys := by
      simp only [List.mem_append, List.mem_cons] at hn ⊢
      tauto
    exact ⟨h', l', _, e, w', hm, deref_mem w' hm⟩
  · intro xs x vx ys hns hx
    subst hns
    obtain ⟨h', l', e, -, w', -, -⟩ := erase_wf xs ys x vx w
    have hm : (n, v) ∈ xs ++ ys := by
      simp only [List.mem_append, List.mem_cons, Prod.mk.injEq] at hn ⊢
      rcases hn with hn | ⟨rfl, -⟩ | hn
      · exact Or.inl hn
      · exact absurd rfl hx
      · exact Or.inr hn
    exact ⟨h', l', e, w', hm, deref_mem w' hm⟩
  · intro xs ys hns
    subst hns
    obtain ⟨h', l', e, -, w', fx, -⟩ := erase_wf xs ys n v w
    have hnd := w.nodup
    rw [chain_split_cons, nodup_addrs_middle] at hnd
    have hnot : n ∉ addrs (live (xs ++ ys)) := by
      intro hm
      apply hnd.1
      simp only [live_append, addrs_append, addrs_cons, List.mem_append, List.mem_cons,
        addrs_nil, List.not_mem_nil, or_false] at hm ⊢
      tauto
    refine ⟨h', l', e, w', hnot, fx, ?_⟩
    simp [Iterator.deref, load, fx, bind, Except.bind]

/-- Claim C15 at the list 1, 2, 3 and the iterator at the node holding 2. -/
theorem iterator_stability_witness :
    Wf exHeap exList 0 [(2, 1), (3, 2), (4, 3)] 1 ∧ (3, 2) ∈ [(2, 1), (3, 2), (4, 3)] ∧
    Iterator.deref exHeap (some 3) = .ok 2 ∧
    (∃ h' l' c, insert exHeap exList (some 2) 7 = .ok (h', l', some c) ∧
      Iterator.deref h' (some 3) = .ok 2) ∧
    (∃ h' l', erase exHeap exList (some 2) = .ok (h', l', some 3) ∧
      Iterator.deref h' (some 3) = .ok 2) ∧
    (∃ h' l', erase exHeap exList (some 3) = .ok (h', l', some 4) ∧
      Iterator.deref h' (some 3) = .error .undefined) := by
  obtain ⟨hd, hins, her, her'⟩ := iterator_stability exHeap_wf 3 2 (by decide)
  obtain ⟨h1, l1, c, e1, -, -, d1⟩ := hins [] [(2, 1), (3, 2), (4, 3)] 7 rfl (by decide)
  obtain ⟨h2, l2, e2, -, -, d2⟩ := her [] 2 1 [(3, 2), (4, 3)] rfl (by decide)
  obtain ⟨h3, l3, e3, -, -, -, d3⟩ := her' [(2, 1)] [(4, 3)] rfl
  exact ⟨exHeap_wf, by decide, hd, ⟨h1, l1, c, e1, d1⟩, ⟨h2, l2, e2, d2⟩, ⟨h3, l3, e3, d3⟩⟩

/-! The claims C16 to C20. -/

/-- A well-formed list is well-formed for some sentinels and interior nodes. -/
theorem Wf.good {h : Heap T} {l : LList} {f b : Nat} {ns : List (Nat × T)}
    (w : Wf h l f ns b) : Good h l := ⟨f, ns, b, w⟩

/-- In a well-formed empty list the two sentinels point at each other. -/
theorem empty_links {h : Heap T} {l : LList} {f b : Nat} (w : Wf h l f [] b) :
    begin h l = .ok («end» l) ∧ Iterator.dec h («end» l) = .ok l._front := by
  obtain ⟨-, -, cb, -⟩ := w.cells
  refine ⟨by rw [begin_wf w, end_wf w]; rfl, ?_⟩
  rw [end_wf w, dec_some' cb, w.front_eq]
  rfl

/-- Claim C16: on a well-formed list the traversal with reverse iterators from `rbegin()`
to `rend()`, each dereference reading the node before the underlying position,
yields the reverse of the forward traversal; on a non-empty list `*rbegin()` is
`back()`. -/
theorem reverse_iteration {h : Heap T} {l : LList} {f b : Nat} {ns : List (Nat × T)}
    (w : Wf h l f ns b) :
    (∀ k, ns.length < k → traverse k h l = .ok (vals ns) ∧
      rtraverse k h l = .ok (vals ns).reverse) ∧
    (ns ≠ [] → ∃ z, (vals ns).getLast? = some z ∧
      reverse_iterator.deref h (rbegin l) = .ok z ∧ back h l = .ok z) := by
  refine ⟨fun k hk => ⟨traverse_wf w k hk, rtraverse_wf w k hk⟩, ?_⟩
  intro hne
  obtain ⟨v, z, -, hz, -, hb⟩ := front_back_wf w hne
  have hs : size l ≠ 0 := by
    rw [size, w.size_eq]
    cases ns with
    | nil => exact absurd rfl hne
    | cons n ns => simp
  exact ⟨z, hz, by rw [rbegin_deref_eq_back h l hs]; exact hb, hb⟩

/-- Claim C16 at the list 1, 2, 3. -/
theorem reverse_iteration_witness :
    Wf exHeap exList 0 [(2, 1), (3, 2), (4, 3)] 1 ∧
    traverse 4 exHeap exList = .ok [1, 2, 3] ∧ rtraverse 4 exHeap exList = .ok [3, 2, 1] ∧
    ∃ z, reverse_iterator.deref exHeap (rbegin exList) = .ok z ∧ back exHeap exList = .ok z := by
  obtain ⟨ht, hb⟩ := reverse_iteration exHeap_wf
  obtain ⟨z, -, hz⟩ := hb (by decide)
  exact ⟨exHeap_wf, (ht 4 (by decide)).1, (ht 4 (by decide)).2, z, hz⟩

/-- Claim C17: a well-formed list satisfies the invariant in the words of the
specification (following `next` from the front sentinel reaches the back
sentinel after exactly `_size` interior nodes, every node `m` before it has
`m.next.prev == m`, the outer links are null); every constructor gives a
well-formed list; and `insert`, range `insert`, `erase`, range `erase`,
`push_front`, `push_back`, `pop_front`, `pop_back`, `clear`, `reverse`,
`unique`, copy assignment and move assignment (for both lists) return and leave
well-formed lists, where the growing operations have room in `size_t` and the
loops have fuel for the nodes. -/
theorem wellformed_invariant :
    (∀ (T : Type) (h : Heap T) (l : LList), Good h l → Inv h l) ∧
    (∀ (T : Type) (h : Heap T), ∃ h' l, List_ctor h = .ok (h', l) ∧ Good h' l) ∧
    (∀ (T : Type) (h : Heap T) (n : Nat) (v : T), n < SIZE_MOD →
      ∃ h' l, List_count h n v = .ok (h', l) ∧ Good h' l) ∧
    (∀ (T : Type) (h : Heap T) (src : LList) (fuel : Nat), Good h src → size src < fuel →
      ∃ h' l, List_copy fuel h src = .ok (h', l) ∧ Good h' l ∧ Good h' src) ∧
    (∀ (T : Type) (h : Heap T) (src : LList), Good h src →
      ∃ h' l src', List_move h src = .ok (h', l, src') ∧ Good h' l ∧ Good h' src') ∧
    (∀ (T : Type) (h : Heap T) (l : LList) (f b : Nat) (xs ys : List (Nat × T)),
      Wf h l f (xs ++ ys) b →
      (∀ v, size l + 1 < SIZE_MOD →
        ∃ h' l' it, insert h l (posOf ys b) v = .ok (h', l', it) ∧ Good h' l') ∧
      (∀ s : List T, size l + s.length < SIZE_MOD →
        ∃ h' l' it, insert_range h l (posOf ys b) s = .ok (h', l', it) ∧ Good h' l') ∧
      (∃ h' l' it, erase h l (posOf ys b) = .ok (h', l', it) ∧ Good h' l')) ∧
    (∀ (T : Type) (h : Heap T) (l : LList) (f b : Nat) (xs ys zs : List (Nat × T)) (fuel : Nat),
      Wf h l f (xs ++ ys ++ zs) b → ys.length < fuel →
      ∃ h' l' it, erase_range fuel h l (posOf (ys ++ zs) b) (posOf zs b) = .ok (h', l', it) ∧
        Good h' l') ∧
    (∀ (T : Type) (h : Heap T) (l : LList), Good h l →
      (∀ v, size l + 1 < SIZE_MOD →
        (∃ h' l', push_front h l v = .ok (h', l') ∧ Good h' l') ∧
        (∃ h' l', push_back h l v = .ok (h', l') ∧ Good h' l')) ∧
      (∃ h' l', pop_front h l = .ok (h', l') ∧ Good h' l') ∧
      (∃ h' l', pop_back h l = .ok (h', l') ∧ Good h' l') ∧
      (∀ fuel, size l + 2 < fuel →
        (∃ h' l', clear fuel h l = .ok (h', l') ∧ Good h' l') ∧
        (∃ h' l', reverse fuel h l = .ok (h', l') ∧ Good h' l') ∧
        (∀ ne : T → T → Bool, ∃ h' l', unique ne fuel h l = .ok (h', l') ∧ Good h' l'))) ∧
    (∀ (T : Type) (h : Heap T) (dst src : LList) (fd : Nat) (nd : List (Nat × T)) (bd fs : Nat)
      (ss : List (Nat × T)) (bs p q fuel : Nat), p ≠ q →
      Pair h dst fd nd bd src fs ss bs → nd.length < fuel → ss.length < fuel →
      (∃ h' dst', copy_assign fuel h p q dst src = .ok (h', dst') ∧
        Good h' dst' ∧ Good h' src) ∧
      (∃ h' dst' src', move_assign fuel h p q dst src = .ok (h', dst', src') ∧
        Good h' dst' ∧ Good h' src')) := by
  refine ⟨?_, ?_, ?_, ?_, ?_, ?_, ?_, ?_, ?_⟩
  · rintro T h l ⟨f, ns, b, w⟩
    exact Inv_of_Wf w
  · intro T h
    obtain ⟨h', e, -, w, -⟩ := ctor_wf h
    exact ⟨h', _, e, w.good⟩
  · intro T h n v hn
    obtain ⟨h', l, f, ms, b, e, w, -⟩ := ctor_count_wf h n v hn
    exact ⟨h', l, e, w.good⟩
  · rintro T h src fuel ⟨fs, ss, bs, w⟩ hf
    rw [size, w.size_eq] at hf
    obtain ⟨h', dst, ms, e, -, wd, -, -, -, fr⟩ := List_copy_wf w fuel hf
    exact ⟨h', dst, e, wd.good, (Wf_frame w (fun a ha => fr a (w.lt a ha))).good⟩
  · rintro T h src ⟨fs, ss, bs, w⟩
    obtain ⟨h', dst, src', e, -, hp, -⟩ := List_move_wf w
    exact ⟨h', dst, src', e, hp.1.good, hp.2.1.good⟩
  · intro T h l f b xs ys w
    have hsize : size l = (xs ++ ys).length := by rw [size, w.size_eq]
    refine ⟨?_, ?_, ?_⟩
    · intro v hsz
      rw [hsize] at hsz
      obtain ⟨h', l', e, -, w', -⟩ := insert_wf xs ys v w hsz
      exact ⟨h', l', _, e, w'.good⟩
    · intro s hsz
      rw [hsize] at hsz
      obtain ⟨h', l', ms, e, -, w', -⟩ := insert_range_wf xs ys s w hsz
      exact ⟨h', l', _, e, w'.good⟩
    · cases ys with
      | nil =>
        refine ⟨h, l, «end» l, ?_, w.good⟩
        rw [posOf_nil, ← end_wf w]
        simp [erase, pure, Except.pure]
      | cons y ys =>
        obtain ⟨h', l', e, -, w', -⟩ := erase_wf xs ys y.1 y.2 w
        exact ⟨h', l', _, e, w'.good⟩
  · intro T h l f b xs ys zs fuel w hf
    obtain ⟨h', l', e, -, w', -⟩ := erase_range_wf xs ys zs w fuel hf
    exact ⟨h', l', _, e, w'.good⟩
  · rintro T h l ⟨f, ns, b, w⟩
    have hsize : size l = ns.length := by rw [size, w.size_eq]
    refine ⟨?_, ?_, ?_, ?_⟩
    · intro v hsz
      rw [hsize] at hsz
      obtain ⟨h1, l1, e1, w1⟩ := push_front_wf v w hsz
      obtain ⟨h2, l2, e2, -, w2⟩ := push_back_wf v w hsz
      exact ⟨⟨h1, l1, e1, w1.good⟩, ⟨h2, l2, e2, w2.good⟩⟩
    · obtain ⟨h', l', e, w'⟩ := pop_front_wf w
      exact ⟨h', l', e, w'.good⟩
    · obtain ⟨h', l', e, w'⟩ := pop_back_wf w
      exact ⟨h', l', e, w'.good⟩
    · intro fuel hf
      rw [hsize] at hf
      refine ⟨?_, ?_, ?_⟩
      · obtain ⟨h', l', e, -, w'⟩ := clear_wf w fuel (by omega)
        exact ⟨h', l', e, w'.good⟩
      · obtain ⟨h', l', e, -, w', -⟩ := reverse_wf w fuel hf
        exact ⟨h', l', e, w'.good⟩
      · intro ne
        obtain ⟨h', l', ks, es, e, -, w', -⟩ := unique_wf ne w fuel (by omega)
        exact ⟨h', l', e, w'.good⟩
  · intro T h dst src fd nd bd fs ss bs p q fuel hpq hp hfd hfs
    constructor
    · obtain ⟨h', dst', ms, e, wd', -, -, ws', -⟩ :=
        copy_assign_wf p q hpq hp.1 hp.2.1 hp.2.2 fuel hfd hfs
      exact ⟨h', dst', e, wd'.good, ws'.good⟩
    · obtain ⟨h', dst', src', e, -, hp', -⟩ := move_assign_wf p q hpq hp fuel hfd
      exact ⟨h', dst', src', e, hp'.1.good, hp'.2.1.good⟩

/-- Claim C17 at the list 1, 2, 3: the invariant holds for it, and for the list after
`reverse` and `pop_back`. -/
theorem wellformed_invariant_witness :
    Inv exHeap exList ∧
    (∃ h' l', reverse 6 exHeap exList = .ok (h', l') ∧ Inv h' l') ∧
    (∃ h' l', pop_back exHeap exList = .ok (h', l') ∧ Inv h' l') := by
  obtain ⟨hinv, -, -, -, -, -, -, hops, -⟩ := wellformed_invariant
  obtain ⟨-, -, ⟨h1, l1, e1, g1⟩, hloop⟩ := hops Nat exHeap exList exHeap_wf.good
  obtain ⟨-, ⟨h2, l2, e2, g2⟩, -⟩ := hloop 6 (by decide)
  exact ⟨hinv Nat _ _ exHeap_wf.good, ⟨h2, l2, e2, hinv Nat _ _ g2⟩,
    ⟨h1, l1, e1, hinv Nat _ _ g1⟩⟩

/-- Claim C18: for a well-formed list (which every list made by a constructor and public
operations is) the emptiness tests agree: `begin() == end()` holds if and only
if `size() == 0`, which holds if and only if `empty()` returns true. -/
theorem emptiness_tests_agree {h : Heap T} {l : LList} {f b : Nat} {ns : List (Nat × T)}
    (w : Wf h l f ns b) :
    (begin h l = .ok («end» l) ↔ size l = 0) ∧ (size l = 0 ↔ empty l = true) ∧
    (begin h l = .ok («end» l) ↔ ns = []) := by
  obtain ⟨h1, h2⟩ := begin_end_iff w
  refine ⟨h1, h2, h1.trans ?_⟩
  rw [size, w.size_eq]
  exact List.length_eq_zero

/-- Claim C18 at the list 1, 2, 3 and at a default-constructed list. -/
theorem emptiness_tests_agree_witness :
    Wf exHeap exList 0 [(2, 1), (3, 2), (4, 3)] 1 ∧
    ¬ begin exHeap exList = .ok («end» exList) ∧ ¬ size exList = 0 ∧
    ¬ empty exList = true ∧
    begin exHeapEmpty exListEmpty = .ok («end» exListEmpty) ∧ size exListEmpty = 0 ∧
    empty exListEmpty = true := by
  have h1 := emptiness_tests_agree exHeap_wf
  have h2 := emptiness_tests_agree exHeapEmpty_wf
  have hz : size exListEmpty = 0 := rfl
  have hn : ¬ size exList = 0 := by decide
  exact ⟨exHeap_wf, fun e => hn (h1.1.1 e), hn, fun e => hn (h1.2.1.2 e), h2.1.2 hz, hz,
    h2.2.1.1 hz⟩

/-- Claim C19: move construction and move assignment (to a distinct destination that
shares no node with the source, whatever it held) from a well-formed empty
source leave both lists well-formed and empty; they share no sentinel, the
front sentinel of each list is linked to the back sentinel of the same list and
that back sentinel links back to it. -/
theorem move_from_empty {h : Heap T} {src : LList} {fs bs : Nat} (w : Wf h src fs [] bs) :
    (∃ h' dst src' fd bd, List_move h src = .ok (h', dst, src') ∧
      Pair h' dst fd [] bd src' fs [] bs ∧ size dst = 0 ∧ size src' = 0 ∧
      begin h' dst = .ok («end» dst) ∧ Iterator.dec h' («end» dst) = .ok dst._front ∧
      begin h' src' = .ok («end» src') ∧ Iterator.dec h' («end» src') = .ok src'._front) ∧
    (∀ (dst : LList) (fd : Nat) (nd : List (Nat × T)) (bd p q fuel : Nat), p ≠ q →
      Wf h dst fd nd bd → Apart fd nd bd fs [] bs → nd.length < fuel →
      ∃ h' dst' src', move_assign fuel h p q dst src = .ok (h', dst', src') ∧
        Pair h' dst' fd [] bd src' fs [] bs ∧ size dst' = 0 ∧ size src' = 0 ∧
        begin h' dst' = .ok («end» dst') ∧ Iterator.dec h' («end» dst') = .ok dst'._front ∧
        begin h' src' = .ok («end» src') ∧
        Iterator.dec h' («end» src') = .ok src'._front) := by
  have hz : size src = 0 := by rw [size, w.size_eq]; rfl
  constructor
  · obtain ⟨h', dst, src', e, -, hp, hsz, hsz', -⟩ := List_move_wf w
    exact ⟨h', dst, src', _, _, e, hp, by rw [hsz, hz], hsz', (empty_links hp.1).1,
      (empty_links hp.1).2, (empty_links hp.2.1).1, (empty_links hp.2.1).2⟩
  · intro dst fd nd bd p q fuel hpq wd hap hf
    obtain ⟨h', dst', src', e, -, hp, hsz, hsz', -⟩ :=
      move_assign_wf p q hpq ⟨wd, w, hap⟩ fuel hf
    exact ⟨h', dst', src', e, hp, by rw [hsz, hz], hsz', (empty_links hp.1).1,
      (empty_links hp.1).2, (empty_links hp.2.1).1, (empty_links hp.2.1).2⟩

/-- Claim C19 at a default-constructed list: moved into a new list, and the empty list
at 5 and 6 moved into the list 1, 2, 3. -/
theorem move_from_empty_witness :
    Wf exHeapEmpty exListEmpty 0 [] 1 ∧
    (∃ h' dst src', List_move exHeapEmpty exListEmpty = .ok (h', dst, src') ∧
      size dst = 0 ∧ size src' = 0 ∧ traverse 1 h' dst = .ok [] ∧
      traverse 1 h' src' = .ok [] ∧
      begin h' dst = .ok («end» dst) ∧ begin h' src' = .ok («end» src')) ∧
    (∃ h' dst src', move_assign 4 exHeapTwo 0 1 exList exListTwo = .ok (h', dst, src') ∧
      size dst = 0 ∧ size src' = 0 ∧ traverse 1 h' dst = .ok [] ∧
      traverse 1 h' src' = .ok [] ∧
      begin h' dst = .ok («end» dst) ∧ begin h' src' = .ok («end» src')) := by
  refine ⟨exHeapEmpty_wf, ?_, ?_⟩
  · obtain ⟨⟨h', dst, src', fd, bd, e, hp, hs, hs', hb, -, hb', -⟩, -⟩ :=
      move_from_empty exHeapEmpty_wf
    exact ⟨h', dst, src', e, hs, hs', traverse_wf hp.1 1 (by decide),
      traverse_wf hp.2.1 1 (by decide), hb, hb'⟩
  · obtain ⟨-, hma⟩ := move_from_empty exHeapTwo_pair.1
    obtain ⟨h', dst, src', e, hp, hs, hs', hb, -, hb', -⟩ :=
      hma exList 0 _ 1 0 1 4 (by decide) exHeapTwo_pair.2.1 (Pair_symm exHeapTwo_pair).2.2
        (by decide)
    exact ⟨h', dst, src', e, hs, hs', traverse_wf hp.1 1 (by decide),
      traverse_wf hp.2.1 1 (by decide), hb, hb'⟩

/-- Claim C20: for an element type whose `!=` is the negation of a decidable equality,
`unique()` on a well-formed list whose values have `k` maximal runs keeps the
first `k` interior nodes of the chain, in their order, now holding the first
value of each run, and erases (frees) the remaining nodes of the chain; an
iterator at one of the first `k` nodes still dereferences, to the value of the
run at its position.  In the list 1, 1, 2 the node at address 3 held 1 and
holds 2 after `unique()`. -/
theorem unique_keeps_prefix :
    (∀ (T : Type) [DecidableEq T] (ne : T → T → Bool), (∀ a b, ne a b = true ↔ a ≠ b) →
      ∀ (h : Heap T) (l : LList) (f b : Nat) (ns : List (Nat × T)), Wf h l f ns b →
      2 ≤ ns.length → ∀ fuel, ns.length < fuel →
      ∃ h' l' ks, unique ne fuel h l = .ok (h', l') ∧ Wf h' l' f ks b ∧
        ks.length = (runs (vals ns)).length ∧ ks.length ≤ ns.length ∧
        addrs (live ks) = (addrs (live ns)).take (runs (vals ns)).length ∧
        vals ks = run_heads (vals ns) ∧
        (∀ a ∈ (addrs (live ns)).drop (runs (vals ns)).length,
          a ∉ addrs (live ks) ∧ cellAt h' a = none) ∧
        (∀ a v, (a, v) ∈ ks → Iterator.deref h' (some a) = .ok v)) ∧
    (Iterator.deref exHeapDup (some 3) = .ok 1 ∧
      ∃ h' l', unique (fun a b => a != b) 4 exHeapDup exList = .ok (h', l') ∧
        Iterator.deref h' (some 3) = .ok 2 ∧ traverse 3 h' l' = .ok [1, 2] ∧
        cellAt h' 4 = none) := by
  refine ⟨?_, rfl, ⟨_, _, rfl, rfl, rfl, rfl⟩⟩
  intro T _ ne hne h l f b ns w _ fuel hf
  obtain ⟨h', l', ks, es, e, -, w', hv, had, hfree, -⟩ := unique_wf ne w fuel hf
  obtain ⟨hrh, hrl⟩ := run_heads_eq ne hne (vals ns)
  have hk : ks.length = (runs (vals ns)).length := by
    rw [hrl, ← hv]; simp [vals]
  have hklen : ks.length ≤ ns.length := by
    have := congrArg List.length had
    simp only [addrs, live, List.length_map, List.length_append] at this
    omega
  obtain ⟨htake, hdrop⟩ := prefix_of_addrs had
  rw [hk] at htake hdrop
  refine ⟨h', l', ks, e, w', hk, hklen, htake, by rw [hv, hrh], ?_, ?_⟩
  · intro a ha
    rw [← hdrop] at ha
    refine ⟨?_, hfree a ha⟩
    intro hmem
    have hnd : (addrs (live (ks ++ es))).Nodup := by
      rw [had]; exact w.cells.2.2.2.2.2.2
    simp only [live_append, addrs_append] at hnd
    exact (List.nodup_append.1 hnd).2.2 hmem ha
  · intro a v hm
    exact deref_mem w' hm

/-- Claim C20 at the list 1, 1, 2: the nodes at 2 and 3 stay, the node at 4 is erased. -/
theorem unique_keeps_prefix_witness :
    Wf exHeapDup exList 0 [(2, 1), (3, 1), (4, 2)] 1 ∧
    ∃ h' l' ks, unique (fun a b => a != b) 4 exHeapDup exList = .ok (h', l') ∧
      addrs (live ks) = [2, 3] ∧ vals ks = [1, 2] ∧ cellAt h' 4 = none := by
  refine ⟨exHeapDup_wf, ?_⟩
  obtain ⟨h', l', ks, e, -, -, -, ha, hv, hfree, -⟩ :=
    unique_keeps_prefix.1 Nat (fun a b => a != b) (by simp) exHeapDup exList 0 1 _
      exHeapDup_wf (by decide) 4 (by decide)
  exact ⟨h', l', ks, e, ha, hv, (hfree 4 (by decide)).2⟩

end StlList
